import Mathlib

/-!
Verification of the nxgraph library (graph store, BFS / Dijkstra search,
Kahn topological sort) against its design document.

The Rust source is shallowly embedded: `HashMap` becomes an insertion-ordered
association list, `HashSet` becomes a duplicate-free insertion-ordered list,
`usize` becomes `Nat` (with the `usize::MAX` sentinel of Dijkstra kept as an
explicit constant), and every panicking operation (`expect`, `unwrap`,
indexing, arithmetic underflow) is routed through an `Option` layer where
`none` models the panic.  Loops are modelled by fueled recursion; each fuel
argument is instantiated with a bound proved sufficient below, so on every
input where the Rust loop terminates normally the model returns `some`.
-/

set_option maxHeartbeats 1000000
set_option linter.unusedSectionVars false

namespace NxGraph

variable {α : Type} {β : Type}

/-- Model of `HashMap::get`: first binding of the key, if any. -/
def mget [DecidableEq α] : List (α × β) → α → Option β
  | [], _ => none
  | (k, v) :: rest, a => if k = a then some v else mget rest a

/-- Keys of an association list, in storage order. -/
def mkeys (m : List (α × β)) : List α := m.map Prod.fst

/-- Model of `HashMap::insert`: replace the value at an existing key
(keeping its slot), otherwise append a fresh binding. -/
def mput [DecidableEq α] : List (α × β) → α → β → List (α × β)
  | [], a, b => [(a, b)]
  | (k, v) :: rest, a, b =>
      if k = a then (a, b) :: rest else (k, v) :: mput rest a b

/-- Model of `HashMap::remove` (value dropped): delete the first binding. -/
def mdel [DecidableEq α] : List (α × β) → α → List (α × β)
  | [], _ => []
  | (k, v) :: rest, a => if k = a then rest else (k, v) :: mdel rest a

/-- Model of `HashMap::entry(a).or_default()`: ensure the key is bound,
binding it to `b` if absent. -/
def mentry [DecidableEq α] (m : List (α × β)) (a : α) (b : β) : List (α × β) :=
  match mget m a with
  | some _ => m
  | none => m ++ [(a, b)]

/-- Model of `HashSet::insert` on a duplicate-free list. -/
def sinsert [DecidableEq α] (s : List α) (v : α) : List α :=
  if v ∈ s then s else s ++ [v]

@[simp] theorem mkeys_nil : mkeys ([] : List (α × β)) = [] := rfl

@[simp] theorem mkeys_cons (p : α × β) (m : List (α × β)) :
    mkeys (p :: m) = p.1 :: mkeys m := rfl

theorem mkeys_append (m n : List (α × β)) :
    mkeys (m ++ n) = mkeys m ++ mkeys n := by
  simp [mkeys]

section MapLemmas

variable [DecidableEq α]

theorem mget_append (m n : List (α × β)) (x : α) :
    mget (m ++ n) x = match mget m x with
      | some b => some b
      | none => mget n x := by
  induction m with
  | nil => simp [mget]
  | cons p rest ih =>
      obtain ⟨k, v⟩ := p
      by_cases h : k = x <;> simp [mget, h, ih]

theorem mget_mput (m : List (α × β)) (a : α) (b : β) (x : α) :
    mget (mput m a b) x = if x = a then some b else mget m x := by
  induction m with
  | nil =>
      by_cases hx : x = a
      · subst hx; simp [mput, mget]
      · have hax : ¬ a = x := fun h => hx h.symm
        simp [mput, mget, hx, hax]
  | cons p rest ih =>
      obtain ⟨k, v⟩ := p
      by_cases hka : k = a
      · subst hka
        by_cases hx : x = k
        · subst hx; simp [mput, mget]
        · have hkx : ¬ k = x := fun h => hx h.symm
          simp [mput, mget, hx, hkx]
      · by_cases hkx : k = x
        · subst hkx
          have hxa : ¬ k = a := hka
          simp [mput, mget, hka, hxa]
        · simp [mput, mget, hka, hkx, ih]

theorem mget_mentry (m : List (α × β)) (a : α) (b : β) (x : α) :
    mget (mentry m a b) x =
      if x = a then (match mget m a with | some c => some c | none => some b)
      else mget m x := by
  unfold mentry
  cases hma : mget m a with
  | some c =>
      by_cases hx : x = a
      · subst hx; simp [hma]
      · simp [hx]
  | none =>
      rw [mget_append]
      by_cases hx : x = a
      · subst hx; simp [hma, mget]
      · have hax : ¬ a = x := fun h => hx h.symm
        cases hmx : mget m x with
        | some d => simp [hx]
        | none => simp [mget, hax, hx]

theorem mget_isSome_iff_mem_mkeys (m : List (α × β)) (x : α) :
    (mget m x).isSome ↔ x ∈ mkeys m := by
  induction m with
  | nil => simp [mget]
  | cons p rest ih =>
      obtain ⟨k, v⟩ := p
      by_cases h : k = x
      · subst h; simp [mget]
      · have hxk : ¬ x = k := fun h2 => h h2.symm
        simp [mget, h, hxk, ih]

theorem mget_eq_none_iff_not_mem (m : List (α × β)) (x : α) :
    mget m x = none ↔ x ∉ mkeys m := by
  rw [← mget_isSome_iff_mem_mkeys]
  cases mget m x <;> simp

theorem mkeys_mput (m : List (α × β)) (a : α) (b : β) :
    mkeys (mput m a b) = if a ∈ mkeys m then mkeys m else mkeys m ++ [a] := by
  induction m with
  | nil => simp [mput]
  | cons p rest ih =>
      obtain ⟨k, v⟩ := p
      by_cases h : k = a
      · subst h; simp [mput]
      · have hak : ¬ a = k := fun h2 => h h2.symm
        by_cases hm : a ∈ mkeys rest
        · simp [mput, h, hm, ih, hak]
        · simp [mput, h, hm, ih, hak]

theorem mkeys_mentry (m : List (α × β)) (a : α) (b : β) :
    mkeys (mentry m a b) = if a ∈ mkeys m then mkeys m else mkeys m ++ [a] := by
  unfold mentry
  cases hma : mget m a with
  | some c =>
      have hmem : a ∈ mkeys m := by
        rw [← mget_isSome_iff_mem_mkeys, hma]; rfl
      simp [hmem]
  | none =>
      have hmem : a ∉ mkeys m := (mget_eq_none_iff_not_mem m a).mp hma
      rw [if_neg (by simpa [mkeys] using hmem), mkeys_append]
      rfl

theorem mget_mdel (m : List (α × β)) (a x : α) (hnd : (mkeys m).Nodup) :
    mget (mdel m a) x = if x = a then none else mget m x := by
  induction m with
  | nil => simp [mdel, mget]
  | cons p rest ih =>
      obtain ⟨k, v⟩ := p
      rw [mkeys_cons, List.nodup_cons] at hnd
      obtain ⟨hk, hrest⟩ := hnd
      by_cases hka : k = a
      · subst hka
        by_cases hx : x = k
        · subst hx
          simp [mdel, mget_eq_none_iff_not_mem, hk]
        · have hkx : ¬ k = x := fun h => hx h.symm
          simp [mdel, mget, hkx, hx]
      · by_cases hkx : k = x
        · subst hkx
          have hxa : ¬ k = a := hka
          simp [mdel, hka, mget, hxa]
        · simp [mdel, hka, mget, hkx, ih hrest]

theorem mkeys_mdel_subset (m : List (α × β)) (a : α) :
    mkeys (mdel m a) ⊆ mkeys m := by
  induction m with
  | nil => simp [mdel]
  | cons p rest ih =>
      obtain ⟨k, v⟩ := p
      by_cases hka : k = a
      · subst hka
        intro x hx
        simp only [mdel, if_pos rfl] at hx
        exact List.mem_cons_of_mem _ hx
      · simp only [mdel, if_neg hka, mkeys_cons]
        intro x hx
        rcases List.mem_cons.mp hx with h | h
        · exact List.mem_cons.mpr (Or.inl h)
        · exact List.mem_cons.mpr (Or.inr (ih h))

theorem mkeys_mdel_nodup (m : List (α × β)) (a : α) (hnd : (mkeys m).Nodup) :
    (mkeys (mdel m a)).Nodup := by
  induction m with
  | nil => simp [mdel]
  | cons p rest ih =>
      obtain ⟨k, v⟩ := p
      rw [mkeys_cons, List.nodup_cons] at hnd
      obtain ⟨hk, hrest⟩ := hnd
      by_cases hka : k = a
      · subst hka; simpa [mdel] using hrest
      · simp only [mdel, if_neg hka, mkeys_cons, List.nodup_cons]
        exact ⟨fun hmem => hk (mkeys_mdel_subset rest a hmem), ih hrest⟩

theorem length_mdel_of_mem (m : List (α × β)) (a : α)
    (h : (mget m a).isSome) : (mdel m a).length + 1 = m.length := by
  induction m with
  | nil => simp [mget] at h
  | cons p rest ih =>
      obtain ⟨k, v⟩ := p
      by_cases hka : k = a
      · simp [mdel, hka]
      · simp only [mget, if_neg hka] at h
        simp [mdel, hka, ih h]

theorem length_mput_of_mem (m : List (α × β)) (a : α) (b : β)
    (h : (mget m a).isSome) : (mput m a b).length = m.length := by
  induction m with
  | nil => simp [mget] at h
  | cons p rest ih =>
      obtain ⟨k, v⟩ := p
      by_cases hka : k = a
      · simp [mput, hka]
      · simp only [mget, if_neg hka] at h
        simp [mput, hka, ih h]

theorem sinsert_nodup (s : List α) (v : α) (h : s.Nodup) :
    (sinsert s v).Nodup := by
  unfold sinsert
  by_cases hv : v ∈ s
  · simpa [hv] using h
  · simp [hv, List.nodup_append, h]

theorem mem_sinsert (s : List α) (v x : α) :
    x ∈ sinsert s v ↔ x ∈ s ∨ x = v := by
  unfold sinsert
  by_cases hv : v ∈ s
  · simp only [if_pos hv]
    constructor
    · exact Or.inl
    · rintro (h | h)
      · exact h
      · subst h; exact hv
  · simp [hv]

theorem length_sinsert_of_not_mem (s : List α) (v : α)
    (h : v ∉ s) : (sinsert s v).length = s.length + 1 := by
  simp [sinsert, h]

theorem length_sinsert_of_mem (s : List α) (v : α)
    (h : v ∈ s) : (sinsert s v).length = s.length := by
  simp [sinsert, h]

end MapLemmas

/-- The graph store of `graph.rs`: adjacency and predecessor maps.  The Rust
directedness tag only selects which mutation methods exist, so one carrier
suffices; directed and undirected operations live in separate namespaces. -/
structure Graph (α : Type) where
  adj : List (α × List α)
  pred : List (α × List α)

section GraphOps

variable [DecidableEq α]

/-- Model of `Graph::new`. -/
def Graph.new : Graph α := ⟨[], []⟩

/-- Model of `Graph::adj` (the method, `self.adj.get(u)`). -/
def Graph.adjLookup (g : Graph α) (u : α) : Option (List α) := mget g.adj u

/-- Model of `Graph::nodes` collected into a sequence: the adjacency keys. -/
def Graph.nodes (g : Graph α) : List α := mkeys g.adj

/-- Successor set of `u`, empty when `u` has no adjacency entry. -/
def adjSet (g : Graph α) (u : α) : List α := (mget g.adj u).getD []

/-- Predecessor set of `u`, empty when `u` has no predecessor entry. -/
def predSet (g : Graph α) (u : α) : List α := (mget g.pred u).getD []

/-- Model of `adj.entry(u).or_default().insert(v)` on either map. -/
def adjInsert (m : List (α × List α)) (u v : α) : List (α × List α) :=
  match mget m u with
  | some s => mput m u (sinsert s v)
  | none => m ++ [(u, [v])]

/-- Model of directed `add_node` (`graph.rs` lines 119-122). -/
def Directed.add_node (g : Graph α) (u : α) : Graph α :=
  { adj := mentry g.adj u [], pred := mentry g.pred u [] }

/-- Model of directed `add_edge` (`graph.rs` lines 125-131): insert `v` into
`adj[u]`, ensure `adj[v]`, insert `u` into `pred[v]`, ensure `pred[u]`. -/
def Directed.add_edge (g : Graph α) (u v : α) : Graph α :=
  { adj := mentry (adjInsert g.adj u v) v [],
    pred := mentry (adjInsert g.pred v u) u [] }

/-- Model of directed `add_edges_from`. -/
def Directed.add_edges_from (g : Graph α) (es : List (α × α)) : Graph α :=
  es.foldl (fun h e => Directed.add_edge h e.1 e.2) g

/-- Model of undirected `add_node` (`graph.rs` lines 92-94). -/
def Undirected.add_node (g : Graph α) (u : α) : Graph α :=
  { g with adj := mentry g.adj u [] }

/-- Model of undirected `add_edge` (`graph.rs` lines 97-100): two directed
inserts into the adjacency map, `u -> v` then `v -> u`. -/
def Undirected.add_edge (g : Graph α) (u v : α) : Graph α :=
  { g with adj := adjInsert (adjInsert g.adj u v) v u }

/-- Model of undirected `add_edges_from`. -/
def Undirected.add_edges_from (g : Graph α) (es : List (α × α)) : Graph α :=
  es.foldl (fun h e => Undirected.add_edge h e.1 e.2) g

/-- Model of `Graph::in_degree` (`graph.rs` lines 140-145). -/
def Graph.in_degree (g : Graph α) (u : α) : Nat :=
  match mget g.pred u with
  | some v => v.length
  | none => 0

/-- Model of `Graph::in_degree_map` (`graph.rs` lines 147-152). -/
def Graph.in_degree_map (g : Graph α) : List (α × Nat) :=
  g.nodes.map (fun n => (n, g.in_degree n))

end GraphOps

/-- Directed graphs reachable from `new` through the public mutators.
`add_edges_from` is a fold of `add_edge`, covered by the edge constructor. -/
inductive DBuilt [DecidableEq α] : Graph α → Prop
  | new : DBuilt Graph.new
  | add_node (g : Graph α) (u : α) : DBuilt g → DBuilt (Directed.add_node g u)
  | add_edge (g : Graph α) (u v : α) : DBuilt g → DBuilt (Directed.add_edge g u v)

/-- Undirected graphs reachable from `new` through the public mutators. -/
inductive UBuilt [DecidableEq α] : Graph α → Prop
  | new : UBuilt Graph.new
  | add_node (g : Graph α) (u : α) : UBuilt g → UBuilt (Undirected.add_node g u)
  | add_edge (g : Graph α) (u v : α) : UBuilt g → UBuilt (Undirected.add_edge g u v)

section GraphLemmas

variable [DecidableEq α]

theorem DBuilt.addEdgesFrom {g : Graph α} (h : DBuilt g) (es : List (α × α)) :
    DBuilt (Directed.add_edges_from g es) := by
  induction es generalizing g with
  | nil => exact h
  | cons e rest ih => exact ih (DBuilt.add_edge _ e.1 e.2 h)

theorem UBuilt.uaddEdgesFrom {g : Graph α} (h : UBuilt g) (es : List (α × α)) :
    UBuilt (Undirected.add_edges_from g es) := by
  induction es generalizing g with
  | nil => exact h
  | cons e rest ih => exact ih (UBuilt.add_edge _ e.1 e.2 h)

theorem mget_adjInsert (m : List (α × List α)) (u v x : α) :
    mget (adjInsert m u v) x =
      if x = u then some (sinsert ((mget m u).getD []) v) else mget m x := by
  unfold adjInsert
  cases hmu : mget m u with
  | some s => simp [mget_mput, hmu]
  | none =>
      rw [mget_append]
      by_cases hx : x = u
      · subst hx; simp [hmu, mget, sinsert]
      · have hux : ¬ u = x := fun h => hx h.symm
        cases hmx : mget m x with
        | some d => simp [hx]
        | none => simp [mget, hux, hx]

theorem mkeys_adjInsert (m : List (α × List α)) (u v : α) :
    mkeys (adjInsert m u v) = if u ∈ mkeys m then mkeys m else mkeys m ++ [u] := by
  unfold adjInsert
  cases hmu : mget m u with
  | some s =>
      have hmem : u ∈ mkeys m := by
        rw [← mget_isSome_iff_mem_mkeys, hmu]; rfl
      simp [mkeys_mput, hmem]
  | none =>
      have hmem : u ∉ mkeys m := (mget_eq_none_iff_not_mem m u).mp hmu
      rw [if_neg hmem, mkeys_append]
      rfl

/-- Effect of directed `add_edge` on successor sets. -/
theorem adjSet_dadd_edge (g : Graph α) (u v x : α) :
    adjSet (Directed.add_edge g u v) x =
      if x = u then sinsert (adjSet g u) v else adjSet g x := by
  unfold adjSet Directed.add_edge
  simp only [mget_mentry, mget_adjInsert]
  by_cases hxv : x = v
  · subst hxv
    by_cases hxu : x = u
    · subst hxu
      simp
    · simp [hxu]
      cases hmx : mget g.adj x <;> simp
  · by_cases hxu : x = u
    · subst hxu; simp [hxv]
    · simp [hxv, hxu]

/-- Effect of directed `add_edge` on predecessor sets. -/
theorem predSet_dadd_edge (g : Graph α) (u v x : α) :
    predSet (Directed.add_edge g u v) x =
      if x = v then sinsert (predSet g v) u else predSet g x := by
  unfold predSet Directed.add_edge
  simp only [mget_mentry, mget_adjInsert]
  by_cases hxu : x = u
  · subst hxu
    by_cases hxv : x = v
    · subst hxv; simp
    · simp [hxv]
      cases hmx : mget g.pred x <;> simp
  · by_cases hxv : x = v
    · subst hxv; simp [hxu]
    · simp [hxv, hxu]

/-- Effect of directed `add_node` on successor sets: none. -/
theorem adjSet_dadd_node (g : Graph α) (u x : α) :
    adjSet (Directed.add_node g u) x = adjSet g x := by
  unfold adjSet Directed.add_node
  simp only [mget_mentry]
  by_cases hx : x = u
  · subst hx
    cases hmx : mget g.adj x <;> simp [hmx]
  · simp [hx]

/-- Effect of directed `add_node` on predecessor sets: none. -/
theorem predSet_dadd_node (g : Graph α) (u x : α) :
    predSet (Directed.add_node g u) x = predSet g x := by
  unfold predSet Directed.add_node
  simp only [mget_mentry]
  by_cases hx : x = u
  · subst hx
    cases hmx : mget g.pred x <;> simp [hmx]
  · simp [hx]

/-- Effect of undirected `add_edge` on successor sets. -/
theorem adjSet_uadd_edge (g : Graph α) (u v x : α) :
    adjSet (Undirected.add_edge g u v) x =
      if x = v then sinsert (if v = u then sinsert (adjSet g u) v else adjSet g v) u
      else if x = u then sinsert (adjSet g u) v
      else adjSet g x := by
  unfold adjSet Undirected.add_edge
  simp only [mget_adjInsert]
  by_cases hxv : x = v
  · subst hxv
    by_cases hvu : x = u
    · simp [hvu]
    · simp [hvu]
  · by_cases hxu : x = u
    · subst hxu; simp [hxv]
    · simp [hxv, hxu]

/-- Effect of undirected `add_node` on successor sets: none. -/
theorem adjSet_uadd_node (g : Graph α) (u x : α) :
    adjSet (Undirected.add_node g u) x = adjSet g x := by
  unfold adjSet Undirected.add_node
  simp only [mget_mentry]
  by_cases hx : x = u
  · subst hx
    cases hmx : mget g.adj x <;> simp [hmx]
  · simp [hx]

end GraphLemmas

section Wf

variable [DecidableEq α]

theorem nodup_ifSnoc (K : List α) (a : α) (h : K.Nodup) :
    (if a ∈ K then K else K ++ [a]).Nodup := by
  by_cases ha : a ∈ K
  · simpa [ha] using h
  · simp [ha, List.nodup_append, h]

theorem mem_ifSnoc (K : List α) (a x : α) :
    (x ∈ if a ∈ K then K else K ++ [a]) ↔ x ∈ K ∨ x = a := by
  by_cases ha : a ∈ K
  · simp only [if_pos ha]
    exact ⟨Or.inl, fun h => h.elim id (fun hx => hx ▸ ha)⟩
  · simp [ha]

theorem mem_nodes_iff (g : Graph α) (x : α) :
    x ∈ g.nodes ↔ (mget g.adj x).isSome :=
  (mget_isSome_iff_mem_mkeys g.adj x).symm

theorem adjSet_eq_nil_of_not_mem (g : Graph α) (x : α) (h : x ∉ g.nodes) :
    adjSet g x = [] := by
  unfold adjSet
  rw [(mget_eq_none_iff_not_mem g.adj x).mpr h]
  rfl

theorem mem_nodes_of_adjSet_ne_nil (g : Graph α) (x : α) (h : adjSet g x ≠ []) :
    x ∈ g.nodes := by
  by_contra hx
  exact h (adjSet_eq_nil_of_not_mem g x hx)

theorem in_degree_eq_length_predSet (g : Graph α) (u : α) :
    g.in_degree u = (predSet g u).length := by
  unfold Graph.in_degree predSet
  cases mget g.pred u <;> rfl

theorem mem_nodes_dadd_node (g : Graph α) (u x : α) :
    x ∈ (Directed.add_node g u).nodes ↔ x ∈ g.nodes ∨ x = u := by
  show x ∈ mkeys (mentry g.adj u []) ↔ _
  rw [mkeys_mentry]
  exact mem_ifSnoc _ u x

theorem mem_predkeys_dadd_node (g : Graph α) (u x : α) :
    x ∈ mkeys (Directed.add_node g u).pred ↔ x ∈ mkeys g.pred ∨ x = u := by
  show x ∈ mkeys (mentry g.pred u []) ↔ _
  rw [mkeys_mentry]
  exact mem_ifSnoc _ u x

theorem mem_nodes_dadd_edge (g : Graph α) (u v x : α) :
    x ∈ (Directed.add_edge g u v).nodes ↔ x ∈ g.nodes ∨ x = u ∨ x = v := by
  show x ∈ mkeys (mentry (adjInsert g.adj u v) v []) ↔ _
  rw [mkeys_mentry, mkeys_adjInsert]
  constructor
  · intro h
    rcases (mem_ifSnoc _ v x).mp h with h1 | h1
    · rcases (mem_ifSnoc _ u x).mp h1 with h2 | h2
      · exact Or.inl h2
      · exact Or.inr (Or.inl h2)
    · exact Or.inr (Or.inr h1)
  · intro h
    refine (mem_ifSnoc _ v x).mpr ?_
    rcases h with h1 | h1 | h1
    · exact Or.inl ((mem_ifSnoc _ u x).mpr (Or.inl h1))
    · exact Or.inl ((mem_ifSnoc _ u x).mpr (Or.inr h1))
    · exact Or.inr h1

theorem mem_predkeys_dadd_edge (g : Graph α) (u v x : α) :
    x ∈ mkeys (Directed.add_edge g u v).pred ↔ x ∈ mkeys g.pred ∨ x = v ∨ x = u := by
  show x ∈ mkeys (mentry (adjInsert g.pred v u) u []) ↔ _
  rw [mkeys_mentry, mkeys_adjInsert]
  constructor
  · intro h
    rcases (mem_ifSnoc _ u x).mp h with h1 | h1
    · rcases (mem_ifSnoc _ v x).mp h1 with h2 | h2
      · exact Or.inl h2
      · exact Or.inr (Or.inl h2)
    · exact Or.inr (Or.inr h1)
  · intro h
    refine (mem_ifSnoc _ u x).mpr ?_
    rcases h with h1 | h1 | h1
    · exact Or.inl ((mem_ifSnoc _ v x).mpr (Or.inl h1))
    · exact Or.inl ((mem_ifSnoc _ v x).mpr (Or.inr h1))
    · exact Or.inr h1

theorem nodes_dadd_node_nodup (g : Graph α) (u : α) (h : g.nodes.Nodup) :
    (Directed.add_node g u).nodes.Nodup := by
  show (mkeys (mentry g.adj u [])).Nodup
  rw [mkeys_mentry]
  exact nodup_ifSnoc _ u h

theorem predkeys_dadd_node_nodup (g : Graph α) (u : α) (h : (mkeys g.pred).Nodup) :
    (mkeys (Directed.add_node g u).pred).Nodup := by
  show (mkeys (mentry g.pred u [])).Nodup
  rw [mkeys_mentry]
  exact nodup_ifSnoc _ u h

theorem nodes_dadd_edge_nodup (g : Graph α) (u v : α) (h : g.nodes.Nodup) :
    (Directed.add_edge g u v).nodes.Nodup := by
  show (mkeys (mentry (adjInsert g.adj u v) v [])).Nodup
  rw [mkeys_mentry]
  refine nodup_ifSnoc _ v ?_
  rw [mkeys_adjInsert]
  exact nodup_ifSnoc _ u h

theorem predkeys_dadd_edge_nodup (g : Graph α) (u v : α) (h : (mkeys g.pred).Nodup) :
    (mkeys (Directed.add_edge g u v).pred).Nodup := by
  show (mkeys (mentry (adjInsert g.pred v u) u [])).Nodup
  rw [mkeys_mentry]
  refine nodup_ifSnoc _ u ?_
  rw [mkeys_adjInsert]
  exact nodup_ifSnoc _ v h

theorem mem_adjSet_dadd_edge (g : Graph α) (u v w x : α) :
    x ∈ adjSet (Directed.add_edge g u v) w ↔
      x ∈ adjSet g w ∨ (w = u ∧ x = v) := by
  rw [adjSet_dadd_edge]
  by_cases hw : w = u
  · subst hw
    rw [if_pos rfl, mem_sinsert]
    tauto
  · rw [if_neg hw]
    tauto

theorem mem_predSet_dadd_edge (g : Graph α) (u v w x : α) :
    x ∈ predSet (Directed.add_edge g u v) w ↔
      x ∈ predSet g w ∨ (w = v ∧ x = u) := by
  rw [predSet_dadd_edge]
  by_cases hw : w = v
  · subst hw
    rw [if_pos rfl, mem_sinsert]
    tauto
  · rw [if_neg hw]
    tauto

/-- The directed data-model invariant maintained by the public mutators. -/
structure DirWf (g : Graph α) : Prop where
  nodes_nodup : g.nodes.Nodup
  pred_keys_nodup : (mkeys g.pred).Nodup
  adj_vals_nodup : ∀ u, (adjSet g u).Nodup
  pred_vals_nodup : ∀ u, (predSet g u).Nodup
  keys_eq : ∀ u, u ∈ g.nodes ↔ u ∈ mkeys g.pred
  lockstep : ∀ u v, v ∈ adjSet g u ↔ u ∈ predSet g v
  closed : ∀ u v, v ∈ adjSet g u → v ∈ g.nodes

theorem DBuilt.dwf {g : Graph α} (h : DBuilt g) : DirWf g := by
  induction h with
  | new =>
      refine ⟨?_, ?_, ?_, ?_, ?_, ?_, ?_⟩ <;>
        simp [Graph.new, Graph.nodes, adjSet, predSet, mget]
  | add_node g u hb ih =>
      obtain ⟨h1, h2, h3, h4, h5, h6, h7⟩ := ih
      refine ⟨nodes_dadd_node_nodup g u h1, predkeys_dadd_node_nodup g u h2,
        ?_, ?_, ?_, ?_, ?_⟩
      · intro w; rw [adjSet_dadd_node]; exact h3 w
      · intro w; rw [predSet_dadd_node]; exact h4 w
      · intro w
        rw [mem_nodes_dadd_node, mem_predkeys_dadd_node]
        exact or_congr (h5 w) Iff.rfl
      · intro a b
        rw [adjSet_dadd_node, predSet_dadd_node]
        exact h6 a b
      · intro a b hab
        rw [adjSet_dadd_node] at hab
        rw [mem_nodes_dadd_node]
        exact Or.inl (h7 a b hab)
  | add_edge g u v hb ih =>
      obtain ⟨h1, h2, h3, h4, h5, h6, h7⟩ := ih
      refine ⟨nodes_dadd_edge_nodup g u v h1, predkeys_dadd_edge_nodup g u v h2,
        ?_, ?_, ?_, ?_, ?_⟩
      · intro w
        rw [adjSet_dadd_edge]
        by_cases hw : w = u
        · rw [if_pos hw]; exact sinsert_nodup _ v (h3 u)
        · rw [if_neg hw]; exact h3 w
      · intro w
        rw [predSet_dadd_edge]
        by_cases hw : w = v
        · rw [if_pos hw]; exact sinsert_nodup _ u (h4 v)
        · rw [if_neg hw]; exact h4 w
      · intro w
        rw [mem_nodes_dadd_edge, mem_predkeys_dadd_edge]
        rw [h5 w]
        tauto
      · intro a b
        rw [mem_adjSet_dadd_edge, mem_predSet_dadd_edge]
        rw [h6 a b]
        tauto
      · intro a b hab
        rw [mem_adjSet_dadd_edge] at hab
        rw [mem_nodes_dadd_edge]
        rcases hab with hab | ⟨hau, hbv⟩
        · exact Or.inl (h7 a b hab)
        · exact Or.inr (Or.inr hbv)

theorem mem_nodes_uadd_node (g : Graph α) (u x : α) :
    x ∈ (Undirected.add_node g u).nodes ↔ x ∈ g.nodes ∨ x = u := by
  show x ∈ mkeys (mentry g.adj u []) ↔ _
  rw [mkeys_mentry]
  exact mem_ifSnoc _ u x

theorem nodes_uadd_node_nodup (g : Graph α) (u : α) (h : g.nodes.Nodup) :
    (Undirected.add_node g u).nodes.Nodup := by
  show (mkeys (mentry g.adj u [])).Nodup
  rw [mkeys_mentry]
  exact nodup_ifSnoc _ u h

theorem mem_nodes_uadd_edge (g : Graph α) (u v x : α) :
    x ∈ (Undirected.add_edge g u v).nodes ↔ x ∈ g.nodes ∨ x = u ∨ x = v := by
  show x ∈ mkeys (adjInsert (adjInsert g.adj u v) v u) ↔ _
  rw [mkeys_adjInsert, mkeys_adjInsert]
  constructor
  · intro h
    rcases (mem_ifSnoc _ v x).mp h with h1 | h1
    · rcases (mem_ifSnoc _ u x).mp h1 with h2 | h2
      · exact Or.inl h2
      · exact Or.inr (Or.inl h2)
    · exact Or.inr (Or.inr h1)
  · intro h
    refine (mem_ifSnoc _ v x).mpr ?_
    rcases h with h1 | h1 | h1
    · exact Or.inl ((mem_ifSnoc _ u x).mpr (Or.inl h1))
    · exact Or.inl ((mem_ifSnoc _ u x).mpr (Or.inr h1))
    · exact Or.inr h1

theorem nodes_uadd_edge_nodup (g : Graph α) (u v : α) (h : g.nodes.Nodup) :
    (Undirected.add_edge g u v).nodes.Nodup := by
  show (mkeys (adjInsert (adjInsert g.adj u v) v u)).Nodup
  rw [mkeys_adjInsert]
  refine nodup_ifSnoc _ v ?_
  rw [mkeys_adjInsert]
  exact nodup_ifSnoc _ u h

theorem mem_adjSet_uadd_edge (g : Graph α) (u v w x : α) :
    x ∈ adjSet (Undirected.add_edge g u v) w ↔
      x ∈ adjSet g w ∨ (w = u ∧ x = v) ∨ (w = v ∧ x = u) := by
  rw [adjSet_uadd_edge]
  by_cases hwv : w = v
  · subst hwv
    rw [if_pos rfl, mem_sinsert]
    by_cases hvu : w = u
    · rw [if_pos hvu, mem_sinsert]
      subst hvu
      tauto
    · rw [if_neg hvu]
      tauto
  · rw [if_neg hwv]
    by_cases hwu : w = u
    · subst hwu
      rw [if_pos rfl, mem_sinsert]
      tauto
    · rw [if_neg hwu]
      tauto

/-- The undirected data-model invariant maintained by the public mutators. -/
structure UndirWf (g : Graph α) : Prop where
  nodes_nodup : g.nodes.Nodup
  adj_vals_nodup : ∀ u, (adjSet g u).Nodup
  sym : ∀ u v, v ∈ adjSet g u ↔ u ∈ adjSet g v

theorem UndirWf.closed {g : Graph α} (h : UndirWf g) (u v : α)
    (hv : v ∈ adjSet g u) : v ∈ g.nodes := by
  have : u ∈ adjSet g v := (h.sym u v).mp hv
  exact mem_nodes_of_adjSet_ne_nil g v (fun he => by simp [he] at this)

theorem UBuilt.uwf {g : Graph α} (h : UBuilt g) : UndirWf g := by
  induction h with
  | new =>
      refine ⟨?_, ?_, ?_⟩ <;>
        simp [Graph.new, Graph.nodes, adjSet, mget]
  | add_node g u hb ih =>
      obtain ⟨h1, h2, h3⟩ := ih
      refine ⟨nodes_uadd_node_nodup g u h1, ?_, ?_⟩
      · intro w; rw [adjSet_uadd_node]; exact h2 w
      · intro a b
        rw [adjSet_uadd_node, adjSet_uadd_node]
        exact h3 a b
  | add_edge g u v hb ih =>
      obtain ⟨h1, h2, h3⟩ := ih
      refine ⟨nodes_uadd_edge_nodup g u v h1, ?_, ?_⟩
      · intro w
        rw [adjSet_uadd_edge]
        by_cases hwv : w = v
        · rw [if_pos hwv]
          refine sinsert_nodup _ u ?_
          by_cases hvu : v = u
          · rw [if_pos hvu]; exact sinsert_nodup _ v (h2 u)
          · rw [if_neg hvu]; exact h2 v
        · rw [if_neg hwv]
          by_cases hwu : w = u
          · rw [if_pos hwu]; exact sinsert_nodup _ v (h2 u)
          · rw [if_neg hwu]; exact h2 w
      · intro a b
        rw [mem_adjSet_uadd_edge, mem_adjSet_uadd_edge]
        rw [h3 a b]
        tauto

/-- The part of well-formedness used by the search and sort algorithms,
common to directed and undirected graphs. -/
structure AdjWf (g : Graph α) : Prop where
  nodes_nodup : g.nodes.Nodup
  adj_vals_nodup : ∀ u, (adjSet g u).Nodup
  closed : ∀ u v, v ∈ adjSet g u → v ∈ g.nodes

theorem DirWf.adjWf {g : Graph α} (h : DirWf g) : AdjWf g :=
  ⟨h.nodes_nodup, h.adj_vals_nodup, h.closed⟩

theorem UndirWf.uadjWf {g : Graph α} (h : UndirWf g) : AdjWf g :=
  ⟨h.nodes_nodup, h.adj_vals_nodup, h.closed⟩

theorem builtAdjWf {g : Graph α} (h : DBuilt g ∨ UBuilt g) : AdjWf g :=
  h.elim (fun hd => hd.dwf.adjWf) (fun hu => hu.uwf.uadjWf)

end Wf

section ClaimStoreInvariants

variable [DecidableEq α]

/-- C5: every graph state reachable from `new()` by any sequence of
`add_node`, `add_edge` and `add_edges_from` calls satisfies the data-model
invariant: every node present in the graph has an adjacency entry; in a
directed graph every such node also has a predecessor entry and `u` is in
`predecessors[v]` exactly when `v` is in `adjacency[u]`; in an undirected
graph `v` is in `adjacency[u]` exactly when `u` is in `adjacency[v]`. -/
theorem c5_data_model_invariant (g : Graph α) :
    (DBuilt g →
      (∀ n, n ∈ g.nodes → (g.adjLookup n).isSome ∧ (mget g.pred n).isSome) ∧
      (∀ u v, u ∈ predSet g v ↔ v ∈ adjSet g u)) ∧
    (UBuilt g →
      (∀ n, n ∈ g.nodes → (g.adjLookup n).isSome) ∧
      (∀ u v, v ∈ adjSet g u ↔ u ∈ adjSet g v)) := by
  constructor
  · intro hb
    have w := hb.dwf
    refine ⟨fun n hn => ⟨?_, ?_⟩, fun u v => (w.lockstep u v).symm⟩
    · exact (mem_nodes_iff g n).mp hn
    · exact (mget_isSome_iff_mem_mkeys g.pred n).mpr ((w.keys_eq n).mp hn)
  · intro hb
    have w := hb.uwf
    exact ⟨fun n hn => (mem_nodes_iff g n).mp hn, w.sym⟩

/-- Concrete directed graph `0 -> 1` used by witnesses below. -/
def gexD : Graph Nat := Directed.add_edge Graph.new 0 1

theorem gexD_built : DBuilt gexD := DBuilt.add_edge _ 0 1 DBuilt.new

/-- Concrete undirected graph `0 -- 1` used by witnesses below. -/
def gexU : Graph Nat := Undirected.add_edge Graph.new 0 1

theorem gexU_built : UBuilt gexU := UBuilt.add_edge _ 0 1 UBuilt.new

/-- Witness for C5 at the concrete graphs `gexD` and `gexU`. -/
theorem c5_data_model_invariant_witness :
    ((0 : Nat) ∈ predSet gexD 1) ∧ ((0 : Nat) ∈ adjSet gexU 1) :=
  ⟨((c5_data_model_invariant gexD).1 gexD_built).2 0 1 |>.mpr (by decide),
   ((c5_data_model_invariant gexU).2 gexU_built).2 1 0 |>.mpr (by decide)⟩

/-- Counterexample to C6 as stated: inserting an edge that is already present
leaves `in_degree` unchanged, so it is not always one greater than before. -/
theorem c6_counterexample :
    ¬ ((Directed.add_edge gexD 0 1).in_degree 1 = gexD.in_degree 1 + 1) := by
  decide

/-- C6 (amended): after `add_edge(u, v)` on a directed API-built graph,
`v ∈ adjacent(u)`; `in_degree(v)` grows by exactly one when the edge `u -> v`
was not already present and is unchanged when it was; and for
`u ≠ v`, `in_degree(u)` is unchanged by the call. -/
theorem c6_add_edge_in_degree (g : Graph α) (u v : α) (hb : DBuilt g) :
    v ∈ adjSet (Directed.add_edge g u v) u ∧
    (v ∉ adjSet g u →
      (Directed.add_edge g u v).in_degree v = g.in_degree v + 1) ∧
    (v ∈ adjSet g u →
      (Directed.add_edge g u v).in_degree v = g.in_degree v) ∧
    (u ≠ v → (Directed.add_edge g u v).in_degree u = g.in_degree u) := by
  have w := hb.dwf
  refine ⟨?_, ?_, ?_, ?_⟩
  · rw [mem_adjSet_dadd_edge]
    exact Or.inr ⟨rfl, rfl⟩
  · intro hne
    have hu : u ∉ predSet g v := fun hp => hne ((w.lockstep u v).mpr hp)
    rw [in_degree_eq_length_predSet, in_degree_eq_length_predSet,
      predSet_dadd_edge, if_pos rfl]
    exact length_sinsert_of_not_mem _ u hu
  · intro hmem
    have hu : u ∈ predSet g v := (w.lockstep u v).mp hmem
    rw [in_degree_eq_length_predSet, in_degree_eq_length_predSet,
      predSet_dadd_edge, if_pos rfl]
    exact length_sinsert_of_mem _ u hu
  · intro hne
    rw [in_degree_eq_length_predSet, in_degree_eq_length_predSet,
      predSet_dadd_edge, if_neg hne]

/-- Witness for C6 (amended) at a concrete fresh edge. -/
theorem c6_add_edge_in_degree_witness :
    (Directed.add_edge Graph.new 0 1).in_degree 1 = Graph.new.in_degree 1 + 1 :=
  (c6_add_edge_in_degree (Graph.new : Graph Nat) 0 1 DBuilt.new).2.1 (by decide)

/-- Counterexample to C8 as stated: `in_degree` of a node never added returns
the ordinary value 0 - the same value as for a present node with no incoming
edges - rather than an explicit absent result. -/
theorem c8_counterexample :
    (Directed.add_node gexD 7).in_degree 5 = 0 ∧
    (5 : Nat) ∉ (Directed.add_node gexD 7).nodes ∧
    (Directed.add_node gexD 7).in_degree 7 = 0 ∧
    (7 : Nat) ∈ (Directed.add_node gexD 7).nodes := by
  refine ⟨by decide, by decide, by decide, by decide⟩

/-- C8 (amended): `adj` of a node never added is the explicit absent value
`None`; `in_degree` of such a node, in contrast, is the ordinary value 0,
indistinguishable from a present node with no predecessors; neither aborts. -/
theorem c8_absent_queries (g : Graph α) (u : α) (hu : u ∉ g.nodes) :
    g.adjLookup u = none ∧ (DBuilt g → g.in_degree u = 0) := by
  constructor
  · exact (mget_eq_none_iff_not_mem g.adj u).mpr hu
  · intro hb
    have w := hb.dwf
    have : u ∉ mkeys g.pred := fun hp => hu ((w.keys_eq u).mpr hp)
    unfold Graph.in_degree
    rw [(mget_eq_none_iff_not_mem g.pred u).mpr this]

/-- Witness for C8 (amended) at a concrete absent node. -/
theorem c8_absent_queries_witness :
    gexD.adjLookup 5 = none ∧ gexD.in_degree 5 = 0 := by
  have h := c8_absent_queries gexD 5 (by decide)
  exact ⟨h.1, h.2 gexD_built⟩

end ClaimStoreInvariants

/-- The error value of `sort.rs`. -/
structure CycleError where
deriving DecidableEq

section KahnDefs

variable [DecidableEq α]

/-- One child step of Kahn's inner loop (`sort.rs` lines 44-48 and the
identical `graph.rs` lines 178-182): `and_modify(|n| *n -= 1)` (with `none`
modelling the underflow of `*n -= 1` at zero), then `get(child).unwrap()`
(with `none` modelling the panicking unwrap), then on zero push the child to
the next frontier and remove it from the in-degree bookkeeping. -/
def processChild (mz : List (α × Nat) × List α) (c : α) :
    Option (List (α × Nat) × List α) :=
  let m1 : Option (List (α × Nat)) :=
    match mget mz.1 c with
    | none => some mz.1
    | some 0 => none
    | some (n + 1) => some (mput mz.1 c n)
  match m1 with
  | none => none
  | some m2 =>
      match mget m2 c with
      | none => none
      | some n =>
          if n = 0 then some (mdel m2 c, mz.2 ++ [c]) else some (m2, mz.2)

/-- One frontier-node step of Kahn's loop: look up the node's adjacency
(`adj(node).expect(..)`, `none` modelling the panic) and process each child. -/
def processNode (g : Graph α) (mz : List (α × Nat) × List α) (node : α) :
    Option (List (α × Nat) × List α) :=
  match mget g.adj node with
  | none => none
  | some children => List.foldlM processChild mz children

/-- One generation step: the frontier is snapshotted, the next frontier
starts empty, and every frontier node is processed in order. -/
def processGeneration (g : Graph α) (gen : List α) (m : List (α × Nat)) :
    Option (List (α × Nat) × List α) :=
  List.foldlM (processNode g) (m, ([] : List α)) gen

/-- The fueled while-loop of `topological_generations`: while the frontier is
nonempty, process a generation and append it to the output. -/
def kahnLoop (g : Graph α) :
    Nat → List (α × Nat) → List α → List (List α) →
    Option (List (List α) × List (α × Nat))
  | 0, _, _, _ => none
  | fuel + 1, m, z, gens =>
      if z = [] then some (gens, m)
      else
        match processGeneration g z m with
        | none => none
        | some (m2, z2) => kahnLoop g fuel m2 z2 (gens ++ [z])

/-- One step of the initial partition loop of `topological_generations`:
a zero in-degree is pushed onto the frontier, a positive one is inserted
into the bookkeeping map. -/
def initStep (mz : List (α × Nat) × List α) (kv : α × Nat) :
    List (α × Nat) × List α :=
  if kv.2 = 0 then (mz.1, mz.2 ++ [kv.1]) else (mput mz.1 kv.1 kv.2, mz.2)

/-- The initial partition of the in-degree map into the zero-in-degree
frontier and the positive-in-degree bookkeeping map (`sort.rs` lines 29-36). -/
def initPartition (idm : List (α × Nat)) : List (α × Nat) × List α :=
  idm.foldl initStep ([], [])

end KahnDefs

namespace SortRs

variable {α : Type} [DecidableEq α]

/-- Model of `sort.rs::topological_generations`, including the final cycle
check.  The outer `Option` is the panic channel; the fuel `m.length + 2` is
shown sufficient in `kahnLoop_fuel_spec` below. -/
def topological_generations (g : Graph α) :
    Option (Except CycleError (List (List α))) :=
  match kahnLoop g ((initPartition g.in_degree_map).1.length + 2)
      (initPartition g.in_degree_map).1 (initPartition g.in_degree_map).2 [] with
  | none => none
  | some (gens, m) =>
      if m = [] then some (Except.ok gens) else some (Except.error ⟨⟩)

/-- Model of `sort.rs::topological_sort`: flatten the generations. -/
def topological_sort (g : Graph α) : Option (Except CycleError (List α)) :=
  match topological_generations g with
  | none => none
  | some (Except.ok gens) => some (Except.ok gens.flatten)
  | some (Except.error e) => some (Except.error e)

end SortRs

namespace GraphRs

variable {α : Type} [DecidableEq α]

/-- Model of the earlier revision `graph.rs::topological_generations`
(lines 155-188): the same loop as `sort.rs` but with no cycle check at all -
the leftover bookkeeping map is silently discarded. -/
def topological_generations (g : Graph α) : Option (List (List α)) :=
  match kahnLoop g ((initPartition g.in_degree_map).1.length + 2)
      (initPartition g.in_degree_map).1 (initPartition g.in_degree_map).2 [] with
  | none => none
  | some (gens, _) => some gens

/-- Model of `graph.rs::topological_sort` (lines 190-195). -/
def topological_sort (g : Graph α) : Option (List α) :=
  (topological_generations g).map List.flatten

end GraphRs

section KahnClaims

variable [DecidableEq α]

/-- The edge relation of a stored graph: `u -> v` when `v ∈ adjacency[u]`. -/
def EdgeRel (g : Graph α) (u v : α) : Prop := v ∈ adjSet g u

/-- A directed graph is acyclic when no node reaches itself by a nonempty
directed path. -/
def Acyclic (g : Graph α) : Prop :=
  ∀ x, ¬ Relation.TransGen (EdgeRel g) x x

/-- Concrete two-node directed cycle `1 -> 2 -> 1`. -/
def gcyc : Graph Nat := Directed.add_edges_from Graph.new [(1, 2), (2, 1)]

/-- C4: on the cyclic two-node graph, the `graph.rs` revision of
`topological_sort` silently returns the empty ordering, dropping both nodes
and signalling nothing, while the `sort.rs` revision returns the distinct
`CycleError` value as the claim requires. -/
theorem c4_cycle_error_divergence :
    GraphRs.topological_sort gcyc = some [] ∧
    gcyc.nodes = [1, 2] ∧
    SortRs.topological_sort gcyc = some (Except.error ⟨⟩) := by
  refine ⟨by decide, by decide, rfl⟩

end KahnClaims

section KahnProof

variable [DecidableEq α]

/-- Remaining in-degree of `v` during Kahn's algorithm: predecessors whose
outgoing edge to `v` has not yet been consumed.  `res` lists the fully
processed nodes; `node` is the frontier node currently being processed and
`cs` the prefix of its children already visited. -/
def remCnt (g : Graph α) (res : List α) (node : α) (cs : List α) (v : α) : Nat :=
  (predSet g v).countP (fun u => decide (¬ (u ∈ res ∨ (u = node ∧ v ∈ cs))))

/-- Remaining in-degree ignoring any partially processed node. -/
def remCnt0 (g : Graph α) (res : List α) (v : α) : Nat :=
  (predSet g v).countP (fun u => decide (u ∉ res))

theorem remCnt_nil_cs (g : Graph α) (res : List α) (node node2 : α) (v : α) :
    remCnt g res node [] v = remCnt g res node2 [] v := by
  simp [remCnt]

theorem remCnt0_eq (g : Graph α) (res : List α) (node : α) (v : α) :
    remCnt0 g res v = remCnt g res node [] v := by
  simp [remCnt, remCnt0]

theorem remCnt0_nil (g : Graph α) (v : α) :
    remCnt0 g [] v = (predSet g v).length := by
  unfold remCnt0
  rw [List.countP_eq_length]
  intro a _
  simp

theorem countP_congr_mem (l : List α) (p q : α → Bool)
    (h : ∀ x ∈ l, p x = q x) : l.countP p = l.countP q := by
  induction l with
  | nil => simp
  | cons a rest ih =>
      have ha := h a (List.mem_cons_self a rest)
      have ih2 := ih (fun x hx => h x (List.mem_cons_of_mem a hx))
      rw [List.countP_cons, List.countP_cons, ha, ih2]

theorem countP_drop_one (l : List α) (p q : α → Bool) (a : α)
    (hnd : l.Nodup) (ha : a ∈ l) (hpa : p a = true) (hqa : q a = false)
    (hcong : ∀ x ∈ l, x ≠ a → p x = q x) :
    l.countP q + 1 = l.countP p := by
  induction l with
  | nil => simp at ha
  | cons b rest ih =>
      rw [List.nodup_cons] at hnd
      obtain ⟨hb, hrest⟩ := hnd
      rw [List.countP_cons, List.countP_cons]
      rcases List.mem_cons.mp ha with hba | harest
      · subst hba
        have heq : rest.countP p = rest.countP q :=
          countP_congr_mem rest p q
            (fun x hx => hcong x (List.mem_cons_of_mem _ hx)
              (fun hxb => hb (hxb ▸ hx)))
        rw [hpa, hqa, heq]
        simp
      · have hbne : b ≠ a := fun h => hb (h ▸ harest)
        have hpq : p b = q b := hcong b (List.mem_cons_self b rest) hbne
        have ih2 := ih hrest harest
          (fun x hx hxa => hcong x (List.mem_cons_of_mem b hx) hxa)
        rw [hpq]
        cases hqb : q b <;> simp <;> omega

theorem remCnt_snoc_ne (g : Graph α) (res : List α) (node : α) (cs : List α)
    (c v : α) (hvc : v ≠ c) :
    remCnt g res node (cs ++ [c]) v = remCnt g res node cs v := by
  unfold remCnt
  refine countP_congr_mem _ _ _ (fun u _ => ?_)
  have : (v ∈ cs ++ [c]) ↔ v ∈ cs := by
    simp [List.mem_append, hvc]
  simp [this]

theorem remCnt_snoc_self (g : Graph α) (hw : DirWf g) (res : List α)
    (node : α) (cs : List α) (c : α) (hc : c ∈ adjSet g node)
    (hnres : node ∉ res) (hccs : c ∉ cs) :
    remCnt g res node (cs ++ [c]) c + 1 = remCnt g res node cs c := by
  unfold remCnt
  have hnpred : node ∈ predSet g c := (hw.lockstep node c).mp hc
  refine countP_drop_one _ _ _ node (hw.pred_vals_nodup c) hnpred ?_ ?_ ?_
  · simp [hnres, hccs]
  · simp [hnres]
  · intro x _ hxn
    simp [hxn]

theorem remCnt_complete (g : Graph α) (hw : DirWf g) (res : List α)
    (node node2 : α) (v : α) :
    remCnt g res node (adjSet g node) v = remCnt g (res ++ [node]) node2 [] v := by
  unfold remCnt
  refine countP_congr_mem _ _ _ (fun u hu => ?_)
  by_cases hun : u = node
  · subst hun
    have : v ∈ adjSet g u := (hw.lockstep u v).mpr hu
    simp [this]
  · simp [hun, List.mem_append]

theorem index_lt_of_mem_left (l1 l2 : List α) (u : α) (hu : u ∈ l1) :
    (l1 ++ l2).indexOf u < l1.length := by
  induction l1 with
  | nil => simp at hu
  | cons a rest ih =>
      by_cases hau : a = u
      · subst hau
        simp [List.indexOf_cons_self]
      · rcases List.mem_cons.mp hu with h | h
        · exact absurd h.symm hau
        · rw [List.cons_append, List.indexOf_cons_ne _ hau]
          simpa using ih h

theorem index_ge_of_not_mem_left (l1 l2 : List α) (v : α) (hv : v ∉ l1) :
    l1.length ≤ (l1 ++ l2).indexOf v := by
  induction l1 with
  | nil => simp
  | cons a rest ih =>
      have hav : a ≠ v := fun h => hv (h ▸ List.mem_cons_self a rest)
      have hvrest : v ∉ rest := fun h => hv (List.mem_cons_of_mem a h)
      rw [List.cons_append, List.indexOf_cons_ne _ hav]
      simpa using ih hvrest

theorem index_order (L l1 l2 : List α) (u v : α) (hL : L = l1 ++ l2)
    (hnd : L.Nodup) (hu : u ∈ l1) (hv : v ∈ l2) :
    L.indexOf u < L.indexOf v := by
  subst hL
  have hvl1 : v ∉ l1 := by
    rw [List.nodup_append] at hnd
    exact fun h => hnd.2.2 h hv
  exact lt_of_lt_of_le (index_lt_of_mem_left l1 l2 u hu)
    (index_ge_of_not_mem_left l1 l2 v hvl1)

theorem append_singleton_split (pre suf : List (List α)) (gen : List α)
    (gens : List (List α)) (z : List α)
    (h : pre ++ gen :: suf = gens ++ [z]) :
    (pre = gens ∧ gen = z ∧ suf = []) ∨
    (∃ suf2, suf = suf2 ++ [z] ∧ gens = pre ++ gen :: suf2) := by
  rcases List.eq_nil_or_concat suf with hs | ⟨suf2, lastel, hs⟩
  · subst hs
    left
    have h2 : pre ++ [gen] = gens ++ [z] := by simpa using h
    have h3 := List.append_inj' h2 rfl
    obtain ⟨hpre, hgen⟩ := h3
    exact ⟨hpre, by simpa using hgen, rfl⟩
  · subst hs
    right
    rw [List.concat_eq_append] at h
    have h2 : (pre ++ gen :: suf2) ++ [lastel] = gens ++ [z] := by
      simpa [List.append_assoc] using h
    have h3 := List.append_inj' h2 rfl
    obtain ⟨hpre, hlast⟩ := h3
    have hlz : lastel = z := by simpa using hlast
    exact ⟨suf2, by rw [List.concat_eq_append, hlz], hpre.symm⟩

/-- Pigeonhole cycle extraction: a nonempty finite set in which every element
has a predecessor inside the set contains a directed cycle. -/
theorem cycle_of_closed_preds (R : α → α → Prop) (S : List α) (hne : S ≠ [])
    (h : ∀ v ∈ S, ∃ u, u ∈ S ∧ R u v) : ∃ c, Relation.TransGen R c c := by
  classical
  have x0 : {x : α // x ∈ S} := ⟨S.head hne, List.head_mem hne⟩
  let F : {x : α // x ∈ S} → {x : α // x ∈ S} := fun x =>
    ⟨(h x.1 x.2).choose, (h x.1 x.2).choose_spec.1⟩
  have hF : ∀ x : {x : α // x ∈ S}, R (F x).1 x.1 := fun x =>
    (h x.1 x.2).choose_spec.2
  let seq : Nat → {x : α // x ∈ S} := fun n => F^[n] x0
  have hseq_succ : ∀ n, seq (n + 1) = F (seq n) := fun n =>
    Function.iterate_succ_apply' F n x0
  have hchain : ∀ k i, Relation.TransGen R (seq (i + k + 1)).1 (seq i).1 := by
    intro k
    induction k with
    | zero =>
        intro i
        rw [Nat.add_zero, hseq_succ i]
        exact Relation.TransGen.single (hF (seq i))
    | succ k ih =>
        intro i
        have h1 : Relation.TransGen R (seq (i + k + 2)).1 (seq (i + k + 1)).1 := by
          rw [hseq_succ (i + k + 1)]
          exact Relation.TransGen.single (hF (seq (i + k + 1)))
        exact Relation.TransGen.trans h1 (ih i)
  have hmaps : ∀ n : Fin (S.toFinset.card + 1), (seq n.1).1 ∈ S.toFinset := by
    intro n
    exact List.mem_toFinset.mpr (seq n.1).2
  have hcard : S.toFinset.card < (Finset.univ : Finset (Fin (S.toFinset.card + 1))).card := by
    simp
  obtain ⟨i, _, j, _, hij, heq⟩ :=
    Finset.exists_ne_map_eq_of_card_lt_of_maps_to hcard
      (fun n _ => hmaps n)
  rcases Nat.lt_or_ge i.1 j.1 with hlt | hge
  · obtain ⟨k, hk⟩ : ∃ k, j.1 = i.1 + k + 1 := ⟨j.1 - i.1 - 1, by omega⟩
    refine ⟨(seq i.1).1, ?_⟩
    have := hchain k i.1
    rw [← hk] at this
    rw [← heq] at this
    exact this
  · have hlt : j.1 < i.1 := by
      rcases Nat.lt_or_ge j.1 i.1 with h2 | h2
      · exact h2
      · exact absurd (Fin.ext (Nat.le_antisymm h2 hge)) hij
    obtain ⟨k, hk⟩ : ∃ k, i.1 = j.1 + k + 1 := ⟨i.1 - j.1 - 1, by omega⟩
    refine ⟨(seq j.1).1, ?_⟩
    have := hchain k j.1
    rw [← hk] at this
    rw [heq] at this
    exact this

/-- Invariant of Kahn's loop, threaded through child, node and generation
processing.  `P` lists fully processed generations (flattened), `z` the
generation currently being processed, `done` the prefix of `z` whose nodes
are fully processed, `node` the node being processed with `cs` the prefix of
its children already visited, `mc` the in-degree bookkeeping map, and `zc`
the next frontier accumulated so far.  `t` fixes `mc.length + zc.length`. -/
structure KInv (g : Graph α) (t : Nat) (P z done : List α) (node : α)
    (cs : List α) (mc : List (α × Nat)) (zc : List α) : Prop where
  nodupP : P.Nodup
  nodupZ : z.Nodup
  nodupZc : zc.Nodup
  disjPZ : ∀ x, x ∈ P → x ∉ z
  disjPZc : ∀ x, x ∈ P → x ∉ zc
  disjZZc : ∀ x, x ∈ z → x ∉ zc
  subP : ∀ x, x ∈ P → x ∈ g.nodes
  subZ : ∀ x, x ∈ z → x ∈ g.nodes
  subZc : ∀ x, x ∈ zc → x ∈ g.nodes
  keys : ∀ x, (mget mc x).isSome ↔ (x ∈ g.nodes ∧ x ∉ P ∧ x ∉ z ∧ x ∉ zc)
  keys_nodup : (mkeys mc).Nodup
  counts : ∀ v n, mget mc v = some n → n = remCnt g (P ++ done) node cs v
  pos : ∀ v n, mget mc v = some n → 1 ≤ n
  ready : ∀ v, v ∈ zc → ∀ u, u ∈ predSet g v →
    u ∈ P ∨ u ∈ done ∨ (u = node ∧ v ∈ cs)
  zready : ∀ v, v ∈ z → ∀ u, u ∈ predSet g v → u ∈ P
  pclosed : ∀ v, v ∈ P → ∀ u, u ∈ predSet g v → u ∈ P
  len : mc.length + zc.length = t

theorem processChild_eq_dec (mc : List (α × Nat)) (zc : List α) (c : α) (k : Nat)
    (hn : mget mc c = some (k + 1)) :
    processChild (mc, zc) c =
      if k = 0 then some (mdel (mput mc c k) c, zc ++ [c])
      else some (mput mc c k, zc) := by
  unfold processChild
  simp only [hn, mget_mput]
  simp

theorem child_step {g : Graph α} (hw : DirWf g) {t : Nat} {P z done : List α}
    {node : α} {cs : List α} {mc : List (α × Nat)} {zc : List α} {c : α}
    (inv : KInv g t P z done node cs mc zc)
    (hnz : node ∈ z) (hndone : node ∉ done)
    (hc : c ∈ adjSet g node) (hccs : c ∉ cs) :
    ∃ mc2 zc2, processChild (mc, zc) c = some (mc2, zc2) ∧
      KInv g t P z done node (cs ++ [c]) mc2 zc2 := by
  have hnP : node ∉ P := fun h => inv.disjPZ node h hnz
  have hcN : c ∈ g.nodes := hw.closed node c hc
  have hnpred : node ∈ predSet g c := (hw.lockstep node c).mp hc
  have hcP : c ∉ P := fun h => hnP (inv.pclosed c h node hnpred)
  have hcz : c ∉ z := fun h => hnP (inv.zready c h node hnpred)
  have hczc : c ∉ zc := by
    intro h
    rcases inv.ready c h node hnpred with h1 | h1 | h1
    · exact hnP h1
    · exact hndone h1
    · exact hccs h1.2
  have hkey : (mget mc c).isSome := (inv.keys c).mpr ⟨hcN, hcP, hcz, hczc⟩
  obtain ⟨n, hn⟩ := Option.isSome_iff_exists.mp hkey
  have hpos := inv.pos c n hn
  have hcnt := inv.counts c n hn
  have hnres : node ∉ P ++ done := by
    simp [List.mem_append, hnP, hndone]
  obtain ⟨k, rfl⟩ : ∃ k, n = k + 1 := ⟨n - 1, by omega⟩
  have hnewcnt : remCnt g (P ++ done) node (cs ++ [c]) c = k := by
    have := remCnt_snoc_self g hw (P ++ done) node cs c hc hnres hccs
    omega
  have hproc := processChild_eq_dec mc zc c k hn
  have hputkeys : mkeys (mput mc c k) = mkeys mc := by
    rw [mkeys_mput, if_pos ((mget_isSome_iff_mem_mkeys mc c).mp hkey)]
  have hputlen : (mput mc c k).length = mc.length :=
    length_mput_of_mem mc c k hkey
  by_cases hk : k = 0
  · subst hk
    rw [if_pos rfl] at hproc
    refine ⟨mdel (mput mc c 0) c, zc ++ [c], hproc, ?_⟩
    have hm2 : ∀ x, mget (mdel (mput mc c 0) c) x =
        if x = c then none else mget mc x := by
      intro x
      rw [mget_mdel _ c x (hputkeys ▸ inv.keys_nodup), mget_mput]
      by_cases hx : x = c <;> simp [hx]
    have hzero : remCnt g (P ++ done) node (cs ++ [c]) c = 0 := hnewcnt
    have hreadyc : ∀ u, u ∈ predSet g c →
        u ∈ P ∨ u ∈ done ∨ (u = node ∧ c ∈ cs ++ [c]) := by
      intro u hu
      have h0 : (predSet g c).countP
          (fun u => decide (¬ (u ∈ P ++ done ∨ (u = node ∧ c ∈ cs ++ [c])))) = 0 :=
        hzero
      rw [List.countP_eq_zero] at h0
      have := h0 u hu
      simp only [decide_eq_true_eq, not_not] at this
      rcases this with h1 | h1
      · rcases List.mem_append.mp h1 with h2 | h2
        · exact Or.inl h2
        · exact Or.inr (Or.inl h2)
      · exact Or.inr (Or.inr h1)
    refine ⟨inv.nodupP, inv.nodupZ, ?_, inv.disjPZ, ?_, ?_, inv.subP, inv.subZ,
      ?_, ?_, ?_, ?_, ?_, ?_, inv.zready, inv.pclosed, ?_⟩
    · simp [List.nodup_append, inv.nodupZc, hczc]
    · intro x hx
      simp only [List.mem_append, List.mem_singleton]
      push_neg
      exact ⟨inv.disjPZc x hx, fun he => hcP (he ▸ hx)⟩
    · intro x hx
      simp only [List.mem_append, List.mem_singleton]
      push_neg
      exact ⟨inv.disjZZc x hx, fun he => hcz (he ▸ hx)⟩
    · intro x hx
      rcases List.mem_append.mp hx with h1 | h1
      · exact inv.subZc x h1
      · rw [List.mem_singleton.mp h1]; exact hcN
    · intro x
      rw [hm2 x]
      by_cases hx : x = c
      · subst hx
        simp [List.mem_append]
      · rw [if_neg hx]
        rw [inv.keys x]
        constructor
        · rintro ⟨a, b1, b2, b3⟩
          exact ⟨a, b1, b2, by simp [List.mem_append, b3, hx]⟩
        · rintro ⟨a, b1, b2, b3⟩
          refine ⟨a, b1, b2, fun hzc2 => b3 ?_⟩
          simp [List.mem_append, hzc2]
    · have h1 : mkeys (mdel (mput mc c 0) c) = mkeys (mdel (mput mc c 0) c) := rfl
      exact mkeys_mdel_nodup _ c (hputkeys ▸ inv.keys_nodup)
    · intro v n hv
      rw [hm2 v] at hv
      by_cases hx : v = c
      · simp [hx] at hv
      · rw [if_neg hx] at hv
        rw [remCnt_snoc_ne g _ node cs c v hx]
        exact inv.counts v n hv
    · intro v n hv
      rw [hm2 v] at hv
      by_cases hx : v = c
      · simp [hx] at hv
      · rw [if_neg hx] at hv
        exact inv.pos v n hv
    · intro v hv u hu
      rcases List.mem_append.mp hv with h1 | h1
      · rcases inv.ready v h1 u hu with h2 | h2 | h2
        · exact Or.inl h2
        · exact Or.inr (Or.inl h2)
        · exact Or.inr (Or.inr ⟨h2.1, by simp [List.mem_append, h2.2]⟩)
      · have hvc := List.mem_singleton.mp h1
        subst hvc
        exact hreadyc u hu
    · have hdl : (mdel (mput mc c 0) c).length + 1 = (mput mc c 0).length :=
        length_mdel_of_mem _ c (by
          rw [mget_mput]; simp)
      have := inv.len
      simp only [List.length_append, List.length_singleton]
      omega
  · rw [if_neg hk] at hproc
    refine ⟨mput mc c k, zc, hproc, ?_⟩
    have hm2 : ∀ x, mget (mput mc c k) x =
        if x = c then some k else mget mc x := fun x => mget_mput mc c k x
    refine ⟨inv.nodupP, inv.nodupZ, inv.nodupZc, inv.disjPZ, inv.disjPZc,
      inv.disjZZc, inv.subP, inv.subZ, inv.subZc, ?_, ?_, ?_, ?_, ?_,
      inv.zready, inv.pclosed, ?_⟩
    · intro x
      rw [hm2 x]
      by_cases hx : x = c
      · subst hx
        simp only [if_pos rfl]
        constructor
        · intro _; exact ⟨hcN, hcP, hcz, hczc⟩
        · intro _; rfl
      · rw [if_neg hx]
        exact inv.keys x
    · exact hputkeys ▸ inv.keys_nodup
    · intro v n hv
      rw [hm2 v] at hv
      by_cases hx : v = c
      · subst hx
        rw [if_pos rfl] at hv
        rw [hnewcnt]
        exact (Option.some.inj hv).symm
      · rw [if_neg hx] at hv
        rw [remCnt_snoc_ne g _ node cs c v hx]
        exact inv.counts v n hv
    · intro v n hv
      rw [hm2 v] at hv
      by_cases hx : v = c
      · subst hx
        rw [if_pos rfl] at hv
        have := Option.some.inj hv
        omega
      · rw [if_neg hx] at hv
        exact inv.pos v n hv
    · intro v hv u hu
      rcases inv.ready v hv u hu with h2 | h2 | h2
      · exact Or.inl h2
      · exact Or.inr (Or.inl h2)
      · exact Or.inr (Or.inr ⟨h2.1, by simp [List.mem_append, h2.2]⟩)
    · rw [hputlen]
      exact inv.len

theorem KInv_node_swap {g : Graph α} {t : Nat} {P z done : List α}
    {node : α} {mc : List (α × Nat)} {zc : List α}
    (inv : KInv g t P z done node [] mc zc) (node2 : α) :
    KInv g t P z done node2 [] mc zc := by
  refine ⟨inv.nodupP, inv.nodupZ, inv.nodupZc, inv.disjPZ, inv.disjPZc,
    inv.disjZZc, inv.subP, inv.subZ, inv.subZc, inv.keys, inv.keys_nodup,
    ?_, inv.pos, ?_, inv.zready, inv.pclosed, inv.len⟩
  · intro v n hv
    rw [remCnt_nil_cs g (P ++ done) node2 node v]
    exact inv.counts v n hv
  · intro v hv u hu
    rcases inv.ready v hv u hu with h | h | h
    · exact Or.inl h
    · exact Or.inr (Or.inl h)
    · exact absurd h.2 (List.not_mem_nil v)

theorem children_fold {g : Graph α} (hw : DirWf g) {t : Nat} {P z done : List α}
    {node : α} :
    ∀ (rest cs0 : List α) (mc : List (α × Nat)) (zc : List α),
    KInv g t P z done node cs0 mc zc →
    node ∈ z → node ∉ done →
    adjSet g node = cs0 ++ rest →
    ∃ mc2 zc2, List.foldlM processChild (mc, zc) rest = some (mc2, zc2) ∧
      KInv g t P z done node (cs0 ++ rest) mc2 zc2 := by
  intro rest
  induction rest with
  | nil =>
      intro cs0 mc zc inv hnz hnd hsplit
      exact ⟨mc, zc, rfl, by simpa using inv⟩
  | cons c rest2 ih =>
      intro cs0 mc zc inv hnz hnd hsplit
      have hcadj : c ∈ adjSet g node := by rw [hsplit]; simp
      have hccs : c ∉ cs0 := by
        have hnd2 := hw.adj_vals_nodup node
        rw [hsplit, List.nodup_append] at hnd2
        exact fun h => hnd2.2.2 h (List.mem_cons_self c rest2)
      obtain ⟨mc1, zc1, hstep, inv1⟩ := child_step hw inv hnz hnd hcadj hccs
      obtain ⟨mc2, zc2, hfold, inv2⟩ := ih (cs0 ++ [c]) mc1 zc1 inv1 hnz hnd
        (by rw [hsplit]; simp)
      refine ⟨mc2, zc2, ?_, ?_⟩
      · rw [List.foldlM_cons, hstep]
        simpa using hfold
      · simpa [List.append_assoc] using inv2

theorem node_step {g : Graph α} (hw : DirWf g) {t : Nat} {P z done : List α}
    {node : α} {mc : List (α × Nat)} {zc : List α}
    (inv : KInv g t P z done node [] mc zc)
    (hnz : node ∈ z) (hnd : node ∉ done) :
    ∃ mc2 zc2, processNode g (mc, zc) node = some (mc2, zc2) ∧
      ∀ node2, KInv g t P z (done ++ [node]) node2 [] mc2 zc2 := by
  have hnN : node ∈ g.nodes := inv.subZ node hnz
  have hsome : (mget g.adj node).isSome := (mem_nodes_iff g node).mp hnN
  obtain ⟨ch, hch⟩ := Option.isSome_iff_exists.mp hsome
  have hadj : adjSet g node = ch := by unfold adjSet; rw [hch]; rfl
  obtain ⟨mc2, zc2, hfold, inv2⟩ :=
    children_fold hw ch [] mc zc inv hnz hnd (by simp [hadj])
  refine ⟨mc2, zc2, ?_, ?_⟩
  · unfold processNode
    rw [hch]
    simpa using hfold
  · intro node2
    have hcnt : ∀ v, remCnt g (P ++ done) node ch v
        = remCnt g (P ++ (done ++ [node])) node2 [] v := by
      intro v
      have h2 := remCnt_complete g hw (P ++ done) node node2 v
      rw [hadj] at h2
      rw [h2, List.append_assoc]
    simp only [List.nil_append] at inv2
    refine ⟨inv2.nodupP, inv2.nodupZ, inv2.nodupZc, inv2.disjPZ, inv2.disjPZc,
      inv2.disjZZc, inv2.subP, inv2.subZ, inv2.subZc, inv2.keys,
      inv2.keys_nodup, ?_, inv2.pos, ?_, inv2.zready, inv2.pclosed, inv2.len⟩
    · intro v n hv
      rw [← hcnt v]
      exact inv2.counts v n hv
    · intro v hv u hu
      rcases inv2.ready v hv u hu with h | h | h
      · exact Or.inl h
      · exact Or.inr (Or.inl (List.mem_append.mpr (Or.inl h)))
      · exact Or.inr (Or.inl (by simp [h.1]))

theorem gen_fold {g : Graph α} (hw : DirWf g) {t : Nat} {P z : List α} :
    ∀ (todo done0 : List α) (mc : List (α × Nat)) (zc : List α) (node : α),
    KInv g t P z done0 node [] mc zc →
    done0 ++ todo = z →
    ∃ mc2 zc2, List.foldlM (processNode g) (mc, zc) todo = some (mc2, zc2) ∧
      ∀ node2, KInv g t P z (done0 ++ todo) node2 [] mc2 zc2 := by
  intro todo
  induction todo with
  | nil =>
      intro done0 mc zc node inv hsplit
      refine ⟨mc, zc, rfl, fun node2 => ?_⟩
      simpa using KInv_node_swap inv node2
  | cons node todo2 ih =>
      intro done0 mc zc nodeX inv hsplit
      have hnz : node ∈ z := by
        rw [← hsplit]; simp
      have hnd : node ∉ done0 := by
        have hznd := inv.nodupZ
        rw [← hsplit, List.nodup_append] at hznd
        exact fun h => hznd.2.2 h (List.mem_cons_self node todo2)
      obtain ⟨mc1, zc1, hstep, inv1⟩ :=
        node_step hw (KInv_node_swap inv node) hnz hnd
      obtain ⟨mc2, zc2, hfold, inv2⟩ := ih (done0 ++ [node]) mc1 zc1 node
        (inv1 node) (by rw [← hsplit]; simp)
      refine ⟨mc2, zc2, ?_, fun node2 => ?_⟩
      · rw [List.foldlM_cons, hstep]
        simpa using hfold
      · have := inv2 node2
        simpa [List.append_assoc] using this

/-- Loop-head invariant of `kahnLoop`: `gens` the generations output so far,
`z` the next frontier, `m` the in-degree bookkeeping map. -/
structure LoopInv (g : Graph α) (gens : List (List α)) (z : List α)
    (m : List (α × Nat)) : Prop where
  nodupF : gens.flatten.Nodup
  nodupZ : z.Nodup
  disjFZ : ∀ x, x ∈ gens.flatten → x ∉ z
  subF : ∀ x, x ∈ gens.flatten → x ∈ g.nodes
  subZ : ∀ x, x ∈ z → x ∈ g.nodes
  keys : ∀ x, (mget m x).isSome ↔ (x ∈ g.nodes ∧ x ∉ gens.flatten ∧ x ∉ z)
  keys_nodup : (mkeys m).Nodup
  counts : ∀ v n, mget m v = some n → n = remCnt0 g gens.flatten v
  pos : ∀ v n, mget m v = some n → 1 ≤ n
  zready : ∀ v, v ∈ z → ∀ u, u ∈ predSet g v → u ∈ gens.flatten
  order : ∀ pre gen suf, gens = pre ++ gen :: suf →
    ∀ v, v ∈ gen → ∀ u, u ∈ predSet g v → u ∈ pre.flatten

theorem LoopInv.pclosed {g : Graph α} {gens : List (List α)} {z : List α}
    {m : List (α × Nat)} (inv : LoopInv g gens z m) :
    ∀ v, v ∈ gens.flatten → ∀ u, u ∈ predSet g v → u ∈ gens.flatten := by
  intro v hv u hu
  obtain ⟨gen, hgen, hvgen⟩ := List.mem_flatten.mp hv
  obtain ⟨pre, suf, hsplit⟩ := List.append_of_mem hgen
  have := inv.order pre gen suf hsplit v hvgen u hu
  rw [hsplit]
  rw [List.flatten_append] at *
  exact List.mem_append.mpr (Or.inl this)

theorem generation_step {g : Graph α} (hw : DirWf g) {gens : List (List α)}
    {z : List α} {m : List (α × Nat)}
    (inv : LoopInv g gens z m) (hz : z ≠ []) :
    ∃ m2 z2, processGeneration g z m = some (m2, z2) ∧
      LoopInv g (gens ++ [z]) z2 m2 ∧ m2.length + z2.length = m.length := by
  have node0 : α := z.head hz
  have kinv : KInv g m.length gens.flatten z [] node0 [] m [] := by
    refine ⟨inv.nodupF, inv.nodupZ, List.nodup_nil, inv.disjFZ,
      ?_, ?_, inv.subF, inv.subZ, ?_, ?_, inv.keys_nodup, ?_, inv.pos,
      ?_, inv.zready, inv.pclosed, ?_⟩
    · intro x _; exact List.not_mem_nil x
    · intro x _; exact List.not_mem_nil x
    · intro x hx; exact absurd hx (List.not_mem_nil x)
    · intro x
      rw [inv.keys x]
      simp
    · intro v n hv
      rw [List.append_nil, ← remCnt0_eq g gens.flatten node0 v]
      exact inv.counts v n hv
    · intro v hv
      exact absurd hv (List.not_mem_nil v)
    · simp
  obtain ⟨m2, z2, hfold, kinv2all⟩ :=
    gen_fold hw z [] m [] node0 kinv (by simp)
  have kinv2 := kinv2all node0
  simp only [List.nil_append] at kinv2
  refine ⟨m2, z2, hfold, ?_, kinv2.len⟩
  have hflat : (gens ++ [z]).flatten = gens.flatten ++ z := by
    simp
  refine ⟨?_, kinv2.nodupZc, ?_, ?_, kinv2.subZc, ?_, kinv2.keys_nodup,
    ?_, kinv2.pos, ?_, ?_⟩
  · rw [hflat, List.nodup_append]
    exact ⟨kinv2.nodupP, kinv2.nodupZ, fun a ha => kinv2.disjPZ a ha⟩
  · intro x hx
    rw [hflat] at hx
    rcases List.mem_append.mp hx with h | h
    · exact kinv2.disjPZc x h
    · exact kinv2.disjZZc x h
  · intro x hx
    rw [hflat] at hx
    rcases List.mem_append.mp hx with h | h
    · exact kinv2.subP x h
    · exact kinv2.subZ x h
  · intro x
    rw [kinv2.keys x, hflat]
    constructor
    · rintro ⟨a, b1, b2, b3⟩
      exact ⟨a, fun hm => (List.mem_append.mp hm).elim b1 b2, b3⟩
    · rintro ⟨a, b1, b2⟩
      exact ⟨a, fun h => b1 (List.mem_append.mpr (Or.inl h)),
        fun h => b1 (List.mem_append.mpr (Or.inr h)), b2⟩
  · intro v n hv
    rw [hflat, remCnt0_eq g (gens.flatten ++ z) node0 v]
    exact kinv2.counts v n hv
  · intro v hv u hu
    rw [hflat]
    rcases kinv2.ready v hv u hu with h | h | h
    · exact List.mem_append.mpr (Or.inl h)
    · exact List.mem_append.mpr (Or.inr h)
    · exact absurd h.2 (List.not_mem_nil v)
  · intro pre gen suf hsplit v hv u hu
    rcases append_singleton_split pre suf gen gens z hsplit.symm with
      ⟨hpre, hgen, _⟩ | ⟨suf2, _, hgens⟩
    · subst hpre
      rw [hgen] at hv
      exact inv.zready v hv u hu
    · exact inv.order pre gen suf2 hgens v hv u hu

theorem kahnLoop_spec {g : Graph α} (hw : DirWf g) :
    ∀ (fuel : Nat) (m : List (α × Nat)) (z : List α) (gens : List (List α)),
    LoopInv g gens z m → m.length + 2 ≤ fuel →
    ∃ gens2 m2, kahnLoop g fuel m z gens = some (gens2, m2) ∧
      LoopInv g gens2 [] m2 := by
  intro fuel
  induction fuel with
  | zero =>
      intro m z gens inv hf
      omega
  | succ f ih =>
      intro m z gens inv hf
      by_cases hz : z = []
      · subst hz
        exact ⟨gens, m, by simp [kahnLoop], inv⟩
      · obtain ⟨m2, z2, hgen, inv2, hlen⟩ := generation_step hw inv hz
        by_cases hz2 : z2 = []
        · subst hz2
          refine ⟨gens ++ [z], m2, ?_, inv2⟩
          have hf1 : 1 ≤ f := by omega
          obtain ⟨f2, rfl⟩ : ∃ f2, f = f2 + 1 := ⟨f - 1, by omega⟩
          show kahnLoop g (f2 + 1 + 1) m z gens = _
          rw [show kahnLoop g (f2 + 1 + 1) m z gens =
              (if z = [] then some (gens, m)
               else match processGeneration g z m with
                 | none => none
                 | some (m2, z2) => kahnLoop g (f2 + 1) m2 z2 (gens ++ [z])) from rfl]
          rw [if_neg hz, hgen]
          rfl
        · have hz2l : 1 ≤ z2.length := by
            cases z2 with
            | nil => exact absurd rfl hz2
            | cons a b => simp
          have hm2 : m2.length + 2 ≤ f := by omega
          obtain ⟨gens2, m3, hloop, inv3⟩ := ih m2 z2 (gens ++ [z]) inv2 hm2
          refine ⟨gens2, m3, ?_, inv3⟩
          rw [show kahnLoop g (f + 1) m z gens =
              (if z = [] then some (gens, m)
               else match processGeneration g z m with
                 | none => none
                 | some (m2, z2) => kahnLoop g f m2 z2 (gens ++ [z])) from rfl]
          rw [if_neg hz, hgen]
          exact hloop

theorem mput_append_fresh (m : List (α × β)) (a : α) (b : β)
    (h : a ∉ mkeys m) : mput m a b = m ++ [(a, b)] := by
  induction m with
  | nil => simp [mput]
  | cons p rest ih =>
      obtain ⟨k, v⟩ := p
      have hka : ¬ k = a := fun he => h (by simp [he])
      have hrest : a ∉ mkeys rest := fun he => h (by simp [he])
      simp [mput, hka, ih hrest]

theorem initPartition_go (l : List (α × Nat)) :
    ∀ (accm : List (α × Nat)) (accz : List α),
    (∀ k, k ∈ mkeys l → k ∉ mkeys accm) → (mkeys l).Nodup →
    l.foldl initStep (accm, accz) =
      (accm ++ l.filter (fun kv => ¬ kv.2 = 0),
       accz ++ (l.filter (fun kv => kv.2 = 0)).map Prod.fst) := by
  induction l with
  | nil => intro accm accz _ _; simp
  | cons kv rest ih =>
      intro accm accz hfresh hnd
      obtain ⟨k, v⟩ := kv
      rw [mkeys_cons, List.nodup_cons] at hnd
      obtain ⟨hknotin, hndrest⟩ := hnd
      by_cases hv : v = 0
      · subst hv
        rw [List.foldl_cons]
        rw [show initStep (accm, accz) (k, 0) = (accm, accz ++ [k]) by
          simp [initStep]]
        rw [ih accm (accz ++ [k])
          (fun x hx => hfresh x (by simp [hx])) hndrest]
        simp
      · rw [List.foldl_cons]
        rw [show initStep (accm, accz) (k, v) = (mput accm k v, accz) by
          simp [initStep, hv]]
        have hkfresh : k ∉ mkeys accm := hfresh k (by simp)
        rw [mput_append_fresh accm k v hkfresh]
        rw [ih (accm ++ [(k, v)]) accz ?_ hndrest]
        · simp [hv, List.append_assoc]
        · intro x hx
          rw [mkeys_append]
          simp only [List.mem_append]
          push_neg
          refine ⟨hfresh x (by simp [hx]), ?_⟩
          intro hmem
          simp [mkeys] at hmem
          exact hknotin (hmem ▸ hx)

theorem mget_map_keyed (l : List α) (f : α → Nat) (x : α) :
    mget (l.map (fun n => (n, f n))) x =
      if x ∈ l then some (f x) else none := by
  induction l with
  | nil => simp [mget]
  | cons a rest ih =>
      by_cases hax : a = x
      · subst hax; simp [mget]
      · have hxa : ¬ x = a := fun h => hax h.symm
        simp [mget, hax, hxa, ih]

theorem filter_map_pair (N : List α) (f : α → Nat) (p : α × Nat → Bool) :
    (N.map (fun n => (n, f n))).filter p =
      (N.filter (fun n => p (n, f n))).map (fun n => (n, f n)) := by
  induction N with
  | nil => simp
  | cons a rest ih =>
      by_cases hp : p (a, f a) = true
      · simp [hp, ih]
      · simp only [List.map_cons, List.filter_cons]
        rw [if_neg (by simp [hp]), if_neg (by simp [hp]), ih]

theorem initial_LoopInv {g : Graph α} (hw : DirWf g) :
    LoopInv g [] (initPartition g.in_degree_map).2
      (initPartition g.in_degree_map).1 := by
  have hkeys : mkeys g.in_degree_map = g.nodes := by
    unfold Graph.in_degree_map mkeys
    rw [List.map_map]
    have hid : (Prod.fst ∘ fun n => (n, g.in_degree n)) = id := rfl
    rw [hid, List.map_id]
  have hnd : (mkeys g.in_degree_map).Nodup := by
    rw [hkeys]; exact hw.nodes_nodup
  have hgo := initPartition_go g.in_degree_map [] []
    (fun k _ hk => by simp [mkeys] at hk) hnd
  have hM : (initPartition g.in_degree_map).1 =
      (g.nodes.filter (fun n => ¬ g.in_degree n = 0)).map
        (fun n => (n, g.in_degree n)) := by
    unfold initPartition
    rw [hgo]
    simp only [List.nil_append]
    unfold Graph.in_degree_map
    rw [filter_map_pair]
  have hZ : (initPartition g.in_degree_map).2 =
      g.nodes.filter (fun n => g.in_degree n = 0) := by
    unfold initPartition
    rw [hgo]
    simp only [List.nil_append]
    unfold Graph.in_degree_map
    rw [filter_map_pair, List.map_map]
    have hid : (Prod.fst ∘ fun n => (n, g.in_degree n)) = id := rfl
    rw [hid, List.map_id]
  have hfnd : (g.nodes.filter (fun n => ¬ g.in_degree n = 0)).Nodup :=
    hw.nodes_nodup.filter _
  have hznd : (g.nodes.filter (fun n => g.in_degree n = 0)).Nodup :=
    hw.nodes_nodup.filter _
  have hmemZ : ∀ x, x ∈ (initPartition g.in_degree_map).2 ↔
      (x ∈ g.nodes ∧ g.in_degree x = 0) := by
    intro x
    rw [hZ, List.mem_filter]
    simp
  have hgetM : ∀ x, mget (initPartition g.in_degree_map).1 x =
      if x ∈ g.nodes.filter (fun n => ¬ g.in_degree n = 0)
      then some (g.in_degree x) else none := by
    intro x
    rw [hM, mget_map_keyed]
  refine ⟨by simp, by rw [hZ]; exact hznd, ?_, ?_, ?_, ?_, ?_, ?_, ?_, ?_, ?_⟩
  · intro x hx; simp at hx
  · intro x hx; simp at hx
  · intro x hx
    exact ((hmemZ x).mp hx).1
  · intro x
    rw [hgetM x]
    by_cases hx : x ∈ g.nodes.filter (fun n => ¬ g.in_degree n = 0)
    · rw [if_pos hx]
      rw [List.mem_filter] at hx
      simp only [decide_eq_true_eq] at hx
      constructor
      · intro _
        refine ⟨hx.1, by simp, ?_⟩
        rw [hmemZ x]
        intro hc
        exact hx.2 hc.2
      · intro _; rfl
    · rw [if_neg hx]
      rw [List.mem_filter] at hx
      simp only [decide_eq_true_eq] at hx
      push_neg at hx
      constructor
      · intro h; simp at h
      · rintro ⟨h1, _, h3⟩
        rw [hmemZ x] at h3
        push_neg at h3
        exact absurd (hx h1) (by simpa using h3 h1)
  · rw [hM]
    show (((g.nodes.filter _).map (fun n => (n, g.in_degree n))).map Prod.fst).Nodup
    rw [List.map_map]
    have hid : (Prod.fst ∘ fun n => (n, g.in_degree n)) = id := rfl
    rw [hid, List.map_id]
    exact hfnd
  · intro v n hv
    rw [hgetM v] at hv
    by_cases hx : v ∈ g.nodes.filter (fun n => ¬ g.in_degree n = 0)
    · rw [if_pos hx] at hv
      have hn : n = g.in_degree v := (Option.some.inj hv).symm
      rw [hn, remCnt0]
      show g.in_degree v = (predSet g v).countP _
      rw [in_degree_eq_length_predSet]
      rw [List.countP_eq_length.mpr (fun a _ => by simp)]
    · rw [if_neg hx] at hv
      exact absurd hv (by simp)
  · intro v n hv
    rw [hgetM v] at hv
    by_cases hx : v ∈ g.nodes.filter (fun n => ¬ g.in_degree n = 0)
    · rw [if_pos hx] at hv
      have hn : n = g.in_degree v := (Option.some.inj hv).symm
      rw [List.mem_filter] at hx
      simp only [decide_eq_true_eq] at hx
      omega
    · rw [if_neg hx] at hv
      exact absurd hv (by simp)
  · intro v hv u hu
    have h0 : g.in_degree v = 0 := ((hmemZ v).mp hv).2
    rw [in_degree_eq_length_predSet] at h0
    rw [List.length_eq_zero] at h0
    rw [h0] at hu
    exact absurd hu (List.not_mem_nil u)
  · intro pre gen suf hsplit
    exact absurd hsplit (by simp)

theorem final_perm {g : Graph α} (hw : DirWf g) {gens : List (List α)}
    (inv : LoopInv g gens [] []) : gens.flatten.Perm g.nodes := by
  rw [List.perm_ext_iff_of_nodup inv.nodupF hw.nodes_nodup]
  intro a
  constructor
  · exact inv.subF a
  · intro ha
    by_contra hnf
    have := (inv.keys a).mpr ⟨ha, hnf, List.not_mem_nil a⟩
    simp [mget] at this

theorem final_order {g : Graph α} (hw : DirWf g) {gens : List (List α)}
    {m : List (α × Nat)}
    (inv : LoopInv g gens [] m) {u v : α} (hedge : v ∈ adjSet g u)
    (hv : v ∈ gens.flatten) :
    gens.flatten.indexOf u < gens.flatten.indexOf v := by
  obtain ⟨gen, hgen, hvgen⟩ := List.mem_flatten.mp hv
  obtain ⟨pre, suf, hsplit⟩ := List.append_of_mem hgen
  have hupred : u ∈ predSet g v := (hw.lockstep u v).mp hedge
  have hu : u ∈ pre.flatten := inv.order pre gen suf hsplit v hvgen u hupred
  have hflat : gens.flatten = pre.flatten ++ (gen ++ suf.flatten) := by
    rw [hsplit]; simp
  exact index_order gens.flatten pre.flatten (gen ++ suf.flatten) u v hflat
    inv.nodupF hu (List.mem_append.mpr (Or.inl hvgen))

theorem final_cycle {g : Graph α} (hw : DirWf g) {gens : List (List α)}
    {m : List (α × Nat)} (inv : LoopInv g gens [] m) (hm : m ≠ []) :
    ∃ c, Relation.TransGen (EdgeRel g) c c := by
  refine cycle_of_closed_preds (EdgeRel g) (mkeys m) ?_ ?_
  · intro h
    apply hm
    cases m with
    | nil => rfl
    | cons p rest => simp [mkeys] at h
  · intro v hv
    have hkey : (mget m v).isSome := (mget_isSome_iff_mem_mkeys m v).mpr hv
    obtain ⟨n, hn⟩ := Option.isSome_iff_exists.mp hkey
    have hpos := inv.pos v n hn
    have hcnt := inv.counts v n hn
    have hposc : 0 < (predSet g v).countP (fun u => decide (u ∉ gens.flatten)) := by
      rw [← remCnt0]
      omega
    obtain ⟨u, hu, hdec⟩ := List.countP_pos_iff.mp hposc
    have huF : u ∉ gens.flatten := by simpa using hdec
    have hedge : v ∈ adjSet g u := (hw.lockstep u v).mpr hu
    have huN : u ∈ g.nodes :=
      mem_nodes_of_adjSet_ne_nil g u (fun he => by simp [he] at hedge)
    have hukey : (mget m u).isSome :=
      (inv.keys u).mpr ⟨huN, huF, List.not_mem_nil u⟩
    exact ⟨u, (mget_isSome_iff_mem_mkeys m u).mp hukey, hedge⟩

theorem topological_generations_run {g : Graph α} (hb : DBuilt g) :
    ∃ gens2 m2,
      kahnLoop g ((initPartition g.in_degree_map).1.length + 2)
        (initPartition g.in_degree_map).1 (initPartition g.in_degree_map).2 []
        = some (gens2, m2) ∧ LoopInv g gens2 [] m2 :=
  kahnLoop_spec hb.dwf _ _ _ _ (initial_LoopInv hb.dwf) (le_refl _)

end KahnProof

section KahnClaimTheorems

variable [DecidableEq α]

/-- C10: on every directed graph built through the public API - cyclic or
not - the partial operations inside `topological_generations` never fail:
the model, in which `none` is the panic channel for the `expect` on `adj`,
the `unwrap` on the in-degree map and the `usize` decrement, returns `some`. -/
theorem c10_no_internal_panic (g : Graph α) (hb : DBuilt g) :
    ∃ r, SortRs.topological_generations g = some r := by
  obtain ⟨gens2, m2, hloop, _⟩ := topological_generations_run hb
  unfold SortRs.topological_generations
  rw [hloop]
  by_cases hm2 : m2 = [] <;> simp [hm2]

theorem gcyc_built : DBuilt gcyc :=
  DBuilt.addEdgesFrom DBuilt.new [(1, 2), (2, 1)]

/-- Witness for C10 at the concrete cyclic graph `gcyc`: even there no
internal operation panics - the run ends in the cycle error, not a panic. -/
theorem c10_no_internal_panic_witness :
    ∃ r, SortRs.topological_generations gcyc = some r :=
  c10_no_internal_panic gcyc gcyc_built

/-- C1: on every acyclic directed graph built through the public API,
`topological_sort` returns `Ok` of a duplicate-free permutation of all nodes
in which, for every edge `u -> v`, `u` appears strictly before `v`; the
sequence is the concatenation of the `Ok` generations of
`topological_generations`, in which every node hence appears exactly once. -/
theorem c1_topological_sort_correct (g : Graph α) (hb : DBuilt g)
    (ha : Acyclic g) :
    ∃ gens L, SortRs.topological_generations g = some (Except.ok gens) ∧
      SortRs.topological_sort g = some (Except.ok L) ∧ L = gens.flatten ∧
      L.Nodup ∧ L.Perm g.nodes ∧
      ∀ u v, v ∈ adjSet g u → L.indexOf u < L.indexOf v := by
  have hw := hb.dwf
  obtain ⟨gens2, m2, hloop, inv⟩ := topological_generations_run hb
  have hm2 : m2 = [] := by
    by_contra hne
    obtain ⟨c, hc⟩ := final_cycle hw inv hne
    exact ha c hc
  subst hm2
  have hgens : SortRs.topological_generations g = some (Except.ok gens2) := by
    unfold SortRs.topological_generations
    rw [hloop]
    simp
  refine ⟨gens2, gens2.flatten, hgens, ?_, rfl, inv.nodupF,
    final_perm hw inv, ?_⟩
  · unfold SortRs.topological_sort
    rw [hgens]
  · intro u v hedge
    have hvN : v ∈ g.nodes := hw.closed u v hedge
    have hvF : v ∈ gens2.flatten := ((final_perm hw inv).mem_iff).mpr hvN
    exact final_order hw inv hedge hvF

theorem gexD_acyclic : Acyclic gexD := by
  have hstep : ∀ a b : Nat, EdgeRel gexD a b → a = 0 ∧ b = 1 := by
    intro a b h
    have h2 := (mem_adjSet_dadd_edge Graph.new 0 1 a b).mp h
    rcases h2 with h1 | h1
    · exact absurd h1 (by simp [adjSet, Graph.new, mget])
    · exact h1
  intro x hx
  have hall : ∀ y, Relation.TransGen (EdgeRel gexD) x y → x = 0 ∧ y = 1 := by
    intro y hy
    induction hy with
    | single h => exact hstep _ _ h
    | tail hxy hE ih =>
        have h2 := hstep _ _ hE
        obtain ⟨hb0, _⟩ := h2
        obtain ⟨_, hb1⟩ := ih
        omega
  obtain ⟨h0, h1⟩ := hall x hx
  omega

/-- Witness for C1 at the concrete acyclic graph `gexD`. -/
theorem c1_topological_sort_correct_witness :
    ∃ gens L, SortRs.topological_generations gexD = some (Except.ok gens) ∧
      SortRs.topological_sort gexD = some (Except.ok L) ∧ L = gens.flatten ∧
      L.Nodup ∧ L.Perm gexD.nodes ∧
      ∀ u v, v ∈ adjSet gexD u → L.indexOf u < L.indexOf v :=
  c1_topological_sort_correct gexD gexD_built gexD_acyclic

end KahnClaimTheorems

section SearchDefs

variable [DecidableEq α]

/-- Total size of all adjacency lists - used as a loop-iteration bound. -/
def totalAdj (g : Graph α) : Nat :=
  (g.adj.map (fun p => p.2.length)).sum

/-- All values occurring in adjacency lists. -/
def adjVals (g : Graph α) : List α :=
  (g.adj.map Prod.snd).flatten

/-- One neighbor step of BFS frontier expansion (`search.rs` lines 104-110):
an unvisited neighbor gets a predecessor entry, is enqueued at `dist + 1`
and marked visited.  The state is `(queue, visited, previous)`. -/
def bfsVisit (node : α) (dist : Nat)
    (st : List (α × Nat) × List α × List (α × α)) (nb : α) :
    List (α × Nat) × List α × List (α × α) :=
  if nb ∈ st.2.1 then st
  else (st.1 ++ [(nb, dist + 1)], st.2.1 ++ [nb], mput st.2.2 nb node)

/-- The fueled BFS while-loop of `BFS::shortest_path_util` (`search.rs`
lines 95-111).  Outer `none` is the panic channel (the `expect` on `adj`);
inner `none` is the honest "no path" result. -/
def bfsLoop (g : Graph α) (target : α) :
    Nat → List (α × Nat) → List α → List (α × α) →
    Option (Option (Nat × List (α × α)))
  | 0, _, _, _ => none
  | fuel + 1, q, vis, prev =>
      match q with
      | [] => some none
      | (node, dist) :: rest =>
          if node = target then some (some (dist, prev))
          else
            match mget g.adj node with
            | none => none
            | some neighbors =>
                let st := neighbors.foldl (bfsVisit node dist) (rest, vis, prev)
                bfsLoop g target fuel st.1 st.2.1 st.2.2

/-- The fueled while-loop of `build_path` (`search.rs` lines 75-81): walk
predecessor links backward, removing each used entry; `none` models the
panicking `expect` on a missing entry. -/
def buildPathLoop :
    Nat → List (α × α) → α → α → List α → Option (List α)
  | 0, _, _, _, _ => none
  | fuel + 1, prev, source, current, path =>
      if current = source then some path
      else
        match mget prev current with
        | none => none
        | some nxt => buildPathLoop fuel (mdel prev current) source nxt (path ++ [nxt])

/-- Model of `build_path` (`search.rs` lines 71-83): the walked list is
reversed at the end.  The fuel `prev.length + 1` suffices because every
iteration removes one entry from `previous`. -/
def build_path (prev : List (α × α)) (source target : α) : Option (List α) :=
  (buildPathLoop (prev.length + 1) prev source target [target]).map List.reverse

namespace BFS

/-- Model of `BFS::shortest_path_util`.  The fuel `totalAdj g + 2` is shown
sufficient below: every loop iteration pops one queue entry and each enqueue
marks a fresh value from an adjacency list visited. -/
def shortest_path_util (g : Graph α) (source target : α) :
    Option (Option (Nat × List (α × α))) :=
  bfsLoop g target (totalAdj g + 2) [(source, 0)] [source] []

/-- Model of the trait default `shortest_path_length`. -/
def shortest_path_length (g : Graph α) (source target : α) :
    Option (Option Nat) :=
  (shortest_path_util g source target).map (Option.map Prod.fst)

/-- Model of the trait default `has_path`. -/
def has_path (g : Graph α) (source target : α) : Option Bool :=
  (shortest_path_util g source target).map Option.isSome

/-- Model of the trait default `shortest_path`. -/
def shortest_path (g : Graph α) (source target : α) :
    Option (Option (List α)) :=
  match shortest_path_util g source target with
  | none => none
  | some none => some none
  | some (some (_, prev)) =>
      match build_path prev source target with
      | none => none
      | some p => some (some p)

end BFS

end SearchDefs

/-- The `State { cost, node }` struct of `search.rs`. -/
structure DState (α : Type) where
  cost : Nat
  node : α
deriving DecidableEq

/-- The `usize::MAX` sentinel used by Dijkstra's distance map. -/
def usizeMax : Nat := 2 ^ 64 - 1

section DijkstraDefs

variable [LinearOrder α]

/-- Model of `BinaryHeap::pop` under the `Ord` of `search.rs` lines 50-60:
the popped element has minimal cost, ties broken toward the largest node.
The heap never holds two equal `State`s, so this scan is exact. -/
def popHeap : List (DState α) → Option (DState α × List (DState α))
  | [] => none
  | e :: rest =>
      match popHeap rest with
      | none => some (e, [])
      | some (m, r2) =>
          if m.cost < e.cost ∨ (m.cost = e.cost ∧ e.node < m.node)
          then some (m, e :: r2)
          else some (e, rest)

/-- One relaxation step of Dijkstra (`search.rs` lines 141-151) over the
state `(heap, dist, previous)`; `none` models the panicking index
`dist[&neighbor]` for a value that has no distance entry. -/
def dijkstraRelax (node : α) (cost : Nat)
    (st : List (DState α) × List (α × Nat) × List (α × α)) (nb : α) :
    Option (List (DState α) × List (α × Nat) × List (α × α)) :=
  match mget st.2.1 nb with
  | none => none
  | some dnb =>
      if cost + 1 < dnb then
        some (st.1 ++ [⟨cost + 1, nb⟩], mput st.2.1 nb (cost + 1),
          mput st.2.2 nb node)
      else some st

/-- The fueled while-loop of `Dijkstra::shortest_path_util` (`search.rs`
lines 134-152): pop the minimum, return on target, skip stale entries,
otherwise relax every neighbor. -/
def dijkstraLoop (g : Graph α) (target : α) :
    Nat → List (DState α) → List (α × Nat) → List (α × α) →
    Option (Option (Nat × List (α × α)))
  | 0, _, _, _ => none
  | fuel + 1, heap, dist, prev =>
      match popHeap heap with
      | none => some none
      | some (st, heap2) =>
          if st.node = target then some (some (st.cost, prev))
          else
            match mget dist st.node with
            | none => none
            | some dn =>
                if dn < st.cost then dijkstraLoop g target fuel heap2 dist prev
                else
                  match mget g.adj st.node with
                  | none => none
                  | some neighbors =>
                      match List.foldlM (dijkstraRelax st.node st.cost)
                          (heap2, dist, prev) neighbors with
                      | none => none
                      | some st2 => dijkstraLoop g target fuel st2.1 st2.2.1 st2.2.2

namespace Dijkstra

/-- Model of `Dijkstra::shortest_path_util` (`search.rs` lines 121-154):
distances start at the `usize::MAX` sentinel for every node, the source is
set to 0 (`none` models the panicking unwrap when the source has no entry),
and the heap is seeded with `(0, source)`. -/
def shortest_path_util (g : Graph α) (source target : α) :
    Option (Option (Nat × List (α × α))) :=
  match mget (g.nodes.map (fun x => (x, usizeMax))) source with
  | none => none
  | some _ =>
      dijkstraLoop g target (totalAdj g + 2) [⟨0, source⟩]
        (mput (g.nodes.map (fun x => (x, usizeMax))) source 0) []

/-- Model of the trait default `shortest_path_length` for `Dijkstra`. -/
def shortest_path_length (g : Graph α) (source target : α) :
    Option (Option Nat) :=
  (shortest_path_util g source target).map (Option.map Prod.fst)

/-- Model of the trait default `has_path` for `Dijkstra`. -/
def has_path (g : Graph α) (source target : α) : Option Bool :=
  (shortest_path_util g source target).map Option.isSome

/-- Model of the trait default `shortest_path` for `Dijkstra`. -/
def shortest_path (g : Graph α) (source target : α) :
    Option (Option (List α)) :=
  match shortest_path_util g source target with
  | none => none
  | some none => some none
  | some (some (_, prev)) =>
      match build_path prev source target with
      | none => none
      | some p => some (some p)

end Dijkstra

end DijkstraDefs

section C9Claim

variable [DecidableEq α]

/-- C9: for every graph - directed or undirected - and every value `x`,
even one never added to the graph, `BFS::shortest_path_util(g, x, x)`
returns `Some((0, empty predecessor map))`: the first popped queue entry is
the source itself and the target test fires before any adjacency lookup.
Hence `has_path(g, x, x)` is true and `shortest_path(g, x, x)` is the
one-node path `[x]`. -/
theorem c9_bfs_self_path (g : Graph α) (x : α) :
    BFS.shortest_path_util g x x = some (some (0, [])) ∧
    BFS.has_path g x x = some true ∧
    BFS.shortest_path g x x = some (some [x]) := by
  have h1 : BFS.shortest_path_util g x x = some (some (0, [])) := by
    unfold BFS.shortest_path_util
    show bfsLoop g x (totalAdj g + 1 + 1) [(x, 0)] [x] [] = _
    simp [bfsLoop]
  refine ⟨h1, ?_, ?_⟩
  · unfold BFS.has_path
    rw [h1]
    rfl
  · unfold BFS.shortest_path
    rw [h1]
    show (match build_path [] x x with
      | none => none
      | some p => some (some p)) = some (some [x])
    unfold build_path
    simp [buildPathLoop]

end C9Claim

section PathSpec

variable [DecidableEq α]

/-- Directed walks from a fixed source, measured in edges. -/
inductive PathTo (g : Graph α) (s : α) : α → Nat → Prop
  | refl : PathTo g s s 0
  | step {u v : α} {n : Nat} :
      PathTo g s u n → v ∈ adjSet g u → PathTo g s v (n + 1)

/-- Reachability: some walk exists. -/
def Reach (g : Graph α) (s t : α) : Prop := ∃ n, PathTo g s t n

/-- The hop distance from `s` to `t`: attained by a walk and minimal. -/
def IsShortest (g : Graph α) (s t : α) (d : Nat) : Prop :=
  PathTo g s t d ∧ ∀ m, PathTo g s t m → d ≤ m

theorem PathTo_zero {g : Graph α} {s x : α} (h : PathTo g s x 0) : x = s := by
  cases h
  rfl

theorem IsShortest_unique {g : Graph α} {s t : α} {d1 d2 : Nat}
    (h1 : IsShortest g s t d1) (h2 : IsShortest g s t d2) : d1 = d2 :=
  Nat.le_antisymm (h1.2 d2 h2.1) (h2.2 d1 h1.1)

theorem IsShortest_self (g : Graph α) (s : α) : IsShortest g s s 0 :=
  ⟨PathTo.refl, fun m _ => Nat.zero_le m⟩

theorem exists_least {P : Nat → Prop} (h : ∃ n, P n) :
    ∃ d, P d ∧ ∀ m, P m → d ≤ m := by
  classical
  obtain ⟨n, hn⟩ := h
  induction n using Nat.strong_induction_on with
  | _ n ih =>
      by_cases hless : ∃ m, m < n ∧ P m
      · obtain ⟨m, hm, hPm⟩ := hless
        exact ih m hm hPm
      · push_neg at hless
        exact ⟨n, hn, fun m hPm => Nat.le_of_not_lt (fun hlt => hless m hlt hPm)⟩

theorem reach_shortest {g : Graph α} {s t : α} (h : Reach g s t) :
    ∃ d, IsShortest g s t d := by
  obtain ⟨d, h1, h2⟩ := exists_least h
  exact ⟨d, h1, h2⟩

theorem nodup_subset_length_le (l1 l2 : List α) (hnd : l1.Nodup)
    (hsub : l1 ⊆ l2) : l1.length ≤ l2.length := by
  classical
  calc l1.length = l1.toFinset.card := (List.toFinset_card_of_nodup hnd).symm
    _ ≤ l2.toFinset.card := Finset.card_le_card
        (fun x hx => List.mem_toFinset.mpr (hsub (List.mem_toFinset.mp hx)))
    _ ≤ l2.length := l2.toFinset_card_le

/-- Soundness data of a predecessor map produced by a search: each entry
points across an edge, one hop closer to the source, and - for nodes within
distance `D` - the parent is either the source or itself has an entry. -/
def PrevOkBelow (g : Graph α) (s : α) (prev : List (α × α)) (D : Nat) : Prop :=
  ∀ z y, mget prev z = some y → z ∈ adjSet g y ∧
    ∃ k, IsShortest g s y k ∧ IsShortest g s z (k + 1) ∧
      (k + 1 ≤ D → (y = s ∨ (mget prev y).isSome))

theorem buildPathLoop_spec {g : Graph α} {s : α} :
    ∀ (d : Nat) (prev : List (α × α)) (x : α) (acc : List α),
    (mkeys prev).Nodup → PrevOkBelow g s prev d →
    IsShortest g s x d → (x = s ∨ (mget prev x).isSome) →
    ∃ chain, buildPathLoop (prev.length + 1) prev s x acc = some (acc ++ chain) ∧
      chain.length = d ∧
      List.Chain' (fun a b => a ∈ adjSet g b) (x :: chain) ∧
      (x :: chain).getLast? = some s := by
  intro d
  induction d with
  | zero =>
      intro prev x acc hnd hok hsh hx
      have hxs : x = s := PathTo_zero hsh.1
      subst hxs
      refine ⟨[], ?_, rfl, by simp, by simp⟩
      show buildPathLoop (prev.length + 1) prev x x acc = some (acc ++ [])
      simp [buildPathLoop]
  | succ k ih =>
      intro prev x acc hnd hok hsh hx
      have hxs : x ≠ s := by
        intro he
        subst he
        have := IsShortest_unique hsh (IsShortest_self g x)
        omega
      have hxkey : (mget prev x).isSome := by
        rcases hx with h | h
        · exact absurd h hxs
        · exact h
      obtain ⟨y, hy⟩ := Option.isSome_iff_exists.mp hxkey
      obtain ⟨hadj, k2, hys, hxs2, hpres⟩ := hok x y hy
      have hk2 : k = k2 := by
        have := IsShortest_unique hxs2 hsh
        omega
      subst hk2
      have hpres2 := hpres (le_refl _)
      have hnd2 : (mkeys (mdel prev x)).Nodup := mkeys_mdel_nodup prev x hnd
      have hok2 : PrevOkBelow g s (mdel prev x) k := by
        intro z y2 hz
        rw [mget_mdel prev x z hnd] at hz
        by_cases hzx : z = x
        · rw [if_pos hzx] at hz
          exact absurd hz (by simp)
        · rw [if_neg hzx] at hz
          obtain ⟨ha2, k3, h3, h4, h5⟩ := hok z y2 hz
          refine ⟨ha2, k3, h3, h4, ?_⟩
          intro hle
          rcases h5 (by omega) with h6 | h6
          · exact Or.inl h6
          · right
            have hy2x : y2 ≠ x := by
              intro he
              subst he
              have := IsShortest_unique h3 hsh
              omega
            rw [mget_mdel prev x y2 hnd, if_neg hy2x]
            exact h6
      have hykey : y = s ∨ (mget (mdel prev x) y).isSome := by
        rcases hpres2 with h6 | h6
        · exact Or.inl h6
        · right
          have hyx : y ≠ x := by
            intro he
            subst he
            have := IsShortest_unique hys hsh
            omega
          rw [mget_mdel prev x y hnd, if_neg hyx]
          exact h6
      have hlen : (mdel prev x).length + 1 = prev.length :=
        length_mdel_of_mem prev x hxkey
      obtain ⟨chain2, hloop2, hclen, hchain2, hlast2⟩ :=
        ih (mdel prev x) y (acc ++ [y]) hnd2 hok2 hys hykey
      refine ⟨y :: chain2, ?_, by simp [hclen], ?_, ?_⟩
      · have hstep : buildPathLoop (prev.length + 1) prev s x acc =
            buildPathLoop prev.length (mdel prev x) s y (acc ++ [y]) := by
          rw [show prev.length + 1 = prev.length + 1 from rfl]
          show (if x = s then some acc
            else match mget prev x with
              | none => none
              | some nxt =>
                  buildPathLoop prev.length (mdel prev x) s nxt (acc ++ [nxt])) = _
          rw [if_neg hxs, hy]
        rw [hstep, ← hlen, hloop2]
        simp
      · rw [List.chain'_cons]
        exact ⟨hadj, hchain2⟩
      · rw [List.getLast?_cons_cons]
        exact hlast2

theorem build_path_spec {g : Graph α} {s x : α} {prev : List (α × α)} {d : Nat}
    (hnd : (mkeys prev).Nodup) (hok : PrevOkBelow g s prev d)
    (hsh : IsShortest g s x d) (hx : x = s ∨ (mget prev x).isSome) :
    ∃ p, build_path prev s x = some p ∧ p.length = d + 1 ∧
      p.head? = some s ∧ p.getLast? = some x ∧
      List.Chain' (fun a b => b ∈ adjSet g a) p := by
  obtain ⟨chain, hloop, hclen, hchain, hlast⟩ :=
    buildPathLoop_spec d prev x [x] hnd hok hsh hx
  have hacc : ([x] ++ chain) = x :: chain := by simp
  refine ⟨(x :: chain).reverse, ?_, ?_, ?_, ?_, ?_⟩
  · unfold build_path
    rw [hloop, hacc]
    rfl
  · simp [hclen]
  · rw [List.head?_reverse]
    exact hlast
  · rw [List.getLast?_reverse]
    rfl
  · rw [List.chain'_reverse]
    exact hchain

end PathSpec

section BFSProof

variable [DecidableEq α]

theorem mget_mem {m : List (α × β)} {a : α} {b : β}
    (h : mget m a = some b) : (a, b) ∈ m := by
  induction m with
  | nil => simp [mget] at h
  | cons p rest ih =>
      obtain ⟨k, v⟩ := p
      by_cases hka : k = a
      · subst hka
        simp only [mget, if_pos rfl] at h
        simp [Option.some.inj h]
      · simp only [mget, if_neg hka] at h
        exact List.mem_cons_of_mem _ (ih h)

theorem adjVals_of_mem {g : Graph α} {u v : α} (h : v ∈ adjSet g u) :
    v ∈ adjVals g := by
  unfold adjSet at h
  cases hm : mget g.adj u with
  | none => rw [hm] at h; simp at h
  | some l =>
      rw [hm] at h
      simp only [Option.getD_some] at h
      have hmem : (u, l) ∈ g.adj := mget_mem hm
      unfold adjVals
      rw [List.mem_flatten]
      exact ⟨l, List.mem_map.mpr ⟨(u, l), hmem, rfl⟩, h⟩

/-- Loop invariant of `BFS::shortest_path_util` over the state
`(q, vis, prev)`, for source `s` and target `t`. -/
structure BInv (g : Graph α) (s t : α) (q : List (α × Nat)) (vis : List α)
    (prev : List (α × α)) : Prop where
  vis_nodup : vis.Nodup
  s_vis : s ∈ vis
  vis_sub : ∀ x, x ∈ vis → x ∈ g.nodes
  vis_carrier : ∀ x, x ∈ vis → x = s ∨ x ∈ adjVals g
  qsub : ∀ p, p ∈ q → p.1 ∈ vis
  qnodes_nodup : (q.map Prod.fst).Nodup
  qdist : ∀ p, p ∈ q → IsShortest g s p.1 p.2
  qsorted : (q.map Prod.snd).Sorted (· ≤ ·)
  qspread : ∀ p, p ∈ q → ∀ p2, p2 ∈ q → p.2 ≤ p2.2 + 1
  vis_closed : ∀ x, x ∈ vis → x ∉ q.map Prod.fst →
    ∀ y, y ∈ adjSet g x → y ∈ vis
  tvis : t ∈ vis → t ∈ q.map Prod.fst
  prev_kv : ∀ x, (mget prev x).isSome ↔ (x ∈ vis ∧ x ≠ s)
  prev_nodup : (mkeys prev).Nodup
  prev_step : ∀ x y, mget prev x = some y → x ∈ adjSet g y ∧ y ∈ vis ∧
    ∃ k, IsShortest g s y k ∧ IsShortest g s x (k + 1)

theorem BInv.prevOk {g : Graph α} {s t : α} {q : List (α × Nat)}
    {vis : List α} {prev : List (α × α)} (inv : BInv g s t q vis prev)
    (D : Nat) : PrevOkBelow g s prev D := by
  intro z y hz
  obtain ⟨hadj, hyvis, k, h1, h2⟩ := inv.prev_step z y hz
  refine ⟨hadj, k, h1, h2, fun _ => ?_⟩
  by_cases hys : y = s
  · exact Or.inl hys
  · exact Or.inr ((inv.prev_kv y).mpr ⟨hyvis, hys⟩)

theorem bfs_cross {g : Graph α} {s t : α} {q : List (α × Nat)} {vis : List α}
    {prev : List (α × α)} (inv : BInv g s t q vis prev)
    {node : α} {d : Nat} {rest : List (α × Nat)}
    (hq : q = (node, d) :: rest) :
    ∀ y m, PathTo g s y m → y ∉ vis → d + 1 ≤ m := by
  intro y m hp
  induction hp with
  | refl => intro hy; exact absurd inv.s_vis hy
  | @step u v n hpu hedge ih =>
      intro hv
      by_cases hu : u ∈ vis
      · by_cases huq : u ∈ q.map Prod.fst
        · obtain ⟨p, hpq, hpu1⟩ := List.mem_map.mp huq
          have hdu : IsShortest g s u p.2 := hpu1 ▸ inv.qdist p hpq
          have hdun : p.2 ≤ n := hdu.2 n hpu
          have hd : d ≤ p.2 := by
            rw [hq] at hpq
            rcases List.mem_cons.mp hpq with h1 | h1
            · rw [h1]
            · have hsor := inv.qsorted
              rw [hq] at hsor
              simp only [List.map_cons] at hsor
              rw [List.sorted_cons] at hsor
              exact hsor.1 p.2 (List.mem_map.mpr ⟨p, h1, rfl⟩)
          omega
        · exact absurd (inv.vis_closed u hu huq v hedge) hv
      · have := ih hu
        omega

theorem bfs_q_empty_all_vis {g : Graph α} {s t : α} {vis : List α}
    {prev : List (α × α)} (inv : BInv g s t [] vis prev) :
    ∀ y m, PathTo g s y m → y ∈ vis := by
  intro y m hp
  induction hp with
  | refl => exact inv.s_vis
  | @step u v n hpu hedge ih =>
      exact inv.vis_closed u ih (by simp) v hedge

/-- Invariant of the neighbor fold inside one BFS iteration: `node` at
distance `d` has been popped, `nsdone` of its neighbors processed, and the
state is `(q2, vis2, prev2)`; `L` fixes the growth bookkeeping. -/
structure FInv (g : Graph α) (s t node : α) (d L : Nat) (vis0 : List α)
    (nsdone : List α) (q2 : List (α × Nat)) (vis2 : List α)
    (prev2 : List (α × α)) : Prop where
  vis_pre : ∀ x, x ∈ vis0 → x ∈ vis2
  vis_nodup : vis2.Nodup
  vis_sub : ∀ x, x ∈ vis2 → x ∈ g.nodes
  vis_carrier : ∀ x, x ∈ vis2 → x = s ∨ x ∈ adjVals g
  qsub : ∀ p, p ∈ q2 → p.1 ∈ vis2
  qnodes_nodup : (q2.map Prod.fst).Nodup
  qdist : ∀ p, p ∈ q2 → IsShortest g s p.1 p.2
  qsorted : (q2.map Prod.snd).Sorted (· ≤ ·)
  qbound : ∀ p, p ∈ q2 → d ≤ p.2 ∧ p.2 ≤ d + 1
  closed : ∀ x, x ∈ vis2 → x ≠ node → x ∉ q2.map Prod.fst →
    ∀ y, y ∈ adjSet g x → y ∈ vis2
  nsdone_vis : ∀ y, y ∈ nsdone → y ∈ vis2
  tq : t ∈ vis2 → t ∈ q2.map Prod.fst
  prev_kv : ∀ x, (mget prev2 x).isSome ↔ (x ∈ vis2 ∧ x ≠ s)
  prev_nodup : (mkeys prev2).Nodup
  prev_step : ∀ x y, mget prev2 x = some y → x ∈ adjSet g y ∧ y ∈ vis2 ∧
    ∃ k, IsShortest g s y k ∧ IsShortest g s x (k + 1)
  len : q2.length + vis0.length = L + vis2.length

theorem bfs_fold_step {g : Graph α} {s t node : α} {d L : Nat}
    {vis0 nsdone : List α} {q2 : List (α × Nat)} {vis2 : List α}
    {prev2 : List (α × α)} {nb : α}
    (hw : AdjWf g)
    (inv : FInv g s t node d L vis0 nsdone q2 vis2 prev2)
    (hs0 : s ∈ vis0) (hnode0 : node ∈ vis0)
    (hnshort : IsShortest g s node d)
    (hcross : ∀ y m, PathTo g s y m → y ∉ vis0 → d + 1 ≤ m)
    (hnb : nb ∈ adjSet g node) :
    FInv g s t node d L vis0 (nsdone ++ [nb])
      (bfsVisit node d (q2, vis2, prev2) nb).1
      (bfsVisit node d (q2, vis2, prev2) nb).2.1
      (bfsVisit node d (q2, vis2, prev2) nb).2.2 := by
  by_cases hv : nb ∈ vis2
  · have heq : bfsVisit node d (q2, vis2, prev2) nb = (q2, vis2, prev2) := by
      simp [bfsVisit, hv]
    rw [heq]
    refine ⟨inv.vis_pre, inv.vis_nodup, inv.vis_sub, inv.vis_carrier,
      inv.qsub, inv.qnodes_nodup, inv.qdist, inv.qsorted, inv.qbound,
      inv.closed, ?_, inv.tq, inv.prev_kv, inv.prev_nodup, inv.prev_step,
      inv.len⟩
    intro y hy
    rcases List.mem_append.mp hy with h | h
    · exact inv.nsdone_vis y h
    · rw [List.mem_singleton.mp h]
      exact hv
  · have heq : bfsVisit node d (q2, vis2, prev2) nb =
        (q2 ++ [(nb, d + 1)], vis2 ++ [nb], mput prev2 nb node) := by
      simp [bfsVisit, hv]
    rw [heq]
    have hnbs : nb ≠ s := fun he => hv (he ▸ inv.vis_pre s hs0)
    have hnbN : nb ∈ g.nodes := hw.closed node nb hnb
    have hnbq : nb ∉ q2.map Prod.fst := by
      intro hmem
      obtain ⟨p, hp, hp1⟩ := List.mem_map.mp hmem
      exact hv (hp1 ▸ inv.qsub p hp)
    have hnbkeys : nb ∉ mkeys prev2 := by
      intro hmem
      have := (inv.prev_kv nb).mp
        ((mget_isSome_iff_mem_mkeys prev2 nb).mpr hmem)
      exact hv this.1
    have hput : mput prev2 nb node = prev2 ++ [(nb, node)] :=
      mput_append_fresh prev2 nb node hnbkeys
    have hnbshort : IsShortest g s nb (d + 1) := by
      constructor
      · exact PathTo.step hnshort.1 hnb
      · intro m hm
        exact hcross nb m hm (fun he => hv (inv.vis_pre nb he))
    refine ⟨?_, ?_, ?_, ?_, ?_, ?_, ?_, ?_, ?_, ?_, ?_, ?_, ?_, ?_, ?_, ?_⟩
    · intro x hx; exact List.mem_append.mpr (Or.inl (inv.vis_pre x hx))
    · simp [List.nodup_append, inv.vis_nodup, hv]
    · intro x hx
      rcases List.mem_append.mp hx with h | h
      · exact inv.vis_sub x h
      · rw [List.mem_singleton.mp h]; exact hnbN
    · intro x hx
      rcases List.mem_append.mp hx with h | h
      · exact inv.vis_carrier x h
      · rw [List.mem_singleton.mp h]
        exact Or.inr (adjVals_of_mem hnb)
    · intro p hp
      rcases List.mem_append.mp hp with h | h
      · exact List.mem_append.mpr (Or.inl (inv.qsub p h))
      · rw [List.mem_singleton.mp h]
        exact List.mem_append.mpr (Or.inr (by simp))
    · rw [List.map_append]
      simp only [List.map_cons, List.map_nil]
      rw [List.nodup_append]
      exact ⟨inv.qnodes_nodup, List.nodup_singleton nb,
        fun a ha hb => by
          rw [List.mem_singleton.mp hb] at ha
          exact hnbq ha⟩
    · intro p hp
      rcases List.mem_append.mp hp with h | h
      · exact inv.qdist p h
      · rw [List.mem_singleton.mp h]
        exact hnbshort
    · rw [List.map_append]
      refine List.pairwise_append.mpr ⟨inv.qsorted, by simp, ?_⟩
      intro a ha b hb
      simp only [List.map_cons, List.map_nil, List.mem_singleton] at hb
      subst hb
      obtain ⟨p, hp, hp2⟩ := List.mem_map.mp ha
      have := inv.qbound p hp
      omega
    · intro p hp
      rcases List.mem_append.mp hp with h | h
      · exact inv.qbound p h
      · rw [List.mem_singleton.mp h]
        omega
    · intro x hx hxn hxq y hy
      have hxq2 : x ∉ q2.map Prod.fst := by
        intro hm
        exact hxq (by rw [List.map_append]; exact List.mem_append.mpr (Or.inl hm))
      have hxv : x ∈ vis2 := by
        rcases List.mem_append.mp hx with h | h
        · exact h
        · exfalso
          apply hxq
          rw [List.mem_singleton.mp h, List.map_append]
          simp
      exact List.mem_append.mpr (Or.inl (inv.closed x hxv hxn hxq2 y hy))
    · intro y hy
      rcases List.mem_append.mp hy with h | h
      · exact List.mem_append.mpr (Or.inl (inv.nsdone_vis y h))
      · exact List.mem_append.mpr (Or.inr (by simp [List.mem_singleton.mp h]))
    · intro ht
      rw [List.map_append]
      rcases List.mem_append.mp ht with h | h
      · exact List.mem_append.mpr (Or.inl (inv.tq h))
      · rw [List.mem_singleton.mp h]
        simp
    · intro x
      rw [hput, mget_append]
      cases hmx : mget prev2 x with
      | some y =>
          have hx2 := (inv.prev_kv x).mp (by rw [hmx]; rfl)
          simp only [Option.isSome_some, true_iff]
          exact ⟨List.mem_append.mpr (Or.inl hx2.1), hx2.2⟩
      | none =>
          have hx2 : ¬ (x ∈ vis2 ∧ x ≠ s) := fun hc => by
            have := (inv.prev_kv x).mpr hc
            rw [hmx] at this
            simp at this
          by_cases hxnb : x = nb
          · subst hxnb
            refine ⟨fun _ => ⟨List.mem_append.mpr (Or.inr (by simp)), hnbs⟩,
              fun _ => by simp [mget]⟩
          · have hnoget : mget [(nb, node)] x = none := by
              have hne : ¬ nb = x := fun h => hxnb h.symm
              simp [mget, hne]
            rw [hnoget]
            refine ⟨fun hcon => absurd hcon (by simp), fun hc => ?_⟩
            exfalso
            rcases List.mem_append.mp hc.1 with h | h
            · exact hx2 ⟨h, hc.2⟩
            · exact hxnb (List.mem_singleton.mp h)
    · rw [hput, mkeys_append]
      rw [List.nodup_append]
      exact ⟨inv.prev_nodup, by simp [mkeys], fun a ha hb => by
        simp only [mkeys, List.map_cons, List.map_nil,
          List.mem_singleton] at hb
        exact hnbkeys (hb ▸ ha)⟩
    · intro x y hxy
      rw [hput, mget_append] at hxy
      cases hmx : mget prev2 x with
      | some y2 =>
          rw [hmx] at hxy
          obtain ⟨h1, h2, k, h3, h4⟩ := inv.prev_step x y2 hmx
          have : y2 = y := by
            have := hxy
            simp at this
            exact this
          subst this
          exact ⟨h1, List.mem_append.mpr (Or.inl h2), k, h3, h4⟩
      | none =>
          rw [hmx] at hxy
          by_cases hxnb : x = nb
          · subst hxnb
            simp only [mget, if_pos rfl] at hxy
            have hyn : y = node := by
              have := hxy
              simp at this
              exact this.symm
            subst hyn
            exact ⟨hnb, List.mem_append.mpr (Or.inl (inv.vis_pre y hnode0)),
              d, hnshort, hnbshort⟩
          · have hnoget : mget [(nb, node)] x = none := by
              have hne : ¬ nb = x := fun h => hxnb h.symm
              simp [mget, hne]
            rw [hnoget] at hxy
            exact absurd hxy (by simp)
    · have := inv.len
      simp only [List.length_append, List.length_singleton]
      omega

theorem bfs_fold {g : Graph α} {s t node : α} {d L : Nat} {vis0 : List α}
    (hw : AdjWf g) (hs0 : s ∈ vis0) (hnode0 : node ∈ vis0)
    (hnshort : IsShortest g s node d)
    (hcross : ∀ y m, PathTo g s y m → y ∉ vis0 → d + 1 ≤ m) :
    ∀ (ns nsdone : List α) (q2 : List (α × Nat)) (vis2 : List α)
      (prev2 : List (α × α)),
    FInv g s t node d L vis0 nsdone q2 vis2 prev2 →
    (∀ nb, nb ∈ ns → nb ∈ adjSet g node) →
    FInv g s t node d L vis0 (nsdone ++ ns)
      (ns.foldl (bfsVisit node d) (q2, vis2, prev2)).1
      (ns.foldl (bfsVisit node d) (q2, vis2, prev2)).2.1
      (ns.foldl (bfsVisit node d) (q2, vis2, prev2)).2.2 := by
  intro ns
  induction ns with
  | nil =>
      intro nsdone q2 vis2 prev2 inv _
      simpa using inv
  | cons nb ns2 ih =>
      intro nsdone q2 vis2 prev2 inv hmem
      have hstep := bfs_fold_step hw inv hs0 hnode0 hnshort hcross
        (hmem nb (List.mem_cons_self nb ns2))
      have hih := ih (nsdone ++ [nb])
        (bfsVisit node d (q2, vis2, prev2) nb).1
        (bfsVisit node d (q2, vis2, prev2) nb).2.1
        (bfsVisit node d (q2, vis2, prev2) nb).2.2
        hstep (fun x hx => hmem x (List.mem_cons_of_mem nb hx))
      rw [List.foldl_cons]
      simpa [List.append_assoc] using hih

theorem bfsLoop_spec {g : Graph α} {s t : α} (hw : AdjWf g) :
    ∀ (fuel : Nat) (q : List (α × Nat)) (vis : List α) (prev : List (α × α)),
    BInv g s t q vis prev →
    q.length + (adjVals g).length + 1 < fuel + vis.length →
    (¬ Reach g s t → bfsLoop g t fuel q vis prev = some none) ∧
    (∀ d, IsShortest g s t d →
      ∃ prev2, bfsLoop g t fuel q vis prev = some (some (d, prev2)) ∧
        (mkeys prev2).Nodup ∧ PrevOkBelow g s prev2 d ∧
        (t = s ∨ (mget prev2 t).isSome)) := by
  intro fuel
  induction fuel with
  | zero =>
      intro q vis prev inv hfuel
      exfalso
      have hcar : vis ⊆ s :: adjVals g := by
        intro x hx
        rcases inv.vis_carrier x hx with h | h
        · simp [h]
        · exact List.mem_cons_of_mem s h
      have := nodup_subset_length_le vis (s :: adjVals g) inv.vis_nodup hcar
      simp at this
      omega
  | succ fuel ih =>
      intro q vis prev inv hfuel
      rcases q with _ | ⟨⟨node, dn⟩, rest⟩
      · constructor
        · intro _
          rfl
        · intro d hd
          exfalso
          have ht : t ∈ vis := bfs_q_empty_all_vis inv t d hd.1
          have := inv.tvis ht
          simp at this
      · by_cases hnt : node = t
        · have hshort : IsShortest g s node dn :=
            inv.qdist (node, dn) (by simp)
          have hshortt : IsShortest g s t dn := hnt ▸ hshort
          have hstep : bfsLoop g t (fuel + 1) ((node, dn) :: rest) vis prev =
              some (some (dn, prev)) := by
            show (if node = t then some (some (dn, prev)) else _) = _
            rw [if_pos hnt]
          constructor
          · intro hnr
            exact absurd ⟨dn, hshortt.1⟩ hnr
          · intro d hd
            have hdn : d = dn := IsShortest_unique hd hshortt
            refine ⟨prev, by rw [hdn]; exact hstep, inv.prev_nodup,
              inv.prevOk d, ?_⟩
            by_cases hts : t = s
            · exact Or.inl hts
            · refine Or.inr ((inv.prev_kv t).mpr ⟨?_, hts⟩)
              have := inv.qsub (node, dn) (by simp)
              exact hnt ▸ this
        · have hnodeVis : node ∈ vis := inv.qsub (node, dn) (by simp)
          have hnodeN : node ∈ g.nodes := inv.vis_sub node hnodeVis
          obtain ⟨neighbors, hnbs⟩ :=
            Option.isSome_iff_exists.mp ((mem_nodes_iff g node).mp hnodeN)
          have hadj : adjSet g node = neighbors := by
            unfold adjSet
            rw [hnbs]
            rfl
          have hnshort : IsShortest g s node dn :=
            inv.qdist (node, dn) (by simp)
          have hcross : ∀ y m, PathTo g s y m → y ∉ vis → dn + 1 ≤ m :=
            bfs_cross inv rfl
          have hsorted2 := inv.qsorted
          simp only [List.map_cons] at hsorted2
          rw [List.sorted_cons] at hsorted2
          have finv0 : FInv g s t node dn rest.length vis [] rest vis prev := by
            refine ⟨fun x hx => hx, inv.vis_nodup, inv.vis_sub,
              inv.vis_carrier, ?_, ?_, ?_, hsorted2.2, ?_, ?_, ?_, ?_,
              inv.prev_kv, inv.prev_nodup, inv.prev_step, rfl⟩
            · intro p hp
              exact inv.qsub p (List.mem_cons_of_mem _ hp)
            · have := inv.qnodes_nodup
              simp only [List.map_cons] at this
              exact (List.nodup_cons.mp this).2
            · intro p hp
              exact inv.qdist p (List.mem_cons_of_mem _ hp)
            · intro p hp
              constructor
              · exact hsorted2.1 p.2 (List.mem_map.mpr ⟨p, hp, rfl⟩)
              · exact inv.qspread p (List.mem_cons_of_mem _ hp) (node, dn)
                  (by simp)
            · intro x hx hxn hxq y hy
              refine inv.vis_closed x hx ?_ y hy
              simp only [List.map_cons, List.mem_cons]
              push_neg
              exact ⟨hxn, hxq⟩
            · intro y hy
              exact absurd hy (List.not_mem_nil y)
            · intro ht
              have := inv.tvis ht
              simp only [List.map_cons, List.mem_cons] at this
              rcases this with h | h
              · exact absurd h.symm hnt
              · exact h
          have finv := bfs_fold hw inv.s_vis hnodeVis hnshort hcross
            neighbors [] rest vis prev finv0
            (fun nb hnb => hadj ▸ hnb)
          set st := neighbors.foldl (bfsVisit node dn) (rest, vis, prev) with hst
          have binv2 : BInv g s t st.1 st.2.1 st.2.2 := by
            refine ⟨finv.vis_nodup, finv.vis_pre s inv.s_vis, finv.vis_sub,
              finv.vis_carrier, finv.qsub, finv.qnodes_nodup, finv.qdist,
              finv.qsorted, ?_, ?_, finv.tq, finv.prev_kv, finv.prev_nodup,
              finv.prev_step⟩
            · intro p hp p2 hp2
              have h1 := finv.qbound p hp
              have h2 := finv.qbound p2 hp2
              omega
            · intro x hx hxq y hy
              by_cases hxn : x = node
              · subst hxn
                refine finv.nsdone_vis y ?_
                simp only [List.nil_append]
                exact hadj ▸ hy
              · exact finv.closed x hx hxn hxq y hy
          have hlen := finv.len
          have hfuel2 : st.1.length + (adjVals g).length + 1 <
              fuel + st.2.1.length := by
            simp only [List.length_cons] at hfuel
            omega
          have hrec := ih st.1 st.2.1 st.2.2 binv2 hfuel2
          have hstep : bfsLoop g t (fuel + 1) ((node, dn) :: rest) vis prev =
              bfsLoop g t fuel st.1 st.2.1 st.2.2 := by
            show (if node = t then some (some (dn, prev))
              else match mget g.adj node with
                | none => none
                | some neighbors =>
                    bfsLoop g t fuel
                      ((neighbors.foldl (bfsVisit node dn) (rest, vis, prev)).1)
                      ((neighbors.foldl (bfsVisit node dn) (rest, vis, prev)).2.1)
                      ((neighbors.foldl (bfsVisit node dn) (rest, vis, prev)).2.2)) = _
            rw [if_neg hnt, hnbs]
          rw [hstep]
          exact hrec

theorem BFS_correct {g : Graph α} {s t : α} (hw : AdjWf g)
    (hs : s ∈ g.nodes) :
    (¬ Reach g s t → BFS.shortest_path_util g s t = some none) ∧
    (∀ d, IsShortest g s t d →
      ∃ prev2, BFS.shortest_path_util g s t = some (some (d, prev2)) ∧
        (mkeys prev2).Nodup ∧ PrevOkBelow g s prev2 d ∧
        (t = s ∨ (mget prev2 t).isSome)) := by
  have binv : BInv g s t [(s, 0)] [s] [] := by
    refine ⟨List.nodup_singleton s, by simp, ?_, ?_, ?_, by simp, ?_,
      by simp, ?_, ?_, ?_, ?_, by simp [mkeys], ?_⟩
    · intro x hx
      rw [List.mem_singleton.mp hx]
      exact hs
    · intro x hx
      exact Or.inl (List.mem_singleton.mp hx)
    · intro p hp
      rw [List.mem_singleton.mp hp]
      simp
    · intro p hp
      rw [List.mem_singleton.mp hp]
      exact IsShortest_self g s
    · intro p hp p2 hp2
      rw [List.mem_singleton.mp hp]
      omega
    · intro x hx hxq
      exfalso
      apply hxq
      rw [List.mem_singleton.mp hx]
      simp
    · intro ht
      simpa using List.mem_singleton.mp ht
    · intro x
      constructor
      · intro h
        simp [mget] at h
      · rintro ⟨h1, h2⟩
        exact absurd (List.mem_singleton.mp h1) h2
    · intro x y hxy
      simp [mget] at hxy
  have hfuel : [(s, 0)].length + (adjVals g).length + 1 <
      (totalAdj g + 2) + [s].length := by
    have h1 : (adjVals g).length = totalAdj g := by
      unfold adjVals totalAdj
      rw [List.length_flatten]
      rw [List.map_map]
      rfl
    rw [h1]
    simp
    omega
  exact bfsLoop_spec hw (totalAdj g + 2) [(s, 0)] [s] [] binv hfuel

end BFSProof

section HeapLemmas

variable [LinearOrder α]

theorem popHeap_none_iff (l : List (DState α)) :
    popHeap l = none ↔ l = [] := by
  cases l with
  | nil => simp [popHeap]
  | cons e rest =>
      simp only [popHeap]
      cases popHeap rest with
      | none => simp
      | some p =>
          obtain ⟨m, r2⟩ := p
          by_cases hc : m.cost < e.cost ∨ (m.cost = e.cost ∧ e.node < m.node) <;>
            simp [hc]

theorem popHeap_perm {l : List (DState α)} {e : DState α}
    {r : List (DState α)} (h : popHeap l = some (e, r)) :
    l.Perm (e :: r) := by
  induction l generalizing e r with
  | nil => simp [popHeap] at h
  | cons a rest ih =>
      simp only [popHeap] at h
      cases hrest : popHeap rest with
      | none =>
          rw [hrest] at h
          have hre : rest = [] := (popHeap_none_iff rest).mp hrest
          subst hre
          obtain ⟨h1, h2⟩ := Prod.mk.inj (Option.some.inj h)
          subst h1
          subst h2
          exact List.Perm.refl _
      | some p =>
          obtain ⟨m, r2⟩ := p
          rw [hrest] at h
          have h8 : (if m.cost < a.cost ∨ (m.cost = a.cost ∧ a.node < m.node)
              then some (m, a :: r2) else some (a, rest)) = some (e, r) := h
          by_cases hc : m.cost < a.cost ∨ (m.cost = a.cost ∧ a.node < m.node)
          · rw [if_pos hc] at h8
            obtain ⟨h1, h2⟩ := Prod.mk.inj (Option.some.inj h8)
            subst h2
            rw [← h1]
            exact ((ih hrest).cons a).trans (List.Perm.swap m a r2)
          · rw [if_neg hc] at h8
            obtain ⟨h1, h2⟩ := Prod.mk.inj (Option.some.inj h8)
            subst h1
            subst h2
            exact List.Perm.refl _

theorem popHeap_min {l : List (DState α)} {e : DState α}
    {r : List (DState α)} (h : popHeap l = some (e, r)) :
    ∀ e2, e2 ∈ l → e.cost ≤ e2.cost := by
  induction l generalizing e r with
  | nil => simp [popHeap] at h
  | cons a rest ih =>
      simp only [popHeap] at h
      cases hrest : popHeap rest with
      | none =>
          rw [hrest] at h
          have hre : rest = [] := (popHeap_none_iff rest).mp hrest
          subst hre
          obtain ⟨h1, _⟩ := Prod.mk.inj (Option.some.inj h)
          intro e2 he2
          simp only [List.mem_singleton] at he2
          rw [he2, ← h1]
      | some p =>
          obtain ⟨m, r2⟩ := p
          rw [hrest] at h
          have h8 : (if m.cost < a.cost ∨ (m.cost = a.cost ∧ a.node < m.node)
              then some (m, a :: r2) else some (a, rest)) = some (e, r) := h
          by_cases hc : m.cost < a.cost ∨ (m.cost = a.cost ∧ a.node < m.node)
          · rw [if_pos hc] at h8
            obtain ⟨h1, _⟩ := Prod.mk.inj (Option.some.inj h8)
            intro e2 he2
            rw [← h1]
            rcases List.mem_cons.mp he2 with h2 | h2
            · rw [h2]
              rcases hc with h3 | h3
              · exact Nat.le_of_lt h3
              · exact Nat.le_of_eq h3.1
            · exact ih hrest e2 h2
          · rw [if_neg hc] at h8
            obtain ⟨h1, _⟩ := Prod.mk.inj (Option.some.inj h8)
            intro e2 he2
            push_neg at hc
            rw [← h1]
            rcases List.mem_cons.mp he2 with h2 | h2
            · rw [h2]
            · have h5 := ih hrest e2 h2
              have h6 := hc.1
              omega

end HeapLemmas

section Shortening

variable [DecidableEq α]

theorem exists_dup_split (l : List α) (h : ¬ l.Nodup) :
    ∃ x l1 l2 l3, l = l1 ++ x :: (l2 ++ x :: l3) := by
  induction l with
  | nil => exact absurd List.nodup_nil h
  | cons a rest ih =>
      by_cases ha : a ∈ rest
      · obtain ⟨l2, l3, hsplit⟩ := List.append_of_mem ha
        exact ⟨a, [], l2, l3, by rw [hsplit]; rfl⟩
      · have hrest : ¬ rest.Nodup := fun hn => h (List.nodup_cons.mpr ⟨ha, hn⟩)
        obtain ⟨x, l1, l2, l3, hsplit⟩ := ih hrest
        exact ⟨x, a :: l1, l2, l3, by rw [hsplit]; rfl⟩

theorem getLast?_append_right (l1 l2 : List α) (h : l2 ≠ []) :
    (l1 ++ l2).getLast? = l2.getLast? := by
  induction l1 with
  | nil => rfl
  | cons a rest ih =>
      rw [List.cons_append]
      cases hrl : rest ++ l2 with
      | nil => exact absurd (List.append_eq_nil.mp hrl).2 h
      | cons b t =>
          rw [hrl] at ih
          rw [List.getLast?_cons_cons]
          exact ih

theorem pathTo_walkList {g : Graph α} {s v : α} {m : Nat}
    (h : PathTo g s v m) :
    ∃ l : List α, List.Chain' (fun a b => b ∈ adjSet g a) l ∧
      l.head? = some s ∧ l.getLast? = some v ∧ l.length = m + 1 := by
  induction h with
  | refl => exact ⟨[s], by simp, by simp, by simp, by simp⟩
  | @step u w n hpu hedge ih =>
      obtain ⟨l, hc, hh, hl, hlen⟩ := ih
      have hlne : l ≠ [] := by
        intro he
        rw [he] at hh
        simp at hh
      refine ⟨l ++ [w], ?_, ?_, ?_, ?_⟩
      · rw [List.chain'_append]
        refine ⟨hc, List.chain'_singleton w, ?_⟩
        intro a ha b hb
        rw [Option.mem_def, hl] at ha
        rw [Option.mem_def, List.head?_cons] at hb
        have ha2 : a = u := (Option.some.inj ha).symm
        have hb2 : b = w := (Option.some.inj hb).symm
        rw [ha2, hb2]
        exact hedge
      · cases l with
        | nil => exact absurd rfl hlne
        | cons x xs => simpa using hh
      · rw [getLast?_append_right l [w] (by simp)]
        rfl
      · simp [hlen]

theorem walkList_pathTo {g : Graph α} :
    ∀ (n : Nat) (l : List α) (s v : α), l.length = n →
      List.Chain' (fun a b => b ∈ adjSet g a) l →
      l.head? = some s → l.getLast? = some v → PathTo g s v (n - 1) := by
  intro n
  induction n with
  | zero =>
      intro l s v hlen
      rw [List.length_eq_zero] at hlen
      subst hlen
      intro _ hh
      simp at hh
  | succ k ih =>
      intro l s v hlen hc hh hl
      rcases List.eq_nil_or_concat l with he | ⟨l2, a, he⟩
      · subst he
        simp at hh
      · subst he
        rw [List.concat_eq_append] at hc hh hl hlen
        have hva : v = a := by
          rw [getLast?_append_right l2 [a] (by simp)] at hl
          simpa using hl.symm
        subst hva
        cases l2 with
        | nil =>
            have hsv : v = s := by simpa using hh
            subst hsv
            simp at hlen
            rw [hlen]
            exact PathTo.refl
        | cons x xs =>
            rw [List.chain'_append] at hc
            have hu : ((x :: xs).getLast?).isSome := by
              rw [List.getLast?_isSome]
              simp
            obtain ⟨u, hu2⟩ := Option.isSome_iff_exists.mp hu
            have hedge : v ∈ adjSet g u := by
              have := hc.2.2 u (by rw [Option.mem_def]; exact hu2) v
                (by rw [Option.mem_def]; rfl)
              exact this
            have hlen2 : (x :: xs).length = k := by
              simp at hlen ⊢
              omega
            have hhs : (x :: xs).head? = some s := by simpa using hh
            have hp := ih (x :: xs) s u hlen2 hc.1 hhs hu2
            have hk : 1 ≤ k := by
              simp at hlen2
              omega
            have hres := PathTo.step hp hedge
            have harith : k - 1 + 1 = k + 1 - 1 := by omega
            rw [harith] at hres
            exact hres

theorem walk_nodes_mem {g : Graph α} (hw : AdjWf g) :
    ∀ (l : List α) (s : α), List.Chain' (fun a b => b ∈ adjSet g a) l →
      l.head? = some s → s ∈ g.nodes → ∀ x, x ∈ l → x ∈ g.nodes := by
  intro l
  induction l with
  | nil => simp
  | cons a rest ih =>
      intro s hc hh hs x hx
      have has : a = s := by simpa using hh
      subst has
      rcases List.mem_cons.mp hx with h | h
      · rw [h]
        exact hs
      · cases rest with
        | nil => simp at h
        | cons b rest2 =>
            rw [List.chain'_cons] at hc
            have hb : b ∈ g.nodes := hw.closed a b hc.1
            exact ih b hc.2 (by simp) hb x h

/-- Every shortest hop distance in a well-formed graph is bounded by the
node count: a longer walk must repeat a node and can be spliced shorter. -/
theorem shortest_lt_card {g : Graph α} {s v : α} {d : Nat}
    (hw : AdjWf g) (hs : s ∈ g.nodes) (h : IsShortest g s v d) :
    d < g.nodes.length := by
  by_contra hge
  push_neg at hge
  obtain ⟨l, hc, hh, hl, hlen⟩ := pathTo_walkList h.1
  have hsub : ∀ x, x ∈ l → x ∈ g.nodes := walk_nodes_mem hw l s hc hh hs
  have hnotnd : ¬ l.Nodup := by
    intro hnodup
    have := nodup_subset_length_le l g.nodes hnodup (fun x hx => hsub x hx)
    omega
  obtain ⟨x, l1, l2, l3, hsplit⟩ := exists_dup_split l hnotnd
  subst hsplit
  rw [List.chain'_append] at hc
  have hxmid : x :: (l2 ++ x :: l3) = (x :: l2) ++ (x :: l3) := by simp
  have hc3 : List.Chain' (fun a b => b ∈ adjSet g a) (x :: l3) := by
    have := hc.2.1
    rw [hxmid, List.chain'_append] at this
    exact this.2.1
  have hc2 : List.Chain' (fun a b => b ∈ adjSet g a) (l1 ++ x :: l3) := by
    rw [List.chain'_append]
    refine ⟨hc.1, hc3, ?_⟩
    intro a ha b hb
    rw [Option.mem_def, List.head?_cons] at hb
    have hb2 : b = x := (Option.some.inj hb).symm
    rw [hb2]
    exact hc.2.2 a ha x (by rw [Option.mem_def]; rfl)
  have hh2 : (l1 ++ x :: l3).head? = some s := by
    cases l1 with
    | nil => simpa using hh
    | cons y ys => simpa using hh
  have hl2 : (l1 ++ x :: l3).getLast? = some v := by
    rw [getLast?_append_right l1 (x :: l3) (by simp)]
    rw [getLast?_append_right l1 (x :: (l2 ++ x :: l3)) (by simp)] at hl
    rw [hxmid, getLast?_append_right (x :: l2) (x :: l3) (by simp)] at hl
    exact hl
  have hp2 := walkList_pathTo (l1 ++ x :: l3).length (l1 ++ x :: l3) s v rfl
    hc2 hh2 hl2
  have hmin := h.2 _ hp2
  simp only [List.length_append, List.length_cons] at hlen hmin
  omega

end Shortening

section DijkstraHelpers

variable [DecidableEq α]

theorem usizeMax_pos : 0 < usizeMax := by norm_num [usizeMax]

theorem mget_of_mem_nodup {m : List (α × β)} {a : α} {b : β}
    (hnd : (mkeys m).Nodup) (h : (a, b) ∈ m) : mget m a = some b := by
  induction m with
  | nil => simp at h
  | cons p rest ih =>
      obtain ⟨k, v⟩ := p
      have hnd2 : (k :: mkeys rest).Nodup := hnd
      rw [List.nodup_cons] at hnd2
      rcases List.mem_cons.mp h with h2 | h2
      · obtain ⟨h3, h4⟩ := Prod.mk.inj h2
        simp [mget, h3, h4]
      · have hak : a ∈ mkeys rest := by
          unfold mkeys
          exact List.mem_map_of_mem Prod.fst h2
        have hka : ¬ k = a := fun he => hnd2.1 (he ▸ hak)
        simp only [mget, if_neg hka]
        exact ih hnd2.2 h2

theorem mkeys_mput_nodup (m : List (α × β)) (a : α) (b : β)
    (h : (mkeys m).Nodup) : (mkeys (mput m a b)).Nodup := by
  rw [mkeys_mput]
  by_cases ha : a ∈ mkeys m
  · rw [if_pos ha]
    exact h
  · rw [if_neg ha]
    rw [List.nodup_append]
    exact ⟨h, List.nodup_singleton a,
      fun x hx hx2 => ha ((List.mem_singleton.mp hx2) ▸ hx)⟩

theorem sum_adjLen_nodes {g : Graph α} (hnd : g.nodes.Nodup) :
    (g.nodes.map (fun u => (adjSet g u).length)).sum = totalAdj g := by
  unfold totalAdj
  show ((g.adj.map Prod.fst).map (fun u => (adjSet g u).length)).sum = _
  rw [List.map_map]
  congr 1
  apply List.map_congr_left
  intro p hp
  obtain ⟨x, vs⟩ := p
  have hget : mget g.adj x = some vs := mget_of_mem_nodup hnd hp
  simp [Function.comp, adjSet, hget]

/-- Total length of adjacency lists of the not-yet-processed nodes: the
strictly decreasing fuel measure of the Dijkstra loop. -/
def remAdj (g : Graph α) (proc : List α) : Nat :=
  ((g.nodes.filter (fun u => decide (u ∉ proc))).map
    (fun u => (adjSet g u).length)).sum

theorem remAdj_nil {g : Graph α} (hnd : g.nodes.Nodup) :
    remAdj g [] = totalAdj g := by
  unfold remAdj
  rw [show (g.nodes.filter (fun u => decide (u ∉ ([] : List α)))) = g.nodes
    from by simp]
  exact sum_adjLen_nodes hnd

theorem filter_congr_mem {l : List α} {p q : α → Bool}
    (h : ∀ a, a ∈ l → p a = q a) : l.filter p = l.filter q := by
  induction l with
  | nil => rfl
  | cons a rest ih =>
      rw [List.filter_cons, List.filter_cons, h a (List.mem_cons_self a rest),
        ih (fun x hx => h x (List.mem_cons_of_mem a hx))]

theorem filter_sum_extract {l : List α} (f : α → Nat) (p q : α → Bool) {v : α}
    (hnd : l.Nodup) (hv : v ∈ l) (hpv : p v = true) (hqv : ¬ q v = true)
    (hpq : ∀ u, u ≠ v → p u = q u) :
    ((l.filter p).map f).sum = f v + ((l.filter q).map f).sum := by
  induction l with
  | nil => simp at hv
  | cons a rest ih =>
      rw [List.nodup_cons] at hnd
      rcases List.mem_cons.mp hv with h | h
      · subst h
        rw [List.filter_cons, List.filter_cons, if_pos hpv, if_neg hqv]
        simp only [List.map_cons, List.sum_cons]
        congr 1
        rw [filter_congr_mem (fun u hu => hpq u (fun he => hnd.1 (he ▸ hu)))]
      · have hav : a ≠ v := fun he => hnd.1 (he ▸ h)
        rw [List.filter_cons, List.filter_cons, hpq a hav]
        by_cases hqa : q a = true
        · rw [if_pos hqa, if_pos hqa]
          simp only [List.map_cons, List.sum_cons]
          rw [ih hnd.2 h]
          omega
        · rw [if_neg hqa, if_neg hqa]
          exact ih hnd.2 h

theorem remAdj_cons {g : Graph α} {proc : List α} {v : α}
    (hnd : g.nodes.Nodup) (hv : v ∈ g.nodes) (hvp : v ∉ proc) :
    remAdj g proc = (adjSet g v).length + remAdj g (v :: proc) := by
  unfold remAdj
  apply filter_sum_extract _ _ _ hnd hv
  · simp [hvp]
  · simp
  · intro u hu
    rw [decide_eq_decide]
    simp [List.mem_cons, hu]

theorem mget_const_map (l : List α) (c : β) (x : α) :
    mget (l.map (fun y => (y, c))) x = if x ∈ l then some c else none := by
  induction l with
  | nil => simp [mget]
  | cons a rest ih =>
      simp only [List.map_cons, mget]
      by_cases hax : a = x
      · rw [if_pos hax, if_pos (by rw [← hax]; exact List.mem_cons_self a rest)]
      · rw [if_neg hax, ih]
        by_cases hxr : x ∈ rest
        · rw [if_pos hxr, if_pos (List.mem_cons_of_mem a hxr)]
        · rw [if_neg hxr, if_neg (by
            intro hx
            rcases List.mem_cons.mp hx with h2 | h2
            · exact hax h2.symm
            · exact hxr h2)]

theorem mkeys_const_map (l : List α) (c : β) :
    mkeys (l.map (fun y => (y, c))) = l := by
  unfold mkeys
  rw [List.map_map]
  have hid : (Prod.fst ∘ fun y => (y, c) : α → α) = id := rfl
  rw [hid, List.map_id]

end DijkstraHelpers

/-- A predecessor chain inside a Dijkstra `previous` map: entries walk from
`x` back to the source `s` along edges whose endpoints carry their exact
shortest distances. -/
inductive PChain [DecidableEq α] (g : Graph α) (s : α)
    (prev : List (α × α)) : α → Nat → Prop
  | base : PChain g s prev s 0
  | step {x y : α} {k : Nat} : mget prev x = some y → x ∈ adjSet g y →
      IsShortest g s y k → IsShortest g s x (k + 1) →
      PChain g s prev y k → PChain g s prev x (k + 1)

section PChainWalk

variable [DecidableEq α]

theorem PChain_mdel {g : Graph α} {s : α} {prev : List (α × α)}
    (hnd : (mkeys prev).Nodup) {w : α} {D : Nat} (hw : IsShortest g s w D) :
    ∀ {y : α} {k : Nat}, PChain g s prev y k → k < D →
      PChain g s (mdel prev w) y k := by
  intro y k hch
  induction hch with
  | base => intro _; exact PChain.base
  | @step x y2 k2 hget hadj hys hxs hch2 ih =>
      intro hlt
      have hxw : x ≠ w := by
        intro he
        subst he
        have := IsShortest_unique hxs hw
        omega
      refine PChain.step ?_ hadj hys hxs (ih (by omega))
      rw [mget_mdel prev w x hnd, if_neg hxw]
      exact hget

theorem buildPathLoopD_spec {g : Graph α} {s : α} :
    ∀ (d : Nat) (prev : List (α × α)) (x : α) (acc : List α),
    (mkeys prev).Nodup → PChain g s prev x d →
    ∃ chain, buildPathLoop (prev.length + 1) prev s x acc = some (acc ++ chain) ∧
      chain.length = d ∧
      List.Chain' (fun a b => a ∈ adjSet g b) (x :: chain) ∧
      (x :: chain).getLast? = some s := by
  intro d
  induction d with
  | zero =>
      intro prev x acc hnd hch
      have hxs : x = s := by cases hch; rfl
      subst hxs
      refine ⟨[], ?_, rfl, by simp, by simp⟩
      show buildPathLoop (prev.length + 1) prev x x acc = some (acc ++ [])
      simp [buildPathLoop]
  | succ k ih =>
      intro prev x acc hnd hch
      cases hch with
      | @step _ y _ hget hadj hys hxs hch2 =>
          have hxns : x ≠ s := by
            intro he
            subst he
            have := IsShortest_unique hxs (IsShortest_self g x)
            omega
          have hnd2 := mkeys_mdel_nodup prev x hnd
          have hch3 : PChain g s (mdel prev x) y k :=
            PChain_mdel hnd hxs hch2 (by omega)
          have hlen : (mdel prev x).length + 1 = prev.length :=
            length_mdel_of_mem prev x (by rw [hget]; rfl)
          obtain ⟨chain2, hloop2, hclen, hchain2, hlast2⟩ :=
            ih (mdel prev x) y (acc ++ [y]) hnd2 hch3
          refine ⟨y :: chain2, ?_, by simp [hclen], ?_, ?_⟩
          · have hstep : buildPathLoop (prev.length + 1) prev s x acc =
                buildPathLoop prev.length (mdel prev x) s y (acc ++ [y]) := by
              show (if x = s then some acc
                else match mget prev x with
                  | none => none
                  | some nxt =>
                      buildPathLoop prev.length (mdel prev x) s nxt
                        (acc ++ [nxt])) = _
              rw [if_neg hxns, hget]
            rw [hstep, ← hlen, hloop2]
            simp
          · rw [List.chain'_cons]
            exact ⟨hadj, hchain2⟩
          · rw [List.getLast?_cons_cons]
            exact hlast2

theorem build_pathD_spec {g : Graph α} {s x : α} {prev : List (α × α)}
    {d : Nat} (hnd : (mkeys prev).Nodup) (hch : PChain g s prev x d) :
    ∃ p, build_path prev s x = some p ∧ p.length = d + 1 ∧
      p.head? = some s ∧ p.getLast? = some x ∧
      List.Chain' (fun a b => b ∈ adjSet g a) p := by
  obtain ⟨chain, hloop, hclen, hchain, hlast⟩ :=
    buildPathLoopD_spec d prev x [x] hnd hch
  have hacc : ([x] ++ chain) = x :: chain := by simp
  refine ⟨(x :: chain).reverse, ?_, ?_, ?_, ?_, ?_⟩
  · unfold build_path
    rw [hloop, hacc]
    rfl
  · simp [hclen]
  · rw [List.head?_reverse]
    exact hlast
  · rw [List.getLast?_reverse]
    rfl
  · rw [List.chain'_reverse]
    exact hchain

end PChainWalk

section DijkstraProof

variable [LinearOrder α]

theorem DState_eq {e f : DState α} (h1 : e.cost = f.cost)
    (h2 : e.node = f.node) : e = f := by
  cases e
  cases f
  simp only at h1 h2
  rw [h1, h2]

/-- The Dijkstra loop-head invariant over `(heap, dist, prev)` with ghost
processed set `proc`: processed nodes carry exact shortest distances with all
their edges relaxed, finite distances are witnessed by real walks and by a
live heap entry while unprocessed, heap entries never undercut stored
distances, and `prev` records a processed parent one hop closer for every
discovered node. -/
structure DInv (g : Graph α) (s t : α) (heap : List (DState α))
    (dist : List (α × Nat)) (prev : List (α × α)) (proc : List α) : Prop where
  dist_keys : ∀ x, (mget dist x).isSome ↔ x ∈ g.nodes
  dist_nodup : (mkeys dist).Nodup
  dist_le : ∀ x dx, mget dist x = some dx → dx ≤ usizeMax
  prev_nodup : (mkeys prev).Nodup
  proc_mem : ∀ u, u ∈ proc → u ∈ g.nodes
  settled : ∀ u, u ∈ proc → ∃ du, mget dist u = some du ∧ IsShortest g s u du
  relaxed : ∀ u, u ∈ proc → ∀ w, w ∈ adjSet g u → ∀ du dw,
      mget dist u = some du → mget dist w = some dw → dw ≤ du + 1
  upper : ∀ x dx, mget dist x = some dx → dx < usizeMax → PathTo g s x dx
  active : ∀ x, x ∉ proc → ∀ dx, mget dist x = some dx → dx < usizeMax →
      ∃ e, e ∈ heap ∧ e.node = x ∧ e.cost = dx
  heap_sound : ∀ e, e ∈ heap → ∃ dx, mget dist e.node = some dx ∧
      dx ≤ e.cost ∧ dx < usizeMax ∧ (e.node ∈ proc → dx < e.cost)
  heap_nodup : heap.Nodup
  heap_lb : ∀ u, u ∈ proc → ∀ du, mget dist u = some du → ∀ e, e ∈ heap →
      du ≤ e.cost
  src_zero : mget dist s = some 0
  t_not_proc : t ∉ proc
  prev_sound : ∀ x dx, mget dist x = some dx → dx < usizeMax → x ≠ s →
      ∃ y, mget prev x = some y ∧ x ∈ adjSet g y ∧ y ∈ proc ∧
        ∃ k, IsShortest g s y k ∧ dx = k + 1

/-- The mid-relaxation invariant while the popped node `v` (of exact
shortest distance `c`) walks its adjacency list; `done` is the prefix of
neighbors already relaxed, and `proc` already contains `v`. -/
structure RInv (g : Graph α) (s t v : α) (c : Nat) (done : List α)
    (heap : List (DState α)) (dist : List (α × Nat)) (prev : List (α × α))
    (proc : List α) : Prop where
  dist_keys : ∀ x, (mget dist x).isSome ↔ x ∈ g.nodes
  dist_nodup : (mkeys dist).Nodup
  dist_le : ∀ x dx, mget dist x = some dx → dx ≤ usizeMax
  prev_nodup : (mkeys prev).Nodup
  proc_mem : ∀ u, u ∈ proc → u ∈ g.nodes
  settled : ∀ u, u ∈ proc → ∃ du, mget dist u = some du ∧ IsShortest g s u du
  relaxed_old : ∀ u, u ∈ proc → u ≠ v → ∀ w, w ∈ adjSet g u → ∀ du dw,
      mget dist u = some du → mget dist w = some dw → dw ≤ du + 1
  relaxed_done : ∀ w, w ∈ done → ∀ dw, mget dist w = some dw → dw ≤ c + 1
  upper : ∀ x dx, mget dist x = some dx → dx < usizeMax → PathTo g s x dx
  active : ∀ x, x ∉ proc → ∀ dx, mget dist x = some dx → dx < usizeMax →
      ∃ e, e ∈ heap ∧ e.node = x ∧ e.cost = dx
  heap_sound : ∀ e, e ∈ heap → ∃ dx, mget dist e.node = some dx ∧
      dx ≤ e.cost ∧ dx < usizeMax ∧ (e.node ∈ proc → dx < e.cost)
  heap_nodup : heap.Nodup
  heap_lb : ∀ u, u ∈ proc → ∀ du, mget dist u = some du → ∀ e, e ∈ heap →
      du ≤ e.cost
  src_zero : mget dist s = some 0
  t_not_proc : t ∉ proc
  prev_sound : ∀ x dx, mget dist x = some dx → dx < usizeMax → x ≠ s →
      ∃ y, mget prev x = some y ∧ x ∈ adjSet g y ∧ y ∈ proc ∧
        ∃ k, IsShortest g s y k ∧ dx = k + 1
  hv_proc : v ∈ proc
  hv_dist : mget dist v = some c
  proc_le_c : ∀ u, u ∈ proc → ∀ du, mget dist u = some du → du ≤ c

/-- Minimality half of the pop exactness: every walk to a node not yet
processed costs at least the cost just popped from the heap. -/
theorem dijkstra_cross {g : Graph α} {s t : α} {heap heap2 : List (DState α)}
    {dist : List (α × Nat)} {prev : List (α × α)} {proc : List α}
    {st : DState α} (hw : AdjWf g) (hs : s ∈ g.nodes)
    (hN : g.nodes.length < usizeMax)
    (inv : DInv g s t heap dist prev proc)
    (hpop : popHeap heap = some (st, heap2)) :
    ∀ v m, PathTo g s v m → v ∉ proc → st.cost ≤ m := by
  intro v m hp
  induction hp with
  | refl =>
      intro hsp
      obtain ⟨e, he, _, hec⟩ := inv.active s hsp 0 inv.src_zero usizeMax_pos
      have hmin := popHeap_min hpop e he
      omega
  | @step u w n hpu hedge ih =>
      intro hwp
      by_cases hup : u ∈ proc
      · obtain ⟨du, hdu, hdus⟩ := inv.settled u hup
        have hdun : du ≤ n := hdus.2 n hpu
        have hwN : w ∈ g.nodes := hw.closed u w hedge
        obtain ⟨dw, hdw⟩ :=
          Option.isSome_iff_exists.mp ((inv.dist_keys w).mpr hwN)
        have hle : dw ≤ du + 1 := inv.relaxed u hup w hedge du dw hdu hdw
        have hduB : du < g.nodes.length := shortest_lt_card hw hs hdus
        have hdwM : dw < usizeMax := by omega
        obtain ⟨e, he, _, hec⟩ := inv.active w hwp dw hdw hdwM
        have hmin := popHeap_min hpop e he
        omega
      · exact Nat.le_trans (ih hup) (Nat.le_succ n)

/-- When the heap has drained, every reachable node has been processed. -/
theorem dijkstra_empty_all_proc {g : Graph α} {s t : α}
    {dist : List (α × Nat)} {prev : List (α × α)} {proc : List α}
    (hw : AdjWf g) (hs : s ∈ g.nodes) (hN : g.nodes.length < usizeMax)
    (inv : DInv g s t [] dist prev proc) :
    ∀ v m, PathTo g s v m → v ∈ proc := by
  intro v m hp
  induction hp with
  | refl =>
      by_contra hsp
      obtain ⟨e, he, _, _⟩ := inv.active s hsp 0 inv.src_zero usizeMax_pos
      simp at he
  | @step u w n hpu hedge ih =>
      by_contra hwp
      obtain ⟨du, hdu, hdus⟩ := inv.settled u ih
      have hwN : w ∈ g.nodes := hw.closed u w hedge
      obtain ⟨dw, hdw⟩ :=
        Option.isSome_iff_exists.mp ((inv.dist_keys w).mpr hwN)
      have hle : dw ≤ du + 1 := inv.relaxed u ih w hedge du dw hdu hdw
      have hduB : du < g.nodes.length := shortest_lt_card hw hs hdus
      have hdwM : dw < usizeMax := by omega
      obtain ⟨e, he, _, _⟩ := inv.active w hwp dw hdw hdwM
      simp at he

/-- Every processed node has a full predecessor chain in `prev`. -/
theorem chain_of_settled {g : Graph α} {s t : α} {heap : List (DState α)}
    {dist : List (α × Nat)} {prev : List (α × α)} {proc : List α}
    (hw : AdjWf g) (hs : s ∈ g.nodes) (hN : g.nodes.length < usizeMax)
    (inv : DInv g s t heap dist prev proc) :
    ∀ (n : Nat) (u : α), u ∈ proc → IsShortest g s u n →
      PChain g s prev u n := by
  intro n
  induction n using Nat.strong_induction_on with
  | _ n ihn =>
      intro u hu hun
      cases n with
      | zero =>
          have h0 : u = s := PathTo_zero hun.1
          subst h0
          exact PChain.base
      | succ k =>
          have hus : u ≠ s := by
            intro he
            rw [he] at hun
            have := IsShortest_unique hun (IsShortest_self g s)
            omega
          obtain ⟨du, hdu, hdus⟩ := inv.settled u hu
          have hdk : du = k + 1 := IsShortest_unique hdus hun
          have hduM : du < usizeMax := by
            have := shortest_lt_card hw hs hdus
            omega
          obtain ⟨y, hy, hadj, hyp, k2, hyk, hk2⟩ :=
            inv.prev_sound u du hdu hduM hus
          have hk2e : k2 = k := by omega
          subst hk2e
          exact PChain.step hy hadj hyk (hdk ▸ hdus)
            (ihn k2 (by omega) y hyp hyk)

/-- Popping a stale entry preserves the loop invariant. -/
theorem DInv_stale {g : Graph α} {s t : α} {heap heap2 : List (DState α)}
    {dist : List (α × Nat)} {prev : List (α × α)} {proc : List α}
    {st : DState α} {dn : Nat}
    (inv : DInv g s t heap dist prev proc)
    (hpop : popHeap heap = some (st, heap2))
    (hdn : mget dist st.node = some dn) (hst : dn < st.cost) :
    DInv g s t heap2 dist prev proc := by
  have hperm := popHeap_perm hpop
  have hmem2 : ∀ e, e ∈ heap2 → e ∈ heap := by
    intro e he
    exact hperm.mem_iff.mpr (List.mem_cons_of_mem st he)
  have hnd : (st :: heap2).Nodup := hperm.nodup inv.heap_nodup
  refine ⟨inv.dist_keys, inv.dist_nodup, inv.dist_le, inv.prev_nodup,
    inv.proc_mem, inv.settled, inv.relaxed, inv.upper, ?_,
    fun e he => inv.heap_sound e (hmem2 e he),
    (List.nodup_cons.mp hnd).2,
    fun u hu du hdu e he => inv.heap_lb u hu du hdu e (hmem2 e he),
    inv.src_zero, inv.t_not_proc, inv.prev_sound⟩
  intro x hxp dx hdx hdxM
  obtain ⟨e, he, hen, hec⟩ := inv.active x hxp dx hdx hdxM
  have hest : e ≠ st := by
    intro heq
    subst heq
    rw [hen] at hdn
    rw [hdx] at hdn
    have := Option.some.inj hdn
    omega
  refine ⟨e, ?_, hen, hec⟩
  rcases List.mem_cons.mp (hperm.mem_iff.mp he) with h | h
  · exact absurd h hest
  · exact h

/-- After a non-stale pop of `st` with proven exact distance, the relaxation
invariant holds with empty `done` prefix and `st.node` freshly processed. -/
theorem DInv_to_RInv {g : Graph α} {s t : α} {heap heap2 : List (DState α)}
    {dist : List (α × Nat)} {prev : List (α × α)} {proc : List α}
    {st : DState α}
    (inv : DInv g s t heap dist prev proc)
    (hpop : popHeap heap = some (st, heap2))
    (hdn : mget dist st.node = some st.cost)
    (hshort : IsShortest g s st.node st.cost)
    (hnt : st.node ≠ t) :
    RInv g s t st.node st.cost [] heap2 dist prev (st.node :: proc) := by
  have hperm := popHeap_perm hpop
  have hmem2 : ∀ e, e ∈ heap2 → e ∈ heap := by
    intro e he
    exact hperm.mem_iff.mpr (List.mem_cons_of_mem st he)
  have hndc : (st :: heap2).Nodup := hperm.nodup inv.heap_nodup
  have hsth : st ∈ heap := hperm.mem_iff.mpr (List.mem_cons_self st heap2)
  have hvN : st.node ∈ g.nodes := by
    rw [← inv.dist_keys st.node, hdn]
    rfl
  refine ⟨inv.dist_keys, inv.dist_nodup, inv.dist_le, inv.prev_nodup,
    ?_, ?_, ?_, ?_, inv.upper, ?_, ?_, (List.nodup_cons.mp hndc).2,
    ?_, inv.src_zero, ?_, ?_, List.mem_cons_self st.node proc, hdn, ?_⟩
  · intro u hu
    rcases List.mem_cons.mp hu with h | h
    · rw [h]
      exact hvN
    · exact inv.proc_mem u h
  · intro u hu
    rcases List.mem_cons.mp hu with h | h
    · exact ⟨st.cost, h ▸ hdn, h ▸ hshort⟩
    · exact inv.settled u h
  · intro u hu huv w hww du dw hdu hdw
    rcases List.mem_cons.mp hu with h | h
    · exact absurd h huv
    · exact inv.relaxed u h w hww du dw hdu hdw
  · intro w hww
    simp at hww
  · intro x hxp dx hdx hdxM
    have hxv : x ≠ st.node := fun he => hxp (he ▸ List.mem_cons_self st.node proc)
    have hxpo : x ∉ proc := fun h2 => hxp (List.mem_cons_of_mem st.node h2)
    obtain ⟨e, he, hen, hec⟩ := inv.active x hxpo dx hdx hdxM
    have hest : e ≠ st := by
      intro heq
      rw [heq] at hen
      exact hxv hen.symm
    refine ⟨e, ?_, hen, hec⟩
    rcases List.mem_cons.mp (hperm.mem_iff.mp he) with h | h
    · exact absurd h hest
    · exact h
  · intro e he
    obtain ⟨dx, hdx, hdxc, hdxM, hproc⟩ := inv.heap_sound e (hmem2 e he)
    refine ⟨dx, hdx, hdxc, hdxM, ?_⟩
    intro hem
    rcases List.mem_cons.mp hem with h | h
    · have hdxc2 : dx = st.cost := by
        rw [h] at hdx
        rw [hdn] at hdx
        exact (Option.some.inj hdx).symm
      rcases Nat.lt_or_ge dx e.cost with h2 | h2
      · exact h2
      · exfalso
        have hece : e.cost = dx := by omega
        have : e = st := DState_eq (by omega) h
        rw [this] at he
        exact (List.nodup_cons.mp hndc).1 he
    · exact hproc h
  · intro u hu du hdu e he
    rcases List.mem_cons.mp hu with h | h
    · have : du = st.cost := by
        rw [h] at hdu
        rw [hdn] at hdu
        exact (Option.some.inj hdu).symm
      rw [this]
      exact popHeap_min hpop e (hmem2 e he)
    · exact inv.heap_lb u h du hdu e (hmem2 e he)
  · intro hmem
    rcases List.mem_cons.mp hmem with h | h
    · exact hnt h.symm
    · exact inv.t_not_proc h
  · intro x dx hdx hdxM hxs
    obtain ⟨y, hy, hadj, hyp, k, hyk, hk⟩ := inv.prev_sound x dx hdx hdxM hxs
    exact ⟨y, hy, hadj, List.mem_cons_of_mem st.node hyp, k, hyk, hk⟩
  · intro u hu du hdu
    rcases List.mem_cons.mp hu with h | h
    · rw [h] at hdu
      rw [hdn] at hdu
      have := Option.some.inj hdu
      omega
    · have := inv.heap_lb u h du hdu st hsth
      exact this

/-- When the relaxation pass has covered the whole adjacency list, the plain
loop invariant is restored. -/
theorem RInv_to_DInv {g : Graph α} {s t v : α} {c : Nat}
    {heap : List (DState α)} {dist : List (α × Nat)} {prev : List (α × α)}
    {proc : List α}
    (hinv : RInv g s t v c (adjSet g v) heap dist prev proc) :
    DInv g s t heap dist prev proc := by
  refine ⟨hinv.dist_keys, hinv.dist_nodup, hinv.dist_le, hinv.prev_nodup,
    hinv.proc_mem, hinv.settled, ?_, hinv.upper, hinv.active,
    hinv.heap_sound, hinv.heap_nodup, hinv.heap_lb, hinv.src_zero,
    hinv.t_not_proc, hinv.prev_sound⟩
  intro u hu w hww du dw hdu hdw
  by_cases huv : u = v
  · subst huv
    have hc : du = c := by
      have h2 := hinv.hv_dist
      rw [hdu] at h2
      exact Option.some.inj h2
    rw [hc]
    exact hinv.relaxed_done w hww dw hdw
  · exact hinv.relaxed_old u hu huv w hww du dw hdu hdw

/-- One neighbor relaxation preserves the mid-relaxation invariant and never
panics: the neighbor always has a distance entry. -/
theorem relax_step {g : Graph α} {s t : α} (hw : AdjWf g)
    {v : α} {c : Nat} (hvs : IsShortest g s v c)
    {done : List α} {heap : List (DState α)} {dist : List (α × Nat)}
    {prev : List (α × α)} {proc : List α} {nb : α}
    (hnb : nb ∈ adjSet g v) (hnbd : nb ∉ done)
    (hinv : RInv g s t v c done heap dist prev proc) :
    ∃ heap2 dist2 prev2,
      dijkstraRelax v c (heap, dist, prev) nb = some (heap2, dist2, prev2) ∧
      RInv g s t v c (done ++ [nb]) heap2 dist2 prev2 proc ∧
      heap2.length ≤ heap.length + 1 := by
  have hnbN : nb ∈ g.nodes := hw.closed v nb hnb
  obtain ⟨dnb, hdnb⟩ :=
    Option.isSome_iff_exists.mp ((hinv.dist_keys nb).mpr hnbN)
  by_cases hrel : c + 1 < dnb
  · have hpath : PathTo g s nb (c + 1) := PathTo.step hvs.1 hnb
    have hnbp : nb ∉ proc := by
      intro hmem
      obtain ⟨du, hdu, hdus⟩ := hinv.settled nb hmem
      have hdud : du = dnb := by
        rw [hdnb] at hdu
        exact (Option.some.inj hdu).symm
      have := hdus.2 (c + 1) hpath
      omega
    have hnbv : nb ≠ v := by
      intro he
      rw [he] at hdnb
      have h2 := hinv.hv_dist
      rw [h2] at hdnb
      have := Option.some.inj hdnb
      omega
    have hnbs : nb ≠ s := by
      intro he
      rw [he] at hdnb
      rw [hinv.src_zero] at hdnb
      have := Option.some.inj hdnb
      omega
    have hdnbM : dnb ≤ usizeMax := hinv.dist_le nb dnb hdnb
    have hstep : dijkstraRelax v c (heap, dist, prev) nb =
        some (heap ++ [DState.mk (c + 1) nb], mput dist nb (c + 1), mput prev nb v) := by
      show (match mget dist nb with
        | none => none
        | some dnb =>
            if c + 1 < dnb then
              some (heap ++ [DState.mk (c + 1) nb], mput dist nb (c + 1),
                mput prev nb v)
            else some (heap, dist, prev)) = _
      rw [hdnb]
      show (if c + 1 < dnb then
          some (heap ++ [DState.mk (c + 1) nb], mput dist nb (c + 1),
            mput prev nb v)
        else some (heap, dist, prev)) = _
      rw [if_pos hrel]
    refine ⟨heap ++ [DState.mk (c + 1) nb], mput dist nb (c + 1), mput prev nb v,
      hstep, ?_, by simp⟩
    refine ⟨?_, ?_, ?_, mkeys_mput_nodup prev nb v hinv.prev_nodup,
      hinv.proc_mem, ?_, ?_, ?_, ?_, ?_, ?_, ?_, ?_, ?_, hinv.t_not_proc,
      ?_, hinv.hv_proc, ?_, ?_⟩
    · intro x
      rw [mget_mput]
      by_cases hx : x = nb
      · simp [hx, hnbN]
      · rw [if_neg hx]
        exact hinv.dist_keys x
    · rw [mkeys_mput,
        if_pos ((mget_isSome_iff_mem_mkeys dist nb).mp (by rw [hdnb]; rfl))]
      exact hinv.dist_nodup
    · intro x dx
      rw [mget_mput]
      by_cases hx : x = nb
      · rw [if_pos hx]
        intro h2
        have := Option.some.inj h2
        omega
      · rw [if_neg hx]
        exact hinv.dist_le x dx
    · intro u hu
      obtain ⟨du, hdu, hdus⟩ := hinv.settled u hu
      refine ⟨du, ?_, hdus⟩
      rw [mget_mput, if_neg (show ¬ u = nb from fun he => hnbp (he ▸ hu))]
      exact hdu
    · intro u hu huv w hww du dw hdu hdw
      rw [mget_mput, if_neg (show ¬ u = nb from fun he => hnbp (he ▸ hu))] at hdu
      rw [mget_mput] at hdw
      by_cases hwnb : w = nb
      · rw [if_pos hwnb] at hdw
        have hdw2 : c + 1 = dw := Option.some.inj hdw
        have hold := hinv.relaxed_old u hu huv w hww du dnb hdu
          (hwnb ▸ hdnb)
        omega
      · rw [if_neg hwnb] at hdw
        exact hinv.relaxed_old u hu huv w hww du dw hdu hdw
    · intro w hww dw hdw
      rw [mget_mput] at hdw
      rcases List.mem_append.mp hww with h | h
      · have hwnb : ¬ w = nb := fun he => hnbd (he ▸ h)
        rw [if_neg hwnb] at hdw
        exact hinv.relaxed_done w h dw hdw
      · have hwnb : w = nb := List.mem_singleton.mp h
        rw [if_pos hwnb] at hdw
        have := Option.some.inj hdw
        omega
    · intro x dx hdx hdxM
      rw [mget_mput] at hdx
      by_cases hx : x = nb
      · rw [if_pos hx] at hdx
        have hdx2 : c + 1 = dx := Option.some.inj hdx
        rw [hx, ← hdx2]
        exact hpath
      · rw [if_neg hx] at hdx
        exact hinv.upper x dx hdx hdxM
    · intro x hxp dx hdx hdxM
      rw [mget_mput] at hdx
      by_cases hx : x = nb
      · rw [if_pos hx] at hdx
        have hdx2 : c + 1 = dx := Option.some.inj hdx
        refine ⟨DState.mk (c + 1) nb, ?_, ?_, ?_⟩
        · exact List.mem_append.mpr (Or.inr (List.mem_singleton.mpr rfl))
        · rw [hx]
        · rw [← hdx2]
      · rw [if_neg hx] at hdx
        obtain ⟨e, he, hen, hec⟩ := hinv.active x hxp dx hdx hdxM
        exact ⟨e, List.mem_append.mpr (Or.inl he), hen, hec⟩
    · intro e he
      rcases List.mem_append.mp he with h | h
      · obtain ⟨dx, hdx, hdxc, hdxM, hproc⟩ := hinv.heap_sound e h
        rw [mget_mput]
        by_cases hx : e.node = nb
        · have hdx2 : dx = dnb := by
            rw [hx] at hdx
            rw [hdnb] at hdx
            exact (Option.some.inj hdx).symm
          refine ⟨c + 1, by rw [if_pos hx], by omega, by omega, ?_⟩
          intro hmem
          rw [hx] at hmem
          exact absurd hmem hnbp
        · exact ⟨dx, by rw [if_neg hx]; exact hdx, hdxc, hdxM, hproc⟩
      · have he2 : e = DState.mk (c + 1) nb := List.mem_singleton.mp h
        subst he2
        rw [mget_mput]
        refine ⟨c + 1, by rw [if_pos rfl], Nat.le_refl _, by omega, ?_⟩
        intro hmem
        exact absurd hmem hnbp
    · rw [List.nodup_append]
      refine ⟨hinv.heap_nodup, List.nodup_singleton _, ?_⟩
      intro e he he2
      have he3 : e = DState.mk (c + 1) nb := List.mem_singleton.mp he2
      subst he3
      obtain ⟨dx, hdx, hdxc, _, _⟩ := hinv.heap_sound _ he
      have hdx2 : dx = dnb := by
        rw [hdnb] at hdx
        exact (Option.some.inj hdx).symm
      simp only [] at hdxc
      omega
    · intro u hu du hdu e he
      rw [mget_mput, if_neg (show ¬ u = nb from fun h2 => hnbp (h2 ▸ hu))] at hdu
      rcases List.mem_append.mp he with h | h
      · exact hinv.heap_lb u hu du hdu e h
      · have he2 : e = DState.mk (c + 1) nb := List.mem_singleton.mp h
        subst he2
        have := hinv.proc_le_c u hu du hdu
        simp only []
        omega
    · rw [mget_mput, if_neg (fun he => hnbs he.symm)]
      exact hinv.src_zero
    · intro x dx hdx hdxM hxs
      rw [mget_mput] at hdx
      by_cases hx : x = nb
      · rw [if_pos hx] at hdx
        have hdx2 : c + 1 = dx := Option.some.inj hdx
        refine ⟨v, ?_, hx ▸ hnb, hinv.hv_proc, c, hvs, by omega⟩
        rw [mget_mput, if_pos hx]
      · rw [if_neg hx] at hdx
        obtain ⟨y, hy, hadj, hyp, k, hyk, hk⟩ :=
          hinv.prev_sound x dx hdx hdxM hxs
        refine ⟨y, ?_, hadj, hyp, k, hyk, hk⟩
        rw [mget_mput, if_neg hx]
        exact hy
    · rw [mget_mput, if_neg (fun he => hnbv he.symm)]
      exact hinv.hv_dist
    · intro u hu du hdu
      rw [mget_mput, if_neg (show ¬ u = nb from fun he => hnbp (he ▸ hu))] at hdu
      exact hinv.proc_le_c u hu du hdu
  · have hstep : dijkstraRelax v c (heap, dist, prev) nb =
        some (heap, dist, prev) := by
      show (match mget dist nb with
        | none => none
        | some dnb =>
            if c + 1 < dnb then
              some (heap ++ [DState.mk (c + 1) nb], mput dist nb (c + 1),
                mput prev nb v)
            else some (heap, dist, prev)) = _
      rw [hdnb]
      show (if c + 1 < dnb then
          some (heap ++ [DState.mk (c + 1) nb], mput dist nb (c + 1),
            mput prev nb v)
        else some (heap, dist, prev)) = _
      rw [if_neg hrel]
    refine ⟨heap, dist, prev, hstep, ?_, by omega⟩
    refine ⟨hinv.dist_keys, hinv.dist_nodup, hinv.dist_le, hinv.prev_nodup,
      hinv.proc_mem, hinv.settled, hinv.relaxed_old, ?_, hinv.upper,
      hinv.active, hinv.heap_sound, hinv.heap_nodup, hinv.heap_lb,
      hinv.src_zero, hinv.t_not_proc, hinv.prev_sound, hinv.hv_proc,
      hinv.hv_dist, hinv.proc_le_c⟩
    intro w hww dw hdw
    rcases List.mem_append.mp hww with h | h
    · exact hinv.relaxed_done w h dw hdw
    · have hwnb : w = nb := List.mem_singleton.mp h
      rw [hwnb] at hdw
      rw [hdnb] at hdw
      have := Option.some.inj hdw
      omega

/-- Folding the relaxation over the remaining neighbors succeeds and restores
the invariant for the full adjacency list, growing the heap by at most one
entry per neighbor. -/
theorem relax_fold {g : Graph α} {s t : α} (hw : AdjWf g)
    {v : α} {c : Nat} (hvs : IsShortest g s v c) :
    ∀ (todo done : List α) (heap : List (DState α)) (dist : List (α × Nat))
      (prev : List (α × α)) (proc : List α),
    done ++ todo = adjSet g v →
    RInv g s t v c done heap dist prev proc →
    ∃ heap3 dist3 prev3,
      List.foldlM (dijkstraRelax v c) (heap, dist, prev) todo =
        some (heap3, dist3, prev3) ∧
      RInv g s t v c (adjSet g v) heap3 dist3 prev3 proc ∧
      heap3.length ≤ heap.length + todo.length := by
  intro todo
  induction todo with
  | nil =>
      intro done heap dist prev proc hsplit hinv
      rw [List.append_nil] at hsplit
      refine ⟨heap, dist, prev, rfl, ?_, by omega⟩
      rw [← hsplit]
      exact hinv
  | cons nb rest ih =>
      intro done heap dist prev proc hsplit hinv
      have hnb : nb ∈ adjSet g v := by
        rw [← hsplit]
        exact List.mem_append_right done (List.mem_cons_self nb rest)
      have hnbd : nb ∉ done := by
        have hnd := hw.adj_vals_nodup v
        rw [← hsplit, List.nodup_append] at hnd
        intro hmem
        exact hnd.2.2 hmem (List.mem_cons_self nb rest)
      obtain ⟨heap2, dist2, prev2, hstep, hinv2, hlen2⟩ :=
        relax_step hw hvs hnb hnbd hinv
      obtain ⟨heap3, dist3, prev3, hfold, hinv3, hlen3⟩ :=
        ih (done ++ [nb]) heap2 dist2 prev2 proc
          (by rw [List.append_assoc]; exact hsplit) hinv2
      refine ⟨heap3, dist3, prev3, ?_, hinv3, by simp at hlen3 ⊢; omega⟩
      rw [show List.foldlM (dijkstraRelax v c) (heap, dist, prev)
          (nb :: rest) =
          dijkstraRelax v c (heap, dist, prev) nb >>= fun b =>
            List.foldlM (dijkstraRelax v c) b rest from rfl]
      rw [hstep]
      exact hfold

/-- The invariant holds at loop entry: all distances are the sentinel except
the source at 0, and the heap holds exactly `(0, source)`. -/
theorem dijkstra_initial {g : Graph α} {s t : α} (hw : AdjWf g)
    (hs : s ∈ g.nodes) :
    DInv g s t [DState.mk 0 s]
      (mput (g.nodes.map (fun x => (x, usizeMax))) s 0) [] [] := by
  have hget : ∀ x, mget (mput (g.nodes.map (fun x => (x, usizeMax))) s 0) x =
      if x = s then some 0
      else (if x ∈ g.nodes then some usizeMax else none) := by
    intro x
    rw [mget_mput, mget_const_map]
  refine ⟨?_, ?_, ?_, by simp [mkeys], ?_, ?_, ?_, ?_, ?_, ?_, by simp, ?_,
    ?_, by simp, ?_⟩
  · intro x
    rw [hget x]
    by_cases hx : x = s
    · simp [hx, hs]
    · by_cases hxn : x ∈ g.nodes <;> simp [hx, hxn]
  · rw [mkeys_mput, mkeys_const_map, if_pos hs]
    exact hw.nodes_nodup
  · intro x dx
    rw [hget x]
    by_cases hx : x = s
    · rw [if_pos hx]
      intro h
      have := Option.some.inj h
      omega
    · rw [if_neg hx]
      by_cases hxn : x ∈ g.nodes
      · rw [if_pos hxn]
        intro h
        have := Option.some.inj h
        omega
      · rw [if_neg hxn]
        intro h
        exact absurd h (by simp)
  · intro u hu
    simp at hu
  · intro u hu
    simp at hu
  · intro u hu
    simp at hu
  · intro x dx hdx hdxM
    rw [hget x] at hdx
    by_cases hx : x = s
    · rw [if_pos hx] at hdx
      have h0 := Option.some.inj hdx
      rw [hx, ← h0]
      exact PathTo.refl
    · rw [if_neg hx] at hdx
      by_cases hxn : x ∈ g.nodes
      · rw [if_pos hxn] at hdx
        have := Option.some.inj hdx
        exact absurd hdxM (by omega)
      · rw [if_neg hxn] at hdx
        exact absurd hdx (by simp)
  · intro x hxp dx hdx hdxM
    rw [hget x] at hdx
    by_cases hx : x = s
    · rw [if_pos hx] at hdx
      have h0 := Option.some.inj hdx
      refine ⟨DState.mk 0 s, List.mem_singleton.mpr rfl, hx.symm, ?_⟩
      exact h0
    · rw [if_neg hx] at hdx
      by_cases hxn : x ∈ g.nodes
      · rw [if_pos hxn] at hdx
        have := Option.some.inj hdx
        exact absurd hdxM (by omega)
      · rw [if_neg hxn] at hdx
        exact absurd hdx (by simp)
  · intro e he
    have he2 : e = DState.mk 0 s := List.mem_singleton.mp he
    subst he2
    refine ⟨0, ?_, Nat.le_refl _, usizeMax_pos, ?_⟩
    · rw [hget s, if_pos rfl]
    · intro hmem
      simp at hmem
  · intro u hu
    simp at hu
  · rw [hget s, if_pos rfl]
  · intro x dx hdx hdxM hxs
    rw [hget x, if_neg hxs] at hdx
    by_cases hxn : x ∈ g.nodes
    · rw [if_pos hxn] at hdx
      have := Option.some.inj hdx
      exact absurd hdxM (by omega)
    · rw [if_neg hxn] at hdx
      exact absurd hdx (by simp)

/-- The Dijkstra loop, started in an invariant state with sufficient fuel,
returns `some none` exactly on unreachable targets and otherwise the exact
shortest hop count together with a predecessor map that walks back to the
source. -/
theorem dijkstraLoop_spec {g : Graph α} {s t : α} (hw : AdjWf g)
    (hs : s ∈ g.nodes) (hN : g.nodes.length < usizeMax) :
    ∀ (fuel : Nat) (heap : List (DState α)) (dist : List (α × Nat))
      (prev : List (α × α)) (proc : List α),
    DInv g s t heap dist prev proc →
    heap.length + remAdj g proc < fuel →
    (¬ Reach g s t → dijkstraLoop g t fuel heap dist prev = some none) ∧
    (∀ d, IsShortest g s t d →
      ∃ prev2, dijkstraLoop g t fuel heap dist prev = some (some (d, prev2)) ∧
        (mkeys prev2).Nodup ∧ PChain g s prev2 t d) := by
  intro fuel
  induction fuel with
  | zero =>
      intro heap dist prev proc inv hfuel
      omega
  | succ fuel ih =>
      intro heap dist prev proc inv hfuel
      cases hpop : popHeap heap with
      | none =>
          have hheap : heap = [] := (popHeap_none_iff heap).mp hpop
          subst hheap
          have hloop : dijkstraLoop g t (fuel + 1) [] dist prev =
              some none := rfl
          refine ⟨fun _ => hloop, ?_⟩
          intro d hd
          exfalso
          exact inv.t_not_proc (dijkstra_empty_all_proc hw hs hN inv t d hd.1)
      | some p =>
          obtain ⟨st, heap2⟩ := p
          have hperm := popHeap_perm hpop
          have hsth : st ∈ heap :=
            hperm.mem_iff.mpr (List.mem_cons_self st heap2)
          obtain ⟨dn, hdn, hdnc, hdnM, hproc⟩ := inv.heap_sound st hsth
          have hlen2 : heap.length = heap2.length + 1 := by
            have := hperm.length_eq
            simpa using this
          have hunf : dijkstraLoop g t (fuel + 1) heap dist prev =
              (if st.node = t then some (some (st.cost, prev))
                else match mget dist st.node with
                  | none => none
                  | some dn =>
                      if dn < st.cost then
                        dijkstraLoop g t fuel heap2 dist prev
                      else
                        match mget g.adj st.node with
                        | none => none
                        | some neighbors =>
                            match List.foldlM
                                (dijkstraRelax st.node st.cost)
                                (heap2, dist, prev) neighbors with
                            | none => none
                            | some st2 =>
                                dijkstraLoop g t fuel st2.1 st2.2.1
                                  st2.2.2) := by
            show (match popHeap heap with
              | none => some none
              | some (st, heap2) =>
                  if st.node = t then some (some (st.cost, prev))
                  else match mget dist st.node with
                    | none => none
                    | some dn =>
                        if dn < st.cost then
                          dijkstraLoop g t fuel heap2 dist prev
                        else
                          match mget g.adj st.node with
                          | none => none
                          | some neighbors =>
                              match List.foldlM
                                  (dijkstraRelax st.node st.cost)
                                  (heap2, dist, prev) neighbors with
                              | none => none
                              | some st2 =>
                                  dijkstraLoop g t fuel st2.1 st2.2.1
                                    st2.2.2) = _
            rw [hpop]
          by_cases hnt : st.node = t
          · have htp : t ∉ proc := inv.t_not_proc
            obtain ⟨e2, he2, he2n, he2c⟩ := inv.active st.node
              (by rw [hnt]; exact htp) dn hdn hdnM
            have hmin := popHeap_min hpop e2 he2
            have hcost : st.cost = dn := by omega
            have hpatht : PathTo g s t dn := hnt ▸ inv.upper st.node dn hdn hdnM
            constructor
            · intro hnr
              exact absurd ⟨dn, hpatht⟩ hnr
            · intro d hd
              have hcross := dijkstra_cross hw hs hN inv hpop
              have h1 : st.cost ≤ d := hcross t d hd.1 htp
              have h2 : d ≤ dn := hd.2 dn hpatht
              have hdc : st.cost = d := by omega
              refine ⟨prev, by rw [hunf, if_pos hnt, hdc], inv.prev_nodup, ?_⟩
              by_cases hts : t = s
              · subst hts
                have hd0 : d = 0 := IsShortest_unique hd (IsShortest_self g t)
                rw [hd0]
                exact PChain.base
              · have hdt : mget dist t = some d := by
                  rw [← hnt, hdn]
                  rw [show dn = d from by omega]
                have hdM : d < usizeMax := by omega
                obtain ⟨y, hy, hadj, hyp, k, hyk, hk⟩ :=
                  inv.prev_sound t d hdt hdM hts
                rw [hk]
                exact PChain.step hy hadj hyk (hk ▸ hd)
                  (chain_of_settled hw hs hN inv k y hyp hyk)
          · by_cases hstale : dn < st.cost
            · have hrun : dijkstraLoop g t (fuel + 1) heap dist prev =
                  dijkstraLoop g t fuel heap2 dist prev := by
                rw [hunf, if_neg hnt, hdn]
                show (if dn < st.cost then
                    dijkstraLoop g t fuel heap2 dist prev
                  else
                    match mget g.adj st.node with
                    | none => none
                    | some neighbors =>
                        match List.foldlM (dijkstraRelax st.node st.cost)
                            (heap2, dist, prev) neighbors with
                        | none => none
                        | some st2 =>
                            dijkstraLoop g t fuel st2.1 st2.2.1 st2.2.2) = _
                rw [if_pos hstale]
              have inv2 := DInv_stale inv hpop hdn hstale
              have hfuel2 : heap2.length + remAdj g proc < fuel := by omega
              rw [hrun]
              exact ih heap2 dist prev proc inv2 hfuel2
            · have hdneq : dn = st.cost := by omega
              have hvnp : st.node ∉ proc := fun hmem => hstale (hproc hmem)
              have hup : PathTo g s st.node dn :=
                inv.upper st.node dn hdn hdnM
              have hcross := dijkstra_cross hw hs hN inv hpop
              have hshort : IsShortest g s st.node st.cost :=
                ⟨hdneq ▸ hup, fun m hm => hcross st.node m hm hvnp⟩
              have hvN : st.node ∈ g.nodes := by
                rw [← inv.dist_keys st.node, hdn]
                rfl
              obtain ⟨neighbors, hnbs⟩ := Option.isSome_iff_exists.mp
                ((mget_isSome_iff_mem_mkeys g.adj st.node).mpr hvN)
              have hadjeq : adjSet g st.node = neighbors := by
                simp [adjSet, hnbs]
              have hrinv : RInv g s t st.node st.cost [] heap2 dist prev
                  (st.node :: proc) :=
                DInv_to_RInv inv hpop (hdneq ▸ hdn) hshort hnt
              obtain ⟨heap3, dist3, prev3, hfold, hinv3, hlen3⟩ :=
                relax_fold hw hshort neighbors [] heap2 dist prev
                  (st.node :: proc) (by rw [hadjeq]; rfl) hrinv
              have hinv4 : DInv g s t heap3 dist3 prev3 (st.node :: proc) :=
                RInv_to_DInv hinv3
              have hrun : dijkstraLoop g t (fuel + 1) heap dist prev =
                  dijkstraLoop g t fuel heap3 dist3 prev3 := by
                rw [hunf, if_neg hnt, hdn]
                show (if dn < st.cost then
                    dijkstraLoop g t fuel heap2 dist prev
                  else
                    match mget g.adj st.node with
                    | none => none
                    | some neighbors =>
                        match List.foldlM (dijkstraRelax st.node st.cost)
                            (heap2, dist, prev) neighbors with
                        | none => none
                        | some st2 =>
                            dijkstraLoop g t fuel st2.1 st2.2.1 st2.2.2) = _
                rw [if_neg hstale, hnbs]
                show (match List.foldlM (dijkstraRelax st.node st.cost)
                    (heap2, dist, prev) neighbors with
                  | none => none
                  | some st2 =>
                      dijkstraLoop g t fuel st2.1 st2.2.1 st2.2.2) = _
                rw [hfold]
              have hrem : remAdj g proc =
                  (adjSet g st.node).length + remAdj g (st.node :: proc) :=
                remAdj_cons hw.nodes_nodup hvN hvnp
              have hfuel2 : heap3.length + remAdj g (st.node :: proc) <
                  fuel := by
                rw [hadjeq] at hrem
                omega
              rw [hrun]
              exact ih heap3 dist3 prev3 (st.node :: proc) hinv4 hfuel2

/-- Full behavioral specification of `Dijkstra::shortest_path_util` for a
source present in a well-formed graph of machine-representable size. -/
theorem Dijkstra_correct {g : Graph α} {s t : α} (hw : AdjWf g)
    (hs : s ∈ g.nodes) (hN : g.nodes.length < usizeMax) :
    (¬ Reach g s t → Dijkstra.shortest_path_util g s t = some none) ∧
    (∀ d, IsShortest g s t d →
      ∃ prev2, Dijkstra.shortest_path_util g s t = some (some (d, prev2)) ∧
        (mkeys prev2).Nodup ∧ PChain g s prev2 t d) := by
  have hsget : mget (g.nodes.map (fun x => (x, usizeMax))) s =
      some usizeMax := by
    rw [mget_const_map, if_pos hs]
  have hunf : Dijkstra.shortest_path_util g s t =
      dijkstraLoop g t (totalAdj g + 2) [DState.mk 0 s]
        (mput (g.nodes.map (fun x => (x, usizeMax))) s 0) [] := by
    unfold Dijkstra.shortest_path_util
    rw [hsget]
  have hinv := dijkstra_initial (t := t) hw hs
  have hmain := dijkstraLoop_spec hw hs hN (totalAdj g + 2) [DState.mk 0 s]
    (mput (g.nodes.map (fun x => (x, usizeMax))) s 0) [] [] hinv
    (by rw [show ([DState.mk 0 s] : List (DState α)).length = 1 from rfl,
      remAdj_nil hw.nodes_nodup]; omega)
  rw [hunf]
  exact hmain

end DijkstraProof

section SearchClaims

variable [LinearOrder α]

/-- C2: for every API-built graph (directed or undirected) and nodes `s`,
`t` present in it - with the graph small enough for `usize` distances,
which every real in-memory graph is - `BFS::shortest_path_length` and
`Dijkstra::shortest_path_length` return the same value: `Some(None)`
exactly when `t` is unreachable from `s`, and otherwise `Some(Some d)`
for the same minimal hop count `d`; neither panics. -/
theorem c2_bfs_dijkstra_length_agree {g : Graph α} {s t : α}
    (hb : DBuilt g ∨ UBuilt g) (hs : s ∈ g.nodes) (ht : t ∈ g.nodes)
    (hN : g.nodes.length < usizeMax) :
    ∃ r : Option Nat, BFS.shortest_path_length g s t = some r ∧
      Dijkstra.shortest_path_length g s t = some r ∧
      (r = none ↔ ¬ Reach g s t) ∧
      ∀ d, r = some d → IsShortest g s t d := by
  have hw := builtAdjWf hb
  by_cases hr : Reach g s t
  · obtain ⟨d, hd⟩ := reach_shortest hr
    obtain ⟨prevB, hutilB, _, _, _⟩ := (BFS_correct hw hs).2 d hd
    obtain ⟨prevD, hutilD, _, _⟩ := (Dijkstra_correct hw hs hN).2 d hd
    refine ⟨some d, ?_, ?_, ?_, ?_⟩
    · unfold BFS.shortest_path_length
      rw [hutilB]
      rfl
    · unfold Dijkstra.shortest_path_length
      rw [hutilD]
      rfl
    · exact ⟨fun h => absurd h (by simp), fun h => absurd hr h⟩
    · intro d2 h
      rw [← Option.some.inj h]
      exact hd
  · have hutilB := (BFS_correct hw hs).1 hr
    have hutilD := (Dijkstra_correct hw hs hN).1 hr
    refine ⟨none, ?_, ?_, ⟨fun _ => hr, fun _ => rfl⟩, ?_⟩
    · unfold BFS.shortest_path_length
      rw [hutilB]
      rfl
    · unfold Dijkstra.shortest_path_length
      rw [hutilD]
      rfl
    · intro d2 h
      exact absurd h (by simp)

theorem c2_bfs_dijkstra_length_agree_witness :
    ((0 : Nat) ∈ gexD.nodes ∧ (1 : Nat) ∈ gexD.nodes ∧
      gexD.nodes.length < usizeMax) ∧
    (∃ r : Option Nat, BFS.shortest_path_length gexD 0 1 = some r ∧
      Dijkstra.shortest_path_length gexD 0 1 = some r ∧
      (r = none ↔ ¬ Reach gexD 0 1) ∧
      ∀ d, r = some d → IsShortest gexD 0 1 d) :=
  ⟨⟨by decide, by decide, by decide⟩,
    c2_bfs_dijkstra_length_agree (Or.inl gexD_built) (by decide) (by decide)
      (by decide)⟩

/-- C3: for every API-built graph of machine-representable size and nodes
`s`, `t` present in it, whenever `shortest_path` (BFS or Dijkstra) returns
an actual path `p`, that path starts at `s`, ends at `t`, steps only along
edges of the graph, and its edge count (`p.length - 1`) is exactly the
value reported by `shortest_path_length`. -/
theorem c3_shortest_path_valid {g : Graph α} {s t : α}
    (hb : DBuilt g ∨ UBuilt g) (hs : s ∈ g.nodes) (ht : t ∈ g.nodes)
    (hN : g.nodes.length < usizeMax) :
    (∀ p, BFS.shortest_path g s t = some (some p) →
      p.head? = some s ∧ p.getLast? = some t ∧
      List.Chain' (fun a b => b ∈ adjSet g a) p ∧
      BFS.shortest_path_length g s t = some (some (p.length - 1))) ∧
    (∀ p, Dijkstra.shortest_path g s t = some (some p) →
      p.head? = some s ∧ p.getLast? = some t ∧
      List.Chain' (fun a b => b ∈ adjSet g a) p ∧
      Dijkstra.shortest_path_length g s t = some (some (p.length - 1))) := by
  have hw := builtAdjWf hb
  by_cases hr : Reach g s t
  · obtain ⟨d, hd⟩ := reach_shortest hr
    obtain ⟨prevB, hutilB, hndB, hokB, htsB⟩ := (BFS_correct hw hs).2 d hd
    obtain ⟨pB, hbpB, hlenB, hheadB, hlastB, hchainB⟩ :=
      build_path_spec hndB hokB hd htsB
    have hspB : BFS.shortest_path g s t = some (some pB) := by
      unfold BFS.shortest_path
      rw [hutilB]
      show (match build_path prevB s t with
        | none => none
        | some p => some (some p)) = some (some pB)
      rw [hbpB]
    obtain ⟨prevD, hutilD, hndD, hchD⟩ := (Dijkstra_correct hw hs hN).2 d hd
    obtain ⟨pD, hbpD, hlenD, hheadD, hlastD, hchainD⟩ :=
      build_pathD_spec hndD hchD
    have hspD : Dijkstra.shortest_path g s t = some (some pD) := by
      unfold Dijkstra.shortest_path
      rw [hutilD]
      show (match build_path prevD s t with
        | none => none
        | some p => some (some p)) = some (some pD)
      rw [hbpD]
    constructor
    · intro p hp
      rw [hspB] at hp
      have hpp : pB = p := Option.some.inj (Option.some.inj hp)
      subst hpp
      refine ⟨hheadB, hlastB, hchainB, ?_⟩
      have hL : pB.length - 1 = d := by omega
      unfold BFS.shortest_path_length
      rw [hutilB, hL]
      rfl
    · intro p hp
      rw [hspD] at hp
      have hpp : pD = p := Option.some.inj (Option.some.inj hp)
      subst hpp
      refine ⟨hheadD, hlastD, hchainD, ?_⟩
      have hL : pD.length - 1 = d := by omega
      unfold Dijkstra.shortest_path_length
      rw [hutilD, hL]
      rfl
  · have hutilB := (BFS_correct hw hs).1 hr
    have hutilD := (Dijkstra_correct hw hs hN).1 hr
    constructor
    · intro p hp
      have hnone : BFS.shortest_path g s t = some none := by
        unfold BFS.shortest_path
        rw [hutilB]
      rw [hnone] at hp
      simp at hp
    · intro p hp
      have hnone : Dijkstra.shortest_path g s t = some none := by
        unfold Dijkstra.shortest_path
        rw [hutilD]
      rw [hnone] at hp
      simp at hp

theorem c3_shortest_path_valid_witness :
    ((0 : Nat) ∈ gexU.nodes ∧ (1 : Nat) ∈ gexU.nodes ∧
      gexU.nodes.length < usizeMax) ∧
    ((∀ p, BFS.shortest_path gexU 0 1 = some (some p) →
      p.head? = some 0 ∧ p.getLast? = some 1 ∧
      List.Chain' (fun a b => b ∈ adjSet gexU a) p ∧
      BFS.shortest_path_length gexU 0 1 = some (some (p.length - 1))) ∧
    (∀ p, Dijkstra.shortest_path gexU 0 1 = some (some p) →
      p.head? = some 0 ∧ p.getLast? = some 1 ∧
      List.Chain' (fun a b => b ∈ adjSet gexU a) p ∧
      Dijkstra.shortest_path_length gexU 0 1 = some (some (p.length - 1)))) :=
  ⟨⟨by decide, by decide, by decide⟩,
    c3_shortest_path_valid (Or.inr gexU_built) (by decide) (by decide)
      (by decide)⟩

/-- C7: for every API-built graph of machine-representable size and nodes
`s`, `t` present in it, both search algorithms report "no path" through an
explicit channel - `has_path` is `false` and `shortest_path_length` is the
inner `None` - exactly when `t` is unreachable from `s`; and when `s = t`
the result is never that explicit absence but the genuine zero-length
answer: hop count `Some 0` and the one-node path `[s]`. -/
theorem c7_no_path_explicit {g : Graph α} {s t : α}
    (hb : DBuilt g ∨ UBuilt g) (hs : s ∈ g.nodes) (ht : t ∈ g.nodes)
    (hN : g.nodes.length < usizeMax) :
    (∃ b, BFS.has_path g s t = some b ∧ Dijkstra.has_path g s t = some b ∧
      (b = true ↔ Reach g s t)) ∧
    (BFS.shortest_path_length g s t = some none ↔ ¬ Reach g s t) ∧
    (Dijkstra.shortest_path_length g s t = some none ↔ ¬ Reach g s t) ∧
    (s = t →
      BFS.shortest_path_length g s t = some (some 0) ∧
      Dijkstra.shortest_path_length g s t = some (some 0) ∧
      BFS.shortest_path g s t = some (some [s]) ∧
      Dijkstra.shortest_path g s t = some (some [s])) := by
  have hw := builtAdjWf hb
  by_cases hr : Reach g s t
  · obtain ⟨d, hd⟩ := reach_shortest hr
    obtain ⟨prevB, hutilB, hndB, hokB, htsB⟩ := (BFS_correct hw hs).2 d hd
    obtain ⟨prevD, hutilD, hndD, hchD⟩ := (Dijkstra_correct hw hs hN).2 d hd
    refine ⟨⟨true, ?_, ?_, by simp [hr]⟩, ?_, ?_, ?_⟩
    · unfold BFS.has_path
      rw [hutilB]
      rfl
    · unfold Dijkstra.has_path
      rw [hutilD]
      rfl
    · constructor
      · intro h
        unfold BFS.shortest_path_length at h
        rw [hutilB] at h
        simp at h
      · intro h
        exact absurd hr h
    · constructor
      · intro h
        unfold Dijkstra.shortest_path_length at h
        rw [hutilD] at h
        simp at h
      · intro h
        exact absurd hr h
    · intro hst
      cases hst
      have hd0 : d = 0 := IsShortest_unique hd (IsShortest_self g s)
      subst hd0
      obtain ⟨pB, hbpB, hlenB, hheadB, hlastB, hchainB⟩ :=
        build_path_spec hndB hokB hd htsB
      obtain ⟨pD, hbpD, hlenD, hheadD, hlastD, hchainD⟩ :=
        build_pathD_spec hndD hchD
      have hpBs : pB = [s] := by
        cases pB with
        | nil => simp at hlenB
        | cons a l =>
            have hla : l = [] := by
              simp at hlenB
              exact hlenB
            subst hla
            have has : a = s := by simpa using hheadB
            rw [has]
      have hpDs : pD = [s] := by
        cases pD with
        | nil => simp at hlenD
        | cons a l =>
            have hla : l = [] := by
              simp at hlenD
              exact hlenD
            subst hla
            have has : a = s := by simpa using hheadD
            rw [has]
      refine ⟨?_, ?_, ?_, ?_⟩
      · unfold BFS.shortest_path_length
        rw [hutilB]
        rfl
      · unfold Dijkstra.shortest_path_length
        rw [hutilD]
        rfl
      · unfold BFS.shortest_path
        rw [hutilB]
        show (match build_path prevB s s with
          | none => none
          | some p => some (some p)) = some (some [s])
        rw [hbpB, hpBs]
      · unfold Dijkstra.shortest_path
        rw [hutilD]
        show (match build_path prevD s s with
          | none => none
          | some p => some (some p)) = some (some [s])
        rw [hbpD, hpDs]
  · have hutilB := (BFS_correct hw hs).1 hr
    have hutilD := (Dijkstra_correct hw hs hN).1 hr
    refine ⟨⟨false, ?_, ?_, ?_⟩, ?_, ?_, ?_⟩
    · unfold BFS.has_path
      rw [hutilB]
      rfl
    · unfold Dijkstra.has_path
      rw [hutilD]
      rfl
    · exact ⟨fun h => absurd h (by simp), fun h => absurd h hr⟩
    · refine ⟨fun _ => hr, fun _ => ?_⟩
      unfold BFS.shortest_path_length
      rw [hutilB]
      rfl
    · refine ⟨fun _ => hr, fun _ => ?_⟩
      unfold Dijkstra.shortest_path_length
      rw [hutilD]
      rfl
    · intro hst
      exfalso
      refine hr ⟨0, ?_⟩
      rw [← hst]
      exact PathTo.refl

theorem c7_no_path_explicit_witness :
    ((0 : Nat) ∈ gexD.nodes ∧ gexD.nodes.length < usizeMax) ∧
    ((∃ b, BFS.has_path gexD 0 0 = some b ∧
      Dijkstra.has_path gexD 0 0 = some b ∧ (b = true ↔ Reach gexD 0 0)) ∧
    (BFS.shortest_path_length gexD 0 0 = some none ↔ ¬ Reach gexD 0 0) ∧
    (Dijkstra.shortest_path_length gexD 0 0 = some none ↔ ¬ Reach gexD 0 0) ∧
    ((0 : Nat) = 0 →
      BFS.shortest_path_length gexD 0 0 = some (some 0) ∧
      Dijkstra.shortest_path_length gexD 0 0 = some (some 0) ∧
      BFS.shortest_path gexD 0 0 = some (some [0]) ∧
      Dijkstra.shortest_path gexD 0 0 = some (some [0]))) :=
  ⟨⟨by decide, by decide⟩,
    c7_no_path_explicit (Or.inl gexD_built) (by decide) (by decide)
      (by decide)⟩

end SearchClaims

end NxGraph
